import Mathlib

/-!
Connected-component decomposition (`src/libcola/connected_components.cpp`)

A shallow embedding of `cola::connectedComponents` and `cola::ccomponents::dfs`.

Conventions of the embedding.

* A `Node*` is always the address of an element of the contiguous array `vs`; it is
  modelled by the index of that element.  `set<Node*>` orders by address, which for
  elements of one array is the order of the indices, so `remaining` is a list of indices
  kept in ascending order and `*remaining.begin()` is its head.
* A `Rectangle*` is an opaque handle, modelled by a natural number.
* A `Component*` is `none` for the null pointer and `some p` for the object that is (or
  will be, once pushed) entry `p` of the output vector `components`.  The output vector is
  modelled by the list of the objects its entries point to.
* `double gap` is only ever copied, never computed with; it is modelled by an integer
  payload.
* `unsigned` is 32 bits wide: `unsigned n = rs.size()` is the size reduced modulo `2^32`.
* The recursion of `dfs` and the `while` loop are run with a fuel counter; the theorems
  show the fuel given by `connectedComponents` is never exhausted.
-/

namespace cola

/-- A separation constraint `SimpleConstraint(left, right, gap)`. -/
structure SimpleConstraint where
  left : Nat
  right : Nat
  gap : Int
  deriving DecidableEq, Repr

/-- The result unit `cola::Component`: global ids, rectangle handles, local edges and the
local constraints of the two axes. -/
structure Component where
  node_ids : List Nat
  rects : List Nat
  edges : List (Nat × Nat)
  scx : List SimpleConstraint
  scy : List SimpleConstraint
  deriving DecidableEq, Repr

/-- A freshly allocated component (`new Component`): all containers empty. -/
def Component.empty : Component := ⟨[], [], [], [], []⟩

namespace ccomponents

/-- The scratch node `ccomponents::Node`; `neighbours` holds indices into `vs`. -/
structure Node where
  id : Nat
  visited : Bool
  neighbours : List Nat
  r : Nat
  deriving DecidableEq, Repr

/-- A value-initialised node, the content of `vector<Node> vs(n)` before the first loop. -/
def Node.blank : Node := ⟨0, false, [], 0⟩

/-- The index map `map<unsigned, pair<Component*, unsigned>>`: `none` when the key has no
entry. -/
abbrev CMap := Nat → Option (Option Nat × Nat)

/-- The empty index map. -/
def CMap.emptyMap : CMap := fun _ => none

/-- The assignment `cmap[k] = v`. -/
def CMap.assign (m : CMap) (k : Nat) (v : Option Nat × Nat) : CMap :=
  fun j => if j = k then some v else m j

/-- The read `cmap[k]`: a missing key is inserted with the value-initialised pair
`(nullptr, 0)`, which is returned. -/
def CMap.index (m : CMap) (k : Nat) : (Option Nat × Nat) × CMap :=
  match m k with
  | some e => (e, m)
  | none => ((none, 0), m.assign k (none, 0))

/-- The node `*v` for a node pointer `v`. -/
def deref (vs : List Node) (v : Nat) : Node := vs.getD v Node.blank

/-- The store `v->visited = true`. -/
def setVisited (vs : List Node) (v : Nat) : List Node :=
  vs.set v { deref vs v with visited := true }

/-- The mutable state `dfs` works on: the node array, the `remaining` set, the index map
and the component under construction. -/
structure DfsState where
  vs : List Node
  remaining : List Nat
  cmap : CMap
  component : Component

/-- Lines 18-22 of `dfs`: mark `v`, erase it from `remaining`, record its local index and
append its id and rectangle to the component whose pointer is `p`. -/
def visit (p : Nat) (v : Nat) (s : DfsState) : DfsState :=
  { vs := setVisited s.vs v
    remaining := s.remaining.erase v
    cmap := s.cmap.assign (deref s.vs v).id (some p, s.component.node_ids.length)
    component :=
      { s.component with
        node_ids := s.component.node_ids ++ [(deref s.vs v).id]
        rects := s.component.rects ++ [(deref s.vs v).r] } }

/-- The `for` loop of `dfs` (lines 23-28) over the neighbour pointers still to be tried,
with `rec` standing for the recursive call. -/
def dfsLoop (rec : Nat → DfsState → Option DfsState) : List Nat → DfsState → Option DfsState
  | [], s => some s
  | u :: us, s =>
    if (deref s.vs u).visited then dfsLoop rec us s
    else (rec u s).bind (dfsLoop rec us)

/-- The recursive `dfs(v, remaining, component, cmap)`, `p` being the component pointer.
The first argument bounds the recursion depth; `none` means it was exhausted.  The
neighbour list of `v` is never written by `dfs`, so it is read once, before the loop. -/
def dfs (p : Nat) : Nat → Nat → DfsState → Option DfsState
  | 0, _, _ => none
  | fuel + 1, v, s => dfsLoop (dfs p fuel) (deref s.vs v).neighbours (visit p v s)

end ccomponents

open ccomponents

/-- The `unsigned` node count `n = rs.size()`. -/
def numNodes (rs : List Nat) : Nat := rs.length % 4294967296

/-- Lines 42-49: the node array after the initialisation loop. -/
def initNodes (rs : List Nat) : List Node :=
  (List.range (numNodes rs)).map fun i => ⟨i, false, [], rs.getD i 0⟩

/-- The `remaining` set after the initialisation loop: every node, in address order. -/
def initRemaining (rs : List Nat) : List Nat := List.range (numNodes rs)

/-- The statement `vs[a].neighbours.push_back(&vs[b])`. -/
def pushNeighbour (vs : List Node) (a b : Nat) : List Node :=
  vs.set a { deref vs a with neighbours := (deref vs a).neighbours ++ [b] }

/-- Lines 50-53: the adjacency loop.  `vs[..]` is unchecked, so an endpoint that is not an
index of `vs` is an out-of-range access; that is reported as `none`. -/
def buildAdjacency : List Node → List (Nat × Nat) → Option (List Node)
  | vs, [] => some vs
  | vs, e :: es =>
    if e.1 < vs.length ∧ e.2 < vs.length then
      buildAdjacency (pushNeighbour (pushNeighbour vs e.1 e.2) e.2 e.1) es
    else none

/-- The state of `connectedComponents` between two iterations of the extraction loop. -/
structure CCState where
  vs : List Node
  remaining : List Nat
  cmap : CMap
  components : List Component

/-- Lines 55-60: the extraction loop.  The first argument bounds the recursion depth of
each `dfs`, the second the number of iterations; `none` means one of them was exhausted. -/
def extractLoop (depth : Nat) : Nat → CCState → Option CCState
  | 0, _ => none
  | fuel + 1, s =>
    match s.remaining with
    | [] => some s
    | v :: _ =>
      match dfs s.components.length depth v ⟨s.vs, s.remaining, s.cmap, Component.empty⟩ with
      | none => none
      | some d =>
        extractLoop depth fuel ⟨d.vs, d.remaining, d.cmap, s.components ++ [d.component]⟩

/-- How a call can stop without returning. -/
inductive Fault where
  /-- The check `assert(u.first==v.first)` failed. -/
  | assertion
  /-- An unchecked `vs[..]` access outside the node array (undefined behaviour). -/
  | outOfRange
  /-- A member access through a null `Component*` (undefined behaviour). -/
  | nullDeref
  deriving DecidableEq, Repr

/-- The body shared by the three loops of lines 61-82: look both endpoints up in the index
map, assert that they have the same component pointer and push to that component.
`push c l r` is the `push_back` on component `c` with the local indices `l` and `r`.  On a
fault the content of the output vector at that point is returned with it. -/
def remapStep (push : Component → Nat → Nat → Component) (a b : Nat)
    (st : CMap × List Component) : Except (Fault × List Component) (CMap × List Component) :=
  let u := st.1.index a
  let v := u.2.index b
  if u.1.1 = v.1.1 then
    match u.1.1 with
    | none => .error (Fault.nullDeref, st.2)
    | some p => .ok (v.2, st.2.modify (fun c => push c u.1.2 v.1.2) p)
  else .error (Fault.assertion, st.2)

/-- One of the three loops of lines 61-82 over the items `xs`; `ends` gives the two global
ids of an item and `push` the `push_back` made for it. -/
def remapLoop {ι : Type} (ends : ι → Nat × Nat) (push : ι → Component → Nat → Nat → Component) :
    List ι → CMap × List Component → Except (Fault × List Component) (CMap × List Component)
  | [], st => .ok st
  | x :: xs, st =>
    match remapStep (push x) (ends x).1 (ends x).2 st with
    | .error f => .error f
    | .ok st1 => remapLoop ends push xs st1

/-- The `u.first->edges.push_back(make_pair(u.second, v.second))` of line 65. -/
def pushEdge (_e : Nat × Nat) (c : Component) (l r : Nat) : Component :=
  { c with edges := c.edges ++ [(l, r)] }

/-- The `u.first->scx.push_back(new SimpleConstraint(u.second, v.second, c->gap))` of
lines 72-73. -/
def pushScx (x : SimpleConstraint) (c : Component) (l r : Nat) : Component :=
  { c with scx := c.scx ++ [⟨l, r, x.gap⟩] }

/-- The `u.first->scy.push_back(new SimpleConstraint(u.second, v.second, c->gap))` of
lines 80-81. -/
def pushScy (x : SimpleConstraint) (c : Component) (l r : Nat) : Component :=
  { c with scy := c.scy ++ [⟨l, r, x.gap⟩] }

/-- The two global ids of a constraint. -/
def SimpleConstraint.ends (x : SimpleConstraint) : Nat × Nat := (x.left, x.right)

/-- How a call of `connectedComponents` ends, with the content of the output vector
`components` at that point. -/
inductive Outcome where
  /-- The call returned. -/
  | returned (components : List Component)
  /-- The call stopped at a failed assertion or at undefined behaviour. -/
  | failed (fault : Fault) (components : List Component)
  /-- The fuel of the embedding ran out (shown not to happen). -/
  | outOfFuel
  deriving DecidableEq, Repr

/-- The function `cola::connectedComponents(rs, es, scx, scy, components)`; the last
argument is the content of the output vector at the call. -/
def connectedComponents (rs : List Nat) (es : List (Nat × Nat))
    (scx scy : List SimpleConstraint) (components : List Component) : Outcome :=
  match buildAdjacency (initNodes rs) es with
  | none => .failed Fault.outOfRange components
  | some vs =>
    match extractLoop (numNodes rs) (numNodes rs + 1)
        ⟨vs, initRemaining rs, CMap.emptyMap, components⟩ with
    | none => .outOfFuel
    | some s =>
      match remapLoop id pushEdge es (s.cmap, s.components) with
      | .error f => .failed f.1 f.2
      | .ok st1 =>
        match remapLoop SimpleConstraint.ends pushScx scx st1 with
        | .error f => .failed f.1 f.2
        | .ok st2 =>
          match remapLoop SimpleConstraint.ends pushScy scy st2 with
          | .error f => .failed f.1 f.2
          | .ok st3 => .returned st3.2

/-! ## Specification-side notions -/

/-- The entries one edge `e` contributes to the neighbour list of `u`: its second endpoint
if `u` is the first, then its first endpoint if `u` is the second. -/
def incident (u : Nat) (e : Nat × Nat) : List Nat :=
  (if e.1 = u then [e.2] else []) ++ (if e.2 = u then [e.1] else [])

/-- The neighbour list of `u` determined by the edge list, in edge-list order. -/
def neighboursOf (es : List (Nat × Nat)) (u : Nat) : List Nat := es.flatMap (incident u)

/-- Nodes `u` and `w` are joined by an input edge, taken as undirected. -/
def EdgeAdj (es : List (Nat × Nat)) (u w : Nat) : Prop := (u, w) ∈ es ∨ (w, u) ∈ es

/-- There is a path of input edges, taken as undirected, from `u` to `w`. -/
def Connected (es : List (Nat × Nat)) (u w : Nat) : Prop :=
  Relation.ReflTransGen (EdgeAdj es) u w

/-- Every edge endpoint is a valid global id. -/
def ValidEdges (n : Nat) (es : List (Nat × Nat)) : Prop := ∀ e ∈ es, e.1 < n ∧ e.2 < n

/-- All global ids of the new components, in output order. -/
def allIds (cs : List Component) : List Nat := (cs.map Component.node_ids).flatten

/-! ## Invariants of the extraction -/

/-- A node with its visited flag cleared. -/
def clearVisited (nd : Node) : Node := { nd with visited := false }

/-- Node `w` is in the neighbour list of node `u` of the array `vs0`. -/
def NbrRel (vs0 : List Node) (u w : Nat) : Prop := w ∈ (deref vs0 u).neighbours

/-- What the extraction needs of the node array `vs0` it starts from: ids are positions and
neighbour pointers point into the array. -/
structure Static (vs0 : List Node) : Prop where
  id_eq : ∀ u, u < vs0.length → (deref vs0 u).id = u
  nbr_lt : ∀ u w, w ∈ (deref vs0 u).neighbours → w < vs0.length

/-- The invariant of the extraction.  `vs0` is the node array after the adjacency loop, `m`
the number of entries the output vector had at the call, `new` the components created so
far (the one under construction included). -/
structure Inv (vs0 : List Node) (m : Nat) (vs : List Node) (rem : List Nat) (cmap : CMap)
    (new : List Component) : Prop where
  shape : vs.map clearVisited = vs0
  rem_eq : rem = (List.range vs0.length).filter (fun u => !(deref vs u).visited)
  nodup : (allIds new).Nodup
  mem_ids : ∀ u, u ∈ allIds new ↔ (deref vs u).visited = true
  hit : ∀ j c k u, new[j]? = some c → c.node_ids[k]? = some u →
    cmap u = some (some (m + j), k)
  miss : ∀ u, (deref vs u).visited = false → cmap u = none
  fields : ∀ c ∈ new, c.rects = c.node_ids.map (fun u => (deref vs0 u).r) ∧
    c.edges = [] ∧ c.scx = [] ∧ c.scy = []

/-- The postcondition of a traversal started at the nodes `roots` from state `s`: it ends
in a state that satisfies the invariant, the ids appended are reachable from the roots and
have all their neighbours visited, and the roots are visited. -/
def DfsPost (vs0 : List Node) (m : Nat) (fin : List Component) (roots : List Nat)
    (s : DfsState) (r : Option DfsState) : Prop :=
  ∃ s1 new, r = some s1 ∧
    Inv vs0 m s1.vs s1.remaining s1.cmap (fin ++ [s1.component]) ∧
    s1.component.node_ids = s.component.node_ids ++ new ∧
    s1.remaining.length ≤ s.remaining.length ∧
    (∀ u ∈ new, ∃ w ∈ roots, Relation.ReflTransGen (NbrRel vs0) w u) ∧
    (∀ u ∈ new, ∀ w ∈ (deref vs0 u).neighbours, (deref s1.vs w).visited = true) ∧
    (∀ w ∈ roots, (deref s1.vs w).visited = true)

/-- The finished components are non-empty, internally connected and closed under the
neighbour relation. -/
structure TopInv (vs0 : List Node) (fin : List Component) : Prop where
  ne : ∀ c ∈ fin, c.node_ids ≠ []
  conn : ∀ c ∈ fin, ∀ u ∈ c.node_ids, ∀ w ∈ c.node_ids,
    Relation.ReflTransGen (NbrRel vs0) u w
  closed : ∀ c ∈ fin, ∀ u ∈ c.node_ids, ∀ w, NbrRel vs0 u w → w ∈ c.node_ids

/-- What the extraction loop (lines 42-60) leaves behind when it stops in state `s`, for a
call with rectangles `rs`, edges `es` and an output vector that held `cs0`: the new
components `fin` partition the ids, the index map is dense on them, and each is a maximal
connected set. -/
structure Extracted (rs : List Nat) (es : List (Nat × Nat)) (cs0 : List Component)
    (s : CCState) (fin : List Component) : Prop where
  comps : s.components = cs0 ++ fin
  nodup : (allIds fin).Nodup
  mem : ∀ u, u ∈ allIds fin ↔ u < numNodes rs
  hit : ∀ j c k u, fin[j]? = some c → c.node_ids[k]? = some u →
    s.cmap u = some (some (cs0.length + j), k)
  miss : ∀ u, numNodes rs ≤ u → s.cmap u = none
  fields : ∀ c ∈ fin, c.rects = c.node_ids.map (fun u => rs.getD u 0) ∧
    c.edges = [] ∧ c.scx = [] ∧ c.scy = []
  ne : ∀ c ∈ fin, c.node_ids ≠ []
  conn : ∀ c ∈ fin, ∀ u ∈ c.node_ids, ∀ w ∈ c.node_ids, Connected es u w
  closed : ∀ c ∈ fin, ∀ u ∈ c.node_ids, ∀ w, EdgeAdj es u w → w ∈ c.node_ids

/-! ## The remapping loops, specification side -/

/-- The pair a read `cmap[k]` yields: the entry, or `(nullptr, 0)` when there is none. -/
def ccomponents.CMap.value (m : CMap) (k : Nat) : Option Nat × Nat := (m k).getD (none, 0)

/-- The index map is dense on the id lists `L` of the new components: the id at position
`k` of list `j` maps to the pointer of component `j` and local index `k`, and an id in no
list reads as `(nullptr, 0)`.  `m` is the number of older entries of the output vector. -/
structure Dense (m : Nat) (cmap : CMap) (L : List (List Nat)) : Prop where
  hit : ∀ j l k u, L[j]? = some l → l[k]? = some u → cmap.value u = (some (m + j), k)
  miss : ∀ u, (∀ l ∈ L, u ∉ l) → cmap.value u = (none, 0)

/-- The pushes one remapping loop makes on the component `c` with id list `ids`: those of
the items whose first endpoint is in `ids`, in input order, with the positions of the
endpoints in `ids` as local indices. -/
def applyPushes {ι : Type} (ends : ι → Nat × Nat)
    (push : ι → Component → Nat → Nat → Component) (ids : List Nat) (xs : List ι)
    (c : Component) : Component :=
  (xs.filter (fun x => decide ((ends x).1 ∈ ids))).foldl
    (fun acc x => push x acc (ids.indexOf (ends x).1) (ids.indexOf (ends x).2)) c

/-- Both endpoints of an item lie in one of the id lists `L`. -/
def SameList (L : List (List Nat)) (e : Nat × Nat) : Prop := ∃ l ∈ L, e.1 ∈ l ∧ e.2 ∈ l

/-- The input edges with both endpoints in the id list `ids`, in input order, each
endpoint replaced by its position in `ids`. -/
def localEdges (ids : List Nat) (es : List (Nat × Nat)) : List (Nat × Nat) :=
  (es.filter (fun e => decide (e.1 ∈ ids ∧ e.2 ∈ ids))).map
    (fun e => (ids.indexOf e.1, ids.indexOf e.2))

/-- The input constraints with both endpoints in the id list `ids`, in input order, each
endpoint replaced by its position in `ids` and the gap kept. -/
def localConstraints (ids : List Nat) (xs : List SimpleConstraint) : List SimpleConstraint :=
  (xs.filter (fun x => decide (x.left ∈ ids ∧ x.right ∈ ids))).map
    (fun x => ⟨ids.indexOf x.left, ids.indexOf x.right, x.gap⟩)

/-- The component `c` of the extraction with the local edges of `es` and the local
constraints of `xs` and `ys` appended to its three lists. -/
def finish (es : List (Nat × Nat)) (xs ys : List SimpleConstraint) (c : Component) :
    Component :=
  { c with
    edges := c.edges ++ localEdges c.node_ids es
    scx := c.scx ++ localConstraints c.node_ids xs
    scy := c.scy ++ localConstraints c.node_ids ys }

/-- Every constraint endpoint is a valid global id. -/
def ValidConstraints (n : Nat) (xs : List SimpleConstraint) : Prop :=
  ∀ x ∈ xs, x.left < n ∧ x.right < n

/-- The two endpoints of every constraint are joined by a path of edges. -/
def ConnectedConstraints (es : List (Nat × Nat)) (xs : List SimpleConstraint) : Prop :=
  ∀ x ∈ xs, Connected es x.left x.right

/-- The constraint `x` meets the documented precondition: both endpoints are valid ids
joined by a path of edges. -/
def GoodConstraint (n : Nat) (es : List (Nat × Nat)) (x : SimpleConstraint) : Prop :=
  x.left < n ∧ x.right < n ∧ Connected es x.left x.right

/-- A constraint loop over `xs` stops with fault `f` after the constraints `pre`: the
constraints of `pre` meet the precondition and the next one, `x`, does not.  If one
endpoint of `x` is a valid id the fault is the failed assertion; if none is, it is the
push through the null pointer. -/
def Stops (n : Nat) (es : List (Nat × Nat)) (xs pre : List SimpleConstraint) (f : Fault) :
    Prop :=
  ∃ x post, xs = pre ++ x :: post ∧ (∀ y ∈ pre, GoodConstraint n es y) ∧
    ((f = Fault.assertion ∧ (x.left < n ∨ x.right < n) ∧ ¬ GoodConstraint n es x) ∨
     (f = Fault.nullDeref ∧ n ≤ x.left ∧ n ≤ x.right))

/-- Whether a fault is undefined behaviour of the call, as opposed to a check the code
makes. -/
def Fault.isUndefinedBehaviour : Fault → Bool
  | .assertion => false
  | .outOfRange => true
  | .nullDeref => true

/-- Whether the call stopped because the code detected a bad input: it stopped, and at a
check the code makes rather than at undefined behaviour. -/
def Outcome.detectedError : Outcome → Bool
  | .failed f _ => !f.isUndefinedBehaviour
  | _ => false

/-! ## The reference traversal -/

/-- The loop of the reference depth-first traversal: the neighbours `us` are tried in list
order, one already in the output `acc` is skipped, another is traversed by `rec`. -/
def preorderLoop (rec : Nat → List Nat → List Nat) : List Nat → List Nat → List Nat
  | [], acc => acc
  | u :: us, acc =>
    if u ∈ acc then preorderLoop rec us acc else preorderLoop rec us (rec u acc)

/-- The reference depth-first traversal of the graph with neighbour lists `adj`: visiting
`v` appends it to the output `acc` and then tries its neighbours in list order.  The first
argument bounds the recursion depth. -/
def preorderVisit (adj : Nat → List Nat) : Nat → Nat → List Nat → List Nat
  | 0, _, acc => acc
  | fuel + 1, v, acc => preorderLoop (preorderVisit adj fuel) (adj v) (acc ++ [v])

/-- The depth-first preorder from `root` in a graph of `n` nodes, nothing visited before. -/
def preorder (adj : Nat → List Nat) (n root : Nat) : List Nat := preorderVisit adj n root []

/-- Order facts about the components `fin` of the extraction: each starts with a root
below which every id lies in an earlier component, and each is the depth-first preorder
from its root. -/
structure Ordered (adj : Nat → List Nat) (depth : Nat) (fin : List Component) : Prop where
  roots : ∀ j c, fin[j]? = some c →
    ∃ r tl, c.node_ids = r :: tl ∧ ∀ u, u < r → u ∈ allIds (fin.take j)
  pre : ∀ c ∈ fin, ∀ r tl, c.node_ids = r :: tl → c.node_ids = preorder adj depth r

/-! ## The reference union-find count -/

/-- One step of the reference union-find on a labelling of the ids and a merge counter: an
edge whose endpoints carry the same label changes nothing; otherwise every id labelled like
the second endpoint takes the label of the first, and the merge is counted. -/
def ufStep (st : (Nat → Nat) × Nat) (e : Nat × Nat) : (Nat → Nat) × Nat :=
  if st.1 e.1 = st.1 e.2 then st
  else (fun x => if st.1 x = st.1 e.2 then st.1 e.1 else st.1 x, st.2 + 1)

/-- The reference union-find run over the edges in list order, from every id in a set of
its own: the final labelling and the number of edges that joined two sets. -/
def ufRun (es : List (Nat × Nat)) : (Nat → Nat) × Nat := es.foldl ufStep (id, 0)

/-- The union-find component count: `n` minus the number of edges that joined two sets. -/
def ufCount (n : Nat) (es : List (Nat × Nat)) : Nat := n - (ufRun es).2

/-- The number of distinct labels the ids below `n` carry. -/
def labelCount (n : Nat) (label : Nat → Nat) : Nat := ((List.range n).map label).dedup.length

/-! ## Frame of the constraint loops -/

/-- Component `D` is component `C` with entries appended to its `scx` list and nothing
else changed. -/
def GrowsScx (C D : Component) : Prop :=
  D.node_ids = C.node_ids ∧ D.rects = C.rects ∧ D.edges = C.edges ∧ D.scy = C.scy ∧
    C.scx <+: D.scx

/-- Component `D` is component `C` with entries appended to its `scy` list and nothing
else changed. -/
def GrowsScy (C D : Component) : Prop :=
  D.node_ids = C.node_ids ∧ D.rects = C.rects ∧ D.edges = C.edges ∧ D.scx = C.scx ∧
    C.scy <+: D.scy

/-- Every local index stored in the component is a position of its `node_ids`. -/
def InBounds (C : Component) : Prop :=
  (∀ e ∈ C.edges, e.1 < C.node_ids.length ∧ e.2 < C.node_ids.length) ∧
  (∀ x ∈ C.scx ++ C.scy, x.left < C.node_ids.length ∧ x.right < C.node_ids.length)

/-! ## The result in closed form -/

/-- The id lists `ls` are, in order, what a root-by-root extraction yields once the ids
`used` are taken: each list is `P r` for the smallest id `r` below `n` not yet taken, and
at the end every id below `n` is taken. -/
def Chain (P : Nat → List Nat) (n : Nat) : List Nat → List (List Nat) → Prop
  | used, [] => ∀ u, u < n → u ∈ used
  | used, l :: rest =>
    (∃ r, r < n ∧ r ∉ used ∧ (∀ u, u < r → u ∈ used) ∧ l = P r) ∧ Chain P n (used ++ l) rest

/-- The component with id list `ids` of a call with rectangles `rs`, edges `es` and
constraints `xs` and `ys`: the handles of its ids, its local edges, its local
constraints. -/
def componentOf (rs : List Nat) (es : List (Nat × Nat)) (xs ys : List SimpleConstraint)
    (ids : List Nat) : Component :=
  ⟨ids, ids.map (fun u => rs.getD u 0), localEdges ids es, localConstraints ids xs,
    localConstraints ids ys⟩

/-! ## The explicit-stack traversal -/

/-- Modelled from the spec: the explicit-work-stack traversal of the design notes, which is
not in the source.  The stack holds the ids yet to be expanded, its head being the top.
Popping an id already in the output `acc` does nothing; popping another appends it to the
output and pushes its neighbour list so that the neighbours are popped in adjacency order.
The first argument bounds the number of pops; `none` means it was exhausted. -/
def stackRun (adj : Nat → List Nat) : Nat → List Nat → List Nat → Option (List Nat)
  | _, [], acc => some acc
  | 0, _ :: _, _ => none
  | fuel + 1, u :: st, acc =>
    if u ∈ acc then stackRun adj fuel st acc
    else stackRun adj fuel (adj u ++ st) (acc ++ [u])

/-- The recursive depth-first traversal as a relation, without a depth bound:
`Traverses adj us acc r` says that trying the nodes `us` in order from the output `acc`
ends with the output `r`.  A node already in the output is skipped; another is appended
and its neighbours are tried before the rest of `us`. -/
inductive Traverses (adj : Nat → List Nat) : List Nat → List Nat → List Nat → Prop
  | nil (acc : List Nat) : Traverses adj [] acc acc
  | skip {u : Nat} {us acc r : List Nat} :
      u ∈ acc → Traverses adj us acc r → Traverses adj (u :: us) acc r
  | step {u : Nat} {us acc acc1 r : List Nat} :
      u ∉ acc → Traverses adj (adj u) (acc ++ [u]) acc1 → Traverses adj us acc1 r →
      Traverses adj (u :: us) acc r

/-! ## Test data -/

/-- Six rectangle handles. -/
def sixRects : List Nat := [10, 11, 12, 13, 14, 15]

/-- Two disjoint triangles on the ids `0..5`. -/
def twoTriangles : List (Nat × Nat) := [(0, 1), (1, 2), (2, 0), (3, 4), (4, 5), (5, 3)]

/-- Four rectangle handles. -/
def fourRects : List Nat := [10, 11, 12, 13]

/-- A small tree on the ids `0..3` in which depth-first and breadth-first order differ. -/
def smallTree : List (Nat × Nat) := [(0, 2), (0, 1), (2, 3)]

/-- Three rectangle handles. -/
def threeRects : List Nat := [10, 11, 12]

/-- A triangle with a self-loop and a repeated edge on the ids `0..2`. -/
def loopyTriangle : List (Nat × Nat) := [(0, 1), (1, 2), (2, 0), (0, 0), (0, 1)]

/-- Six other rectangle handles. -/
def otherRects : List Nat := [20, 21, 22, 23, 24, 25]

/-! ## The node array -/

theorem deref_eq_of_getElem? {vs : List Node} {u : Nat} {nd : Node} (h : vs[u]? = some nd) :
    deref vs u = nd := by
  simp [deref, List.getD_eq_getElem?_getD, h]

theorem deref_eq_blank {vs : List Node} {u : Nat} (h : vs.length ≤ u) :
    deref vs u = Node.blank := by
  simp [deref, List.getD_eq_getElem?_getD, List.getElem?_eq_none h]

theorem length_setVisited (vs : List Node) (v : Nat) : (setVisited vs v).length = vs.length := by
  simp [setVisited]

theorem deref_setVisited_ne (vs : List Node) {v u : Nat} (h : u ≠ v) :
    deref (setVisited vs v) u = deref vs u := by
  simp [deref, setVisited, List.getD_eq_getElem?_getD, List.getElem?_set_ne (Ne.symm h)]

theorem deref_setVisited_self (vs : List Node) {v : Nat} (h : v < vs.length) :
    deref (setVisited vs v) v = { deref vs v with visited := true } := by
  simp [deref, setVisited, List.getD_eq_getElem?_getD, List.getElem?_set_self h]

theorem visited_setVisited (vs : List Node) {v : Nat} (h : v < vs.length) (u : Nat) :
    (deref (setVisited vs v) u).visited = (decide (u = v) || (deref vs u).visited) := by
  by_cases huv : u = v
  · subst huv; simp [deref_setVisited_self vs h]
  · simp [deref_setVisited_ne vs huv, huv]

theorem length_pushNeighbour (vs : List Node) (a b : Nat) :
    (pushNeighbour vs a b).length = vs.length := by
  simp [pushNeighbour]

theorem deref_pushNeighbour_ne (vs : List Node) {a u : Nat} (b : Nat) (h : u ≠ a) :
    deref (pushNeighbour vs a b) u = deref vs u := by
  simp [deref, pushNeighbour, List.getD_eq_getElem?_getD, List.getElem?_set_ne (Ne.symm h)]

theorem deref_pushNeighbour_self (vs : List Node) {a : Nat} (b : Nat) (h : a < vs.length) :
    deref (pushNeighbour vs a b) a =
      { deref vs a with neighbours := (deref vs a).neighbours ++ [b] } := by
  simp [deref, pushNeighbour, List.getD_eq_getElem?_getD, List.getElem?_set_self h]

/-- The fields of a node after one `push_back` on a neighbour list. -/
theorem deref_pushNeighbour (vs : List Node) {a : Nat} (b : Nat) (h : a < vs.length) (u : Nat) :
    deref (pushNeighbour vs a b) u =
      { deref vs u with
        neighbours := (deref vs u).neighbours ++ (if a = u then [b] else []) } := by
  by_cases hu : u = a
  · subst hu; simp [deref_pushNeighbour_self vs b h]
  · simp [deref_pushNeighbour_ne vs b hu, Ne.symm hu]

/-- The adjacency loop succeeds on in-range edges, keeps every other field and appends to
each neighbour list the entries the edges contribute, in edge-list order. -/
theorem buildAdjacency_spec (es : List (Nat × Nat)) :
    ∀ vs : List Node, ValidEdges vs.length es →
      ∃ vs1, buildAdjacency vs es = some vs1 ∧ vs1.length = vs.length ∧
        ∀ u, deref vs1 u =
          { deref vs u with neighbours := (deref vs u).neighbours ++ neighboursOf es u } := by
  induction es with
  | nil => intro vs _; exact ⟨vs, rfl, rfl, fun u => by simp [neighboursOf]⟩
  | cons e es ih =>
    intro vs hv
    have he := hv e (List.mem_cons_self _ _)
    have hlen : (pushNeighbour (pushNeighbour vs e.1 e.2) e.2 e.1).length = vs.length := by
      simp [length_pushNeighbour]
    obtain ⟨vs1, h1, h2, h3⟩ := ih (pushNeighbour (pushNeighbour vs e.1 e.2) e.2 e.1)
      (by intro x hx; rw [hlen]; exact hv x (List.mem_cons_of_mem _ hx))
    refine ⟨vs1, ?_, h2.trans hlen, fun u => ?_⟩
    · simp [buildAdjacency, he, h1]
    · rw [h3 u, deref_pushNeighbour _ _ (by rw [length_pushNeighbour]; exact he.2),
        deref_pushNeighbour _ _ he.1]
      simp [neighboursOf, incident, List.flatMap_cons]

/-- The adjacency loop runs into an out-of-range access as soon as one endpoint is not a
valid id. -/
theorem buildAdjacency_none (es : List (Nat × Nat)) :
    ∀ vs : List Node, ¬ ValidEdges vs.length es → buildAdjacency vs es = none := by
  induction es with
  | nil => intro vs h; exact absurd (fun e he => by simp at he) h
  | cons e es ih =>
    intro vs h
    by_cases he : e.1 < vs.length ∧ e.2 < vs.length
    · simp only [buildAdjacency, he, and_self, if_true]
      apply ih
      intro hv
      apply h
      intro x hx
      rcases List.mem_cons.1 hx with rfl | hx
      · exact he
      · simpa [length_pushNeighbour] using hv x hx
    · simp [buildAdjacency, he]

theorem mem_neighboursOf {es : List (Nat × Nat)} {u w : Nat} :
    w ∈ neighboursOf es u ↔ EdgeAdj es u w := by
  simp only [neighboursOf, List.mem_flatMap, incident, EdgeAdj]
  constructor
  · rintro ⟨⟨a, b⟩, he, hw⟩
    simp only [List.mem_append] at hw
    rcases hw with hw | hw
    · split at hw
      · rename_i h; simp at hw; subst hw; subst h; exact Or.inl he
      · simp at hw
    · split at hw
      · rename_i h; simp at hw; subst hw; subst h; exact Or.inr he
      · simp at hw
  · rintro (h | h)
    · exact ⟨(u, w), h, by simp⟩
    · exact ⟨(w, u), h, by simp⟩

theorem edgeAdj_symm {es : List (Nat × Nat)} {u w : Nat} (h : EdgeAdj es u w) :
    EdgeAdj es w u := Or.symm h

theorem connected_symm {es : List (Nat × Nat)} {u w : Nat} (h : Connected es u w) :
    Connected es w u :=
  Relation.ReflTransGen.symmetric (fun _ _ h => edgeAdj_symm h) h

/-! ## The invariant is kept by `visit` -/

theorem allIds_append_singleton (fin : List Component) (c : Component) :
    allIds (fin ++ [c]) = allIds fin ++ c.node_ids := by
  simp [allIds]

theorem getElem?_append_singleton {α : Type} (l : List α) (a c : α) (j : Nat) :
    (l ++ [a])[j]? = some c ↔ l[j]? = some c ∨ (j = l.length ∧ c = a) := by
  by_cases hj : j < l.length
  · rw [List.getElem?_append_left hj]
    constructor
    · exact Or.inl
    · rintro (h | ⟨h, _⟩)
      · exact h
      · omega
  · rw [List.getElem?_append_right (by omega)]
    have hnone : l[j]? = none := List.getElem?_eq_none (by omega)
    constructor
    · intro h
      right
      by_cases h0 : j - l.length = 0
      · rw [h0] at h; simp at h; exact ⟨by omega, h.symm⟩
      · have : ([a] : List α)[j - l.length]? = none :=
          List.getElem?_eq_none (by simp; omega)
        rw [this] at h; simp at h
    · rintro (h | ⟨h, rfl⟩)
      · rw [hnone] at h; simp at h
      · subst h; simp

theorem shape_length {vs0 vs : List Node} (h : vs.map clearVisited = vs0) :
    vs.length = vs0.length := by
  rw [← h]; simp

theorem shape_deref {vs0 vs : List Node} (h : vs.map clearVisited = vs0) (u : Nat) :
    deref vs0 u = clearVisited (deref vs u) := by
  rw [← h]
  have := @List.getD_map _ _ vs Node.blank u clearVisited
  simpa [deref, clearVisited, Node.blank] using this

theorem shape_neighbours {vs0 vs : List Node} (h : vs.map clearVisited = vs0) (u : Nat) :
    (deref vs u).neighbours = (deref vs0 u).neighbours := by
  rw [shape_deref h u]; rfl

theorem shape_id {vs0 vs : List Node} (h : vs.map clearVisited = vs0) (u : Nat) :
    (deref vs u).id = (deref vs0 u).id := by
  rw [shape_deref h u]; rfl

theorem shape_r {vs0 vs : List Node} (h : vs.map clearVisited = vs0) (u : Nat) :
    (deref vs u).r = (deref vs0 u).r := by
  rw [shape_deref h u]; rfl

theorem shape_setVisited {vs0 vs : List Node} (h : vs.map clearVisited = vs0) (v : Nat) :
    (setVisited vs v).map clearVisited = vs0 := by
  rw [← h]
  apply List.ext_getElem?
  intro i
  simp only [setVisited, List.getElem?_map, List.getElem?_set]
  by_cases hi : v = i
  · subst hi
    by_cases hl : v < vs.length
    · simp [hl, deref, List.getD_eq_getElem?_getD, List.getElem?_eq_getElem hl, clearVisited]
    · simp [hl, List.getElem?_eq_none (Nat.le_of_not_lt hl)]
  · simp [hi]

theorem visited_of_ge {vs : List Node} {u : Nat} (h : vs.length ≤ u) :
    (deref vs u).visited = false := by
  rw [deref_eq_blank h]; rfl

theorem mem_remaining {vs0 vs : List Node} {m : Nat} {rem : List Nat} {cmap : CMap}
    {new : List Component} (h : Inv vs0 m vs rem cmap new) (u : Nat) :
    u ∈ rem ↔ u < vs0.length ∧ (deref vs u).visited = false := by
  rw [h.rem_eq]; simp [List.mem_filter]

/-- The statements of lines 18-22 keep the invariant when `v` is an unvisited node. -/
theorem inv_visit {vs0 : List Node} {m : Nat} {fin : List Component} {s : DfsState}
    (hst : Static vs0) (h : Inv vs0 m s.vs s.remaining s.cmap (fin ++ [s.component]))
    {v : Nat} (hv : v < vs0.length) (hun : (deref s.vs v).visited = false) :
    Inv vs0 m (visit (m + fin.length) v s).vs (visit (m + fin.length) v s).remaining
      (visit (m + fin.length) v s).cmap (fin ++ [(visit (m + fin.length) v s).component]) := by
  have hlen : v < s.vs.length := by rw [shape_length h.shape]; exact hv
  have hid : (deref s.vs v).id = v := by rw [shape_id h.shape]; exact hst.id_eq v hv
  have hvis : ∀ u, (deref (setVisited s.vs v) u).visited = (decide (u = v) || (deref s.vs u).visited) :=
    visited_setVisited s.vs hlen
  have hnot : v ∉ allIds (fin ++ [s.component]) := by
    rw [h.mem_ids]; simp [hun]
  have hids : allIds (fin ++ [(visit (m + fin.length) v s).component]) =
      allIds (fin ++ [s.component]) ++ [v] := by
    simp [allIds_append_singleton, visit, hid]
  refine ⟨shape_setVisited h.shape v, ?_, ?_, ?_, ?_, ?_, ?_⟩
  · show s.remaining.erase v = _
    have hnd : s.remaining.Nodup := by
      rw [h.rem_eq]; exact (List.nodup_range _).filter _
    rw [hnd.erase_eq_filter, h.rem_eq, List.filter_filter]
    apply List.filter_congr
    intro u _
    show _ = !(deref (setVisited s.vs v) u).visited
    rw [hvis u]
    by_cases huv : u = v <;> simp [huv]
  · rw [hids]
    exact List.Nodup.append h.nodup (List.nodup_singleton v) (by simpa using hnot)
  · intro u
    rw [hids, List.mem_append, h.mem_ids]
    show _ ↔ (deref (setVisited s.vs v) u).visited = true
    rw [hvis u]
    by_cases huv : u = v <;> simp [huv]
  · intro j c k u hj hk
    show (s.cmap.assign (deref s.vs v).id (some (m + fin.length), s.component.node_ids.length)) u = _
    rw [hid]
    rcases (getElem?_append_singleton _ _ _ _).1 hj with hj1 | ⟨hj1, hc⟩
    · have hold := h.hit j c k u ((getElem?_append_singleton _ _ _ _).2 (Or.inl hj1)) hk
      have hmem : u ∈ allIds (fin ++ [s.component]) := by
        simp only [allIds, List.mem_flatten, List.mem_map]
        exact ⟨c.node_ids, ⟨c, List.mem_append_left _ (List.mem_iff_getElem?.2 ⟨_, hj1⟩), rfl⟩,
          List.mem_iff_getElem?.2 ⟨_, hk⟩⟩
      have hne : u ≠ v := fun e => hnot (e ▸ hmem)
      simp [CMap.assign, hne, hold]
    · subst hc
      subst hj1
      have hk1 : (s.component.node_ids ++ [v])[k]? = some u := by
        simpa [visit, hid] using hk
      rcases (getElem?_append_singleton _ _ _ _).1 hk1 with hk2 | ⟨hk2, hu⟩
      · have hold := h.hit fin.length s.component k u
          ((getElem?_append_singleton _ _ _ _).2 (Or.inr ⟨rfl, rfl⟩)) hk2
        have hmem : u ∈ allIds (fin ++ [s.component]) := by
          rw [allIds_append_singleton]
          exact List.mem_append_right _ (List.mem_iff_getElem?.2 ⟨_, hk2⟩)
        have hne : u ≠ v := fun e => hnot (e ▸ hmem)
        simp [CMap.assign, hne, hold]
      · subst hu; subst hk2
        simp [CMap.assign]
  · intro u hu
    have hu1 : (deref (setVisited s.vs v) u).visited = false := hu
    rw [hvis u] at hu1
    have hne : u ≠ v := by
      intro e; simp [e] at hu1
    have hu2 : (deref s.vs u).visited = false := by simpa [hne] using hu1
    show (s.cmap.assign (deref s.vs v).id _) u = none
    rw [hid]
    simp [CMap.assign, hne, h.miss u hu2]
  · intro c hc
    rcases List.mem_append.1 hc with hc | hc
    · exact h.fields c (List.mem_append_left _ hc)
    · have hcur := h.fields s.component (List.mem_append_right _ (List.mem_singleton_self _))
      rw [List.mem_singleton] at hc
      subst hc
      refine ⟨?_, hcur.2.1, hcur.2.2.1, hcur.2.2.2⟩
      simp [visit, hid, hcur.1, shape_r h.shape]

/-! ## The traversal -/

/-- Visited nodes stay visited between two states of the invariant whose current component
only grew. -/
theorem visited_mono {vs0 : List Node} {m : Nat} {fin : List Component} {s s1 : DfsState}
    (h : Inv vs0 m s.vs s.remaining s.cmap (fin ++ [s.component]))
    (h1 : Inv vs0 m s1.vs s1.remaining s1.cmap (fin ++ [s1.component]))
    {new : List Nat} (hids : s1.component.node_ids = s.component.node_ids ++ new)
    {u : Nat} (hu : (deref s.vs u).visited = true) : (deref s1.vs u).visited = true := by
  rw [← h1.mem_ids, allIds_append_singleton, hids]
  have := (h.mem_ids u).2 hu
  rw [allIds_append_singleton] at this
  rcases List.mem_append.1 this with h2 | h2
  · exact List.mem_append_left _ h2
  · exact List.mem_append_right _ (List.mem_append_left _ h2)

/-- The loop of `dfs` over neighbour pointers `us`, given that the recursive call meets
its postcondition on every state with at most `fuel` remaining nodes. -/
theorem dfsLoop_spec {vs0 : List Node} {m : Nat} {fin : List Component}
    {rec : Nat → DfsState → Option DfsState} {fuel : Nat}
    (hrec : ∀ v s, Inv vs0 m s.vs s.remaining s.cmap (fin ++ [s.component]) →
      v < vs0.length → (deref s.vs v).visited = false → s.remaining.length ≤ fuel →
      DfsPost vs0 m fin [v] s (rec v s)) :
    ∀ (us : List Nat) (s : DfsState),
      Inv vs0 m s.vs s.remaining s.cmap (fin ++ [s.component]) →
      (∀ u ∈ us, u < vs0.length) → s.remaining.length ≤ fuel →
      DfsPost vs0 m fin us s (dfsLoop rec us s) := by
  intro us
  induction us with
  | nil =>
    intro s h _ _
    exact ⟨s, [], rfl, h, by simp, le_refl _, by simp, by simp, by simp⟩
  | cons u us ih =>
    intro s h hus hfuel
    have hus1 : ∀ w ∈ us, w < vs0.length := fun w hw => hus w (List.mem_cons_of_mem _ hw)
    by_cases hvu : (deref s.vs u).visited = true
    · obtain ⟨s1, new, hr, hinv, hids, hrem, hreach, hclosed, hroots⟩ := ih s h hus1 hfuel
      refine ⟨s1, new, ?_, hinv, hids, hrem, ?_, hclosed, ?_⟩
      · simp [dfsLoop, hvu, hr]
      · intro x hx
        obtain ⟨w, hw, hp⟩ := hreach x hx
        exact ⟨w, List.mem_cons_of_mem _ hw, hp⟩
      · intro w hw
        rcases List.mem_cons.1 hw with rfl | hw
        · exact visited_mono h hinv hids hvu
        · exact hroots w hw
    · have hvu1 : (deref s.vs u).visited = false := by simpa using hvu
      obtain ⟨s1, new1, hr1, hinv1, hids1, hrem1, hreach1, hclosed1, hroots1⟩ :=
        hrec u s h (hus u (List.mem_cons_self _ _)) hvu1 hfuel
      obtain ⟨s2, new2, hr2, hinv2, hids2, hrem2, hreach2, hclosed2, hroots2⟩ :=
        ih s1 hinv1 hus1 (le_trans hrem1 hfuel)
      refine ⟨s2, new1 ++ new2, ?_, hinv2, ?_, le_trans hrem2 hrem1, ?_, ?_, ?_⟩
      · simp [dfsLoop, hvu1, hr1, hr2]
      · rw [hids2, hids1, List.append_assoc]
      · intro x hx
        rcases List.mem_append.1 hx with hx | hx
        · obtain ⟨w, hw, hp⟩ := hreach1 x hx
          rw [List.mem_singleton] at hw
          subst hw
          exact ⟨w, List.mem_cons_self _ _, hp⟩
        · obtain ⟨w, hw, hp⟩ := hreach2 x hx
          exact ⟨w, List.mem_cons_of_mem _ hw, hp⟩
      · intro x hx w hw
        rcases List.mem_append.1 hx with hx | hx
        · exact visited_mono hinv1 hinv2 hids2 (hclosed1 x hx w hw)
        · exact hclosed2 x hx w hw
      · intro w hw
        rcases List.mem_cons.1 hw with rfl | hw
        · exact visited_mono hinv1 hinv2 hids2 (hroots1 w (List.mem_singleton_self _))
        · exact hroots2 w hw

/-- The recursive `dfs` from an unvisited node `v`: with fuel for the remaining nodes it
ends, keeps the invariant, appends `v` first and then only nodes reachable from `v`, leaves
every appended node with all its neighbours visited, and shrinks `remaining`. -/
theorem dfs_spec {vs0 : List Node} {m : Nat} {fin : List Component} (hst : Static vs0) :
    ∀ (fuel v : Nat) (s : DfsState),
      Inv vs0 m s.vs s.remaining s.cmap (fin ++ [s.component]) →
      v < vs0.length → (deref s.vs v).visited = false → s.remaining.length ≤ fuel →
      DfsPost vs0 m fin [v] s (dfs (m + fin.length) fuel v s) ∧
      ∀ s1, dfs (m + fin.length) fuel v s = some s1 →
        s1.remaining.length < s.remaining.length ∧
        ∃ tl, s1.component.node_ids = s.component.node_ids ++ v :: tl := by
  intro fuel
  induction fuel with
  | zero =>
    intro v s h hv hun hfuel
    have hmem : v ∈ s.remaining := (mem_remaining h v).2 ⟨hv, hun⟩
    have : s.remaining.length = 0 := Nat.le_zero.1 hfuel
    rw [List.length_eq_zero] at this
    rw [this] at hmem
    simp at hmem
  | succ fuel ih =>
    intro v s h hv hun hfuel
    have hmem : v ∈ s.remaining := (mem_remaining h v).2 ⟨hv, hun⟩
    have hpos : 0 < s.remaining.length := List.length_pos_of_mem hmem
    have hinv1 := inv_visit hst h hv hun
    have hlen : v < s.vs.length := by rw [shape_length h.shape]; exact hv
    have hid : (deref s.vs v).id = v := by rw [shape_id h.shape]; exact hst.id_eq v hv
    have hrem1 : (visit (m + fin.length) v s).remaining.length = s.remaining.length - 1 :=
      List.length_erase_of_mem hmem
    have hids1 : (visit (m + fin.length) v s).component.node_ids =
        s.component.node_ids ++ [v] := by simp [visit, hid]
    have hvis1 : (deref (visit (m + fin.length) v s).vs v).visited = true := by
      show (deref (setVisited s.vs v) v).visited = true
      rw [visited_setVisited s.vs hlen]; simp
    have hnb : ∀ u ∈ (deref s.vs v).neighbours, u < vs0.length := by
      intro u hu
      rw [shape_neighbours h.shape] at hu
      exact hst.nbr_lt v u hu
    obtain ⟨s2, new, hr, hinv2, hids2, hrem2, hreach, hclosed, hroots⟩ :=
      dfsLoop_spec (fun v s a b c d => (ih v s a b c d).1) (deref s.vs v).neighbours
        (visit (m + fin.length) v s) hinv1 hnb (by omega)
    have hdfs : dfs (m + fin.length) (fuel + 1) v s = some s2 := by
      simp only [dfs]; exact hr
    have hids : s2.component.node_ids = s.component.node_ids ++ v :: new := by
      rw [hids2, hids1]; simp
    refine ⟨⟨s2, v :: new, hdfs, hinv2, hids, by omega, ?_, ?_, ?_⟩, ?_⟩
    · intro x hx
      refine ⟨v, List.mem_singleton_self _, ?_⟩
      rcases List.mem_cons.1 hx with rfl | hx
      · exact Relation.ReflTransGen.refl
      · obtain ⟨w, hw, hp⟩ := hreach x hx
        rw [shape_neighbours h.shape] at hw
        exact Relation.ReflTransGen.head hw hp
    · intro x hx w hw
      rcases List.mem_cons.1 hx with rfl | hx
      · rw [← shape_neighbours h.shape] at hw
        exact hroots w hw
      · exact hclosed x hx w hw
    · intro w hw
      rw [List.mem_singleton] at hw
      subst hw
      exact visited_mono hinv1 hinv2 hids2 hvis1
    · intro s3 hs3
      rw [hdfs] at hs3
      cases hs3
      exact ⟨by omega, new, hids⟩

/-! ## The extraction loop -/

theorem mem_allIds {cs : List Component} {u : Nat} :
    u ∈ allIds cs ↔ ∃ c ∈ cs, u ∈ c.node_ids := by
  simp only [allIds, List.mem_flatten, List.mem_map]
  constructor
  · rintro ⟨l, ⟨c, hc, rfl⟩, hu⟩; exact ⟨c, hc, hu⟩
  · rintro ⟨c, hc, hu⟩; exact ⟨c.node_ids, ⟨c, hc, rfl⟩, hu⟩

/-- Allocating the next component keeps the invariant. -/
theorem inv_new_component {vs0 : List Node} {m : Nat} {vs : List Node} {rem : List Nat}
    {cmap : CMap} {fin : List Component} (h : Inv vs0 m vs rem cmap fin) :
    Inv vs0 m vs rem cmap (fin ++ [Component.empty]) := by
  have hids : allIds (fin ++ [Component.empty]) = allIds fin := by
    simp [allIds_append_singleton, Component.empty]
  refine ⟨h.shape, h.rem_eq, by rw [hids]; exact h.nodup, by rw [hids]; exact h.mem_ids,
    ?_, h.miss, ?_⟩
  · intro j c k u hj hk
    rcases (getElem?_append_singleton _ _ _ _).1 hj with hj | ⟨_, hc⟩
    · exact h.hit j c k u hj hk
    · subst hc; simp [Component.empty] at hk
  · intro c hc
    rcases List.mem_append.1 hc with hc | hc
    · exact h.fields c hc
    · rw [List.mem_singleton] at hc; subst hc; simp [Component.empty]

/-- The extraction loop ends with `remaining` empty, keeps the invariant and produces
components that are connected and closed under the neighbour relation. -/
theorem extractLoop_spec {vs0 : List Node} {cs0 : List Component} (hst : Static vs0)
    (hsym : ∀ u w, NbrRel vs0 u w → NbrRel vs0 w u) (depth : Nat) :
    ∀ (fuel : Nat) (s : CCState) (fin : List Component),
      s.components = cs0 ++ fin →
      Inv vs0 cs0.length s.vs s.remaining s.cmap fin → TopInv vs0 fin →
      s.remaining.length < fuel → s.remaining.length ≤ depth →
      ∃ s1 fin1, extractLoop depth fuel s = some s1 ∧ s1.components = cs0 ++ fin1 ∧
        Inv vs0 cs0.length s1.vs s1.remaining s1.cmap fin1 ∧ TopInv vs0 fin1 ∧
        s1.remaining = [] := by
  intro fuel
  induction fuel with
  | zero => intro s fin _ _ _ h _; exact absurd h (Nat.not_lt_zero _)
  | succ fuel ih =>
    intro s fin hcs hinv htop hfuel hdepth
    obtain ⟨vs, rem, cmap, comps⟩ := s
    simp only at hcs hinv hfuel hdepth
    cases rem with
    | nil => exact ⟨⟨vs, [], cmap, comps⟩, fin, by simp [extractLoop], hcs, hinv, htop, rfl⟩
    | cons v rest =>
      have hvmem : v ∈ v :: rest := List.mem_cons_self _ _
      obtain ⟨hv, hun⟩ := (mem_remaining hinv v).1 hvmem
      have hp : comps.length = cs0.length + fin.length := by rw [hcs]; simp
      obtain ⟨⟨d, new, hd, hinvd, hids, _, hreach, hclosed, _⟩, hlt⟩ :=
        @dfs_spec vs0 cs0.length fin hst depth v
          ⟨vs, v :: rest, cmap, Component.empty⟩ (inv_new_component hinv) hv hun hdepth
      obtain ⟨hlt1, tl, htl⟩ := hlt d hd
      simp only [Component.empty, List.nil_append] at hids htl
      have hlt2 : d.remaining.length < rest.length + 1 := hlt1
      have hfuel1 : rest.length + 1 < fuel + 1 := hfuel
      have hdepth1 : rest.length + 1 ≤ depth := hdepth
      have hnodup := hinvd.nodup
      rw [allIds_append_singleton] at hnodup
      have htop1 : TopInv vs0 (fin ++ [d.component]) := by
        refine ⟨?_, ?_, ?_⟩
        · intro c hc
          rcases List.mem_append.1 hc with hc | hc
          · exact htop.ne c hc
          · rw [List.mem_singleton] at hc; subst hc; rw [htl]; simp
        · intro c hc u hu w hw
          rcases List.mem_append.1 hc with hc | hc
          · exact htop.conn c hc u hu w hw
          · rw [List.mem_singleton] at hc; subst hc
            rw [hids] at hu hw
            obtain ⟨r1, hr1, p1⟩ := hreach u hu
            obtain ⟨r2, hr2, p2⟩ := hreach w hw
            rw [List.mem_singleton] at hr1 hr2
            subst hr1; subst hr2
            exact (Relation.ReflTransGen.symmetric hsym p1).trans p2
        · intro c hc u hu w huw
          rcases List.mem_append.1 hc with hc | hc
          · exact htop.closed c hc u hu w huw
          · rw [List.mem_singleton] at hc; subst hc
            have hwv : (deref d.vs w).visited = true := by
              rw [hids] at hu
              exact hclosed u hu w huw
            have hw := (hinvd.mem_ids w).2 hwv
            rw [allIds_append_singleton] at hw
            rcases List.mem_append.1 hw with hw | hw
            · exfalso
              obtain ⟨c1, hc1, hwc1⟩ := mem_allIds.1 hw
              have hu1 := htop.closed c1 hc1 w hwc1 u (hsym u w huw)
              exact (List.nodup_append.1 hnodup).2.2 (mem_allIds.2 ⟨c1, hc1, hu1⟩) hu
            · exact hw
      obtain ⟨s1, fin1, hs1, hcs1, hinv1, htop1, hrem1⟩ :=
        ih ⟨d.vs, d.remaining, d.cmap, comps ++ [d.component]⟩ (fin ++ [d.component])
          (by simp [hcs]) hinvd htop1 (show d.remaining.length < fuel by omega)
          (show d.remaining.length ≤ depth by omega)
      refine ⟨s1, fin1, ?_, hcs1, hinv1, htop1, hrem1⟩
      simp only [extractLoop]
      rw [hp, hd]
      exact hs1

theorem deref_initNodes (rs : List Nat) {u : Nat} (h : u < numNodes rs) :
    deref (initNodes rs) u = ⟨u, false, [], rs.getD u 0⟩ := by
  apply deref_eq_of_getElem?
  simp [initNodes, List.getElem?_map, List.getElem?_range h]

theorem length_initNodes (rs : List Nat) : (initNodes rs).length = numNodes rs := by
  simp [initNodes]

/-- The node array the extraction starts from: positions are ids, flags are clear, the
rectangles are the caller's and the neighbour lists are those of the edge list. -/
theorem adjacency_nodes {rs : List Nat} {es : List (Nat × Nat)}
    (hv : ValidEdges (numNodes rs) es) :
    ∃ vs0, buildAdjacency (initNodes rs) es = some vs0 ∧ vs0.length = numNodes rs ∧
      (∀ u, u < numNodes rs → deref vs0 u = ⟨u, false, neighboursOf es u, rs.getD u 0⟩) ∧
      (∀ u, numNodes rs ≤ u → deref vs0 u = Node.blank) := by
  obtain ⟨vs0, h1, h2, h3⟩ := buildAdjacency_spec es (initNodes rs)
    (by rw [length_initNodes]; exact hv)
  rw [length_initNodes] at h2
  refine ⟨vs0, h1, h2, ?_, ?_⟩
  · intro u hu
    rw [h3 u, deref_initNodes rs hu]; simp
  · intro u hu
    exact deref_eq_blank (by rw [h2]; exact hu)

theorem neighboursOf_eq_nil {n : Nat} {es : List (Nat × Nat)} (hv : ValidEdges n es)
    {u : Nat} (hu : n ≤ u) : neighboursOf es u = [] := by
  cases h : neighboursOf es u with
  | nil => rfl
  | cons w ws =>
    have hw : w ∈ neighboursOf es u := by rw [h]; exact List.mem_cons_self _ _
    rcases mem_neighboursOf.1 hw with h1 | h1
    · have := (hv _ h1).1; simp at this; omega
    · have := (hv _ h1).2; simp at this; omega

/-- The extraction of a call on in-range edges: the adjacency loop and the extraction loop
succeed with the fuel `connectedComponents` gives them, and leave an `Extracted` state. -/
theorem extraction_spec (rs : List Nat) (es : List (Nat × Nat)) (cs0 : List Component)
    (hv : ValidEdges (numNodes rs) es) :
    ∃ vs0 s fin, buildAdjacency (initNodes rs) es = some vs0 ∧
      extractLoop (numNodes rs) (numNodes rs + 1)
        ⟨vs0, initRemaining rs, CMap.emptyMap, cs0⟩ = some s ∧
      Extracted rs es cs0 s fin := by
  obtain ⟨vs0, hb, hlen, hin, hout⟩ := adjacency_nodes hv
  have hnb : ∀ u, (deref vs0 u).neighbours = neighboursOf es u := by
    intro u
    by_cases hu : u < numNodes rs
    · rw [hin u hu]
    · rw [hout u (Nat.le_of_not_lt hu), neighboursOf_eq_nil hv (Nat.le_of_not_lt hu)]; rfl
  have hvis : ∀ u, (deref vs0 u).visited = false := by
    intro u
    by_cases hu : u < numNodes rs
    · rw [hin u hu]
    · rw [hout u (Nat.le_of_not_lt hu)]; rfl
  have hrel : ∀ u w, NbrRel vs0 u w ↔ EdgeAdj es u w := by
    intro u w; simp only [NbrRel, hnb]; exact mem_neighboursOf
  have hst : Static vs0 := by
    refine ⟨?_, ?_⟩
    · intro u hu; rw [hlen] at hu; rw [hin u hu]
    · intro u w hw
      rw [hnb] at hw
      rw [hlen]
      rcases mem_neighboursOf.1 hw with h1 | h1
      · exact (hv _ h1).2
      · exact (hv _ h1).1
  have hsym : ∀ u w, NbrRel vs0 u w → NbrRel vs0 w u := by
    intro u w h; rw [hrel] at h ⊢; exact edgeAdj_symm h
  have hshape : vs0.map clearVisited = vs0 := by
    apply List.ext_getElem?
    intro i
    rw [List.getElem?_map]
    by_cases hi : i < vs0.length
    · have hd : deref vs0 i = vs0[i] := deref_eq_of_getElem? (List.getElem?_eq_getElem hi)
      have := hvis i
      rw [hd] at this
      rw [List.getElem?_eq_getElem hi]
      simp only [Option.map_some', clearVisited, Option.some.injEq]
      rw [← this]
    · rw [List.getElem?_eq_none (Nat.le_of_not_lt hi)]; rfl
  have hinv0 : Inv vs0 cs0.length vs0 (initRemaining rs) CMap.emptyMap [] := by
    refine ⟨hshape, ?_, by simp [allIds], ?_, ?_, ?_, ?_⟩
    · rw [hlen, initRemaining]
      symm
      rw [List.filter_eq_self]
      intro u _; simp [hvis u]
    · intro u; simp [allIds, hvis u]
    · intro j c k u hj; simp at hj
    · intro u _; rfl
    · intro c hc; simp at hc
  have htop0 : TopInv vs0 [] := ⟨by simp, by simp, by simp⟩
  obtain ⟨s, fin, hs, hcs, hinv, htop, hrem⟩ :=
    @extractLoop_spec vs0 cs0 hst hsym (numNodes rs) (numNodes rs + 1)
      ⟨vs0, initRemaining rs, CMap.emptyMap, cs0⟩ [] (by simp) hinv0 htop0
      (by simp [initRemaining]) (by simp [initRemaining])
  have hconn : ∀ u w, Relation.ReflTransGen (NbrRel vs0) u w → Connected es u w := by
    intro u w h
    exact Relation.ReflTransGen.mono (fun a b hab => (hrel a b).1 hab) h
  have hmem : ∀ u, u ∈ allIds fin ↔ u < numNodes rs := by
    intro u
    rw [hinv.mem_ids]
    constructor
    · intro h
      by_contra hu
      have hu1 : s.vs.length ≤ u := by
        rw [shape_length hinv.shape, hlen]; exact Nat.le_of_not_lt hu
      rw [visited_of_ge hu1] at h
      exact Bool.noConfusion h
    · intro hu
      by_contra h
      have h1 : (deref s.vs u).visited = false := by simpa using h
      have := (mem_remaining hinv u).2 ⟨by rw [hlen]; exact hu, h1⟩
      rw [hrem] at this
      simp at this
  refine ⟨vs0, s, fin, hb, hs, ⟨hcs, hinv.nodup, hmem, hinv.hit, ?_, ?_, htop.ne, ?_, ?_⟩⟩
  · intro u hu
    apply hinv.miss
    apply visited_of_ge
    rw [shape_length hinv.shape, hlen]; exact hu
  · intro c hc
    obtain ⟨h1, h2⟩ := hinv.fields c hc
    refine ⟨?_, h2⟩
    rw [h1]
    apply List.map_congr_left
    intro u hu
    have hu1 : u < numNodes rs := (hmem u).1 (mem_allIds.2 ⟨c, hc, hu⟩)
    rw [hin u hu1]
  · intro c hc u hu w hw
    exact hconn u w (htop.conn c hc u hu w hw)
  · intro c hc u hu w huw
    exact htop.closed c hc u hu w ((hrel u w).2 huw)

/-! ## The remapping loops -/

theorem index_fst (m : CMap) (k : Nat) : (m.index k).1 = m.value k := by
  unfold CMap.index CMap.value
  cases m k <;> rfl

theorem index_snd_value (m : CMap) (k j : Nat) : (m.index k).2.value j = m.value j := by
  unfold CMap.index CMap.value
  cases h : m k with
  | some e => rfl
  | none =>
    simp only [CMap.assign]
    by_cases hj : j = k
    · subst hj; simp [h]
    · simp [hj]

/-- The loop body in terms of the pairs read from the index map. -/
theorem remapStep_eq (push : Component → Nat → Nat → Component) (a b : Nat) (cmap : CMap)
    (cs : List Component) :
    remapStep push a b (cmap, cs) =
      if (cmap.value a).1 = (cmap.value b).1 then
        match (cmap.value a).1 with
        | none => .error (Fault.nullDeref, cs)
        | some p => .ok (((cmap.index a).2.index b).2,
            cs.modify (fun c => push c (cmap.value a).2 (cmap.value b).2) p)
      else .error (Fault.assertion, cs) := by
  simp only [remapStep, index_fst, index_snd_value]

theorem modify_append_right {α : Type} (f : α → α) (l1 l2 : List α) (j : Nat) :
    List.modify f (l1.length + j) (l1 ++ l2) = l1 ++ List.modify f j l2 := by
  apply List.ext_getElem?
  intro i
  rw [List.getElem?_modify]
  by_cases hi : i < l1.length
  · rw [List.getElem?_append_left hi, List.getElem?_append_left hi]
    have : l1.length + j ≠ i := by omega
    simp [this]
  · rw [List.getElem?_append_right (by omega), List.getElem?_append_right (by omega),
      List.getElem?_modify]
    by_cases hij : j = i - l1.length
    · have : l1.length + j = i := by omega
      simp only [if_pos this, if_pos hij]
    · have : l1.length + j ≠ i := by omega
      simp only [if_neg this, if_neg hij]

theorem Dense.index {m : Nat} {cmap : CMap} {L : List (List Nat)} (h : Dense m cmap L)
    (a b : Nat) : Dense m ((cmap.index a).2.index b).2 L :=
  ⟨fun j l k u hj hk => by rw [index_snd_value, index_snd_value]; exact h.hit j l k u hj hk,
   fun u hu => by rw [index_snd_value, index_snd_value]; exact h.miss u hu⟩

theorem Dense.index_unique {m : Nat} {cmap : CMap} {L : List (List Nat)} (h : Dense m cmap L)
    {j1 j2 : Nat} {l1 l2 : List Nat} (h1 : L[j1]? = some l1) (h2 : L[j2]? = some l2)
    {u : Nat} (hu1 : u ∈ l1) (hu2 : u ∈ l2) : j1 = j2 := by
  obtain ⟨k1, hk1⟩ := List.mem_iff_getElem?.1 hu1
  obtain ⟨k2, hk2⟩ := List.mem_iff_getElem?.1 hu2
  have e1 := h.hit j1 l1 k1 u h1 hk1
  have e2 := h.hit j2 l2 k2 u h2 hk2
  rw [e1] at e2
  simp at e2
  omega

theorem Dense.indexOf {m : Nat} {cmap : CMap} {L : List (List Nat)} (h : Dense m cmap L)
    {j : Nat} {l : List Nat} (hj : L[j]? = some l) {u : Nat} (hu : u ∈ l) :
    cmap.value u = (some (m + j), l.indexOf u) := by
  have hlt : l.indexOf u < l.length := List.indexOf_lt_length.2 hu
  apply h.hit j l _ u hj
  rw [List.getElem?_eq_getElem hlt, List.getElem_indexOf hlt]

theorem applyPushes_node_ids {ι : Type} (ends : ι → Nat × Nat)
    (push : ι → Component → Nat → Nat → Component)
    (hpush : ∀ x c l r, (push x c l r).node_ids = c.node_ids) (ids : List Nat) (xs : List ι) :
    ∀ c, (applyPushes ends push ids xs c).node_ids = c.node_ids := by
  unfold applyPushes
  induction xs with
  | nil => intro c; rfl
  | cons x xs ih =>
    intro c
    by_cases hx : (ends x).1 ∈ ids
    · simp only [List.filter_cons, hx, decide_True, if_true, List.foldl_cons]
      rw [ih, hpush]
    · simp only [List.filter_cons, hx, decide_False]
      exact ih c

/-- A remapping loop over items whose two endpoints always lie in one component runs to
its end and makes on every component exactly the pushes of `applyPushes`. -/
theorem remapLoop_ok {ι : Type} (ends : ι → Nat × Nat)
    (push : ι → Component → Nat → Nat → Component)
    (hpush : ∀ x c l r, (push x c l r).node_ids = c.node_ids) (cs0 : List Component) :
    ∀ (xs : List ι) (cmap : CMap) (fin : List Component),
      Dense cs0.length cmap (fin.map Component.node_ids) →
      (∀ x ∈ xs, SameList (fin.map Component.node_ids) (ends x)) →
      ∃ cmap1, remapLoop ends push xs (cmap, cs0 ++ fin) =
          .ok (cmap1, cs0 ++ fin.map (fun c => applyPushes ends push c.node_ids xs c)) ∧
        Dense cs0.length cmap1 (fin.map Component.node_ids) := by
  intro xs
  induction xs with
  | nil =>
    intro cmap fin hd _
    exact ⟨cmap, by simp [remapLoop, applyPushes], hd⟩
  | cons x xs ih =>
    intro cmap fin hd hgood
    obtain ⟨l, hl, ha, hb⟩ := hgood x (List.mem_cons_self _ _)
    obtain ⟨j, hj⟩ := List.mem_iff_getElem?.1 hl
    have hva := hd.indexOf hj ha
    have hvb := hd.indexOf hj hb
    have hmap : (fin.modify (fun c => push x c (l.indexOf (ends x).1) (l.indexOf (ends x).2)) j).map
        Component.node_ids = fin.map Component.node_ids := by
      apply List.ext_getElem?
      intro i
      simp only [List.getElem?_map, List.getElem?_modify]
      cases fin[i]? with
      | none => rfl
      | some c =>
        by_cases hji : j = i
        · simp [hji, hpush]
        · simp [hji]
    obtain ⟨cmap1, h1, hd1⟩ := ih ((cmap.index (ends x).1).2.index (ends x).2).2
      (fin.modify (fun c => push x c (l.indexOf (ends x).1) (l.indexOf (ends x).2)) j)
      (by rw [hmap]; exact hd.index _ _)
      (by rw [hmap]; exact fun y hy => hgood y (List.mem_cons_of_mem _ hy))
    rw [hmap] at hd1
    refine ⟨cmap1, ?_, hd1⟩
    simp only [remapLoop, remapStep_eq, hva, hvb, if_true, modify_append_right]
    rw [h1]
    congr 3
    apply List.ext_getElem?
    intro i
    simp only [List.getElem?_map, List.getElem?_modify]
    cases hci : fin[i]? with
    | none => rfl
    | some c =>
      have hci1 : (fin.map Component.node_ids)[i]? = some c.node_ids := by
        rw [List.getElem?_map, hci]; rfl
      by_cases hji : j = i
      · subst hji
        have hlc : l = c.node_ids := by
          rw [hci1] at hj; exact (Option.some.inj hj).symm
        subst hlc
        simp [applyPushes, List.filter_cons, ha, hpush]
      · have hnot : (ends x).1 ∉ c.node_ids := by
          intro hmem
          exact hji (hd.index_unique hj hci1 ha hmem)
        simp [applyPushes, List.filter_cons, hnot, hji]

theorem remapLoop_append {ι : Type} (ends : ι → Nat × Nat)
    (push : ι → Component → Nat → Nat → Component) (xs ys : List ι) :
    ∀ st, remapLoop ends push (xs ++ ys) st =
      match remapLoop ends push xs st with
      | .error f => .error f
      | .ok st1 => remapLoop ends push ys st1 := by
  induction xs with
  | nil => intro st; rfl
  | cons x xs ih =>
    intro st
    simp only [List.cons_append, remapLoop]
    cases remapStep (push x) (ends x).1 (ends x).2 st with
    | error f => rfl
    | ok st1 => exact ih st1

/-- A remapping loop stops at the first item whose endpoints read different component
pointers: the assertion fails there, with the pushes of the earlier items made. -/
theorem remapLoop_assert {ι : Type} (ends : ι → Nat × Nat)
    (push : ι → Component → Nat → Nat → Component)
    (hpush : ∀ x c l r, (push x c l r).node_ids = c.node_ids) (cs0 : List Component)
    (pre : List ι) (x : ι) (post : List ι) (cmap : CMap) (fin : List Component)
    (hd : Dense cs0.length cmap (fin.map Component.node_ids))
    (hpre : ∀ y ∈ pre, SameList (fin.map Component.node_ids) (ends y))
    (hx : (cmap.value (ends x).1).1 ≠ (cmap.value (ends x).2).1) :
    remapLoop ends push (pre ++ x :: post) (cmap, cs0 ++ fin) =
      .error (Fault.assertion,
        cs0 ++ fin.map (fun c => applyPushes ends push c.node_ids pre c)) := by
  obtain ⟨cmap1, h1, hd1⟩ := remapLoop_ok ends push hpush cs0 pre cmap fin hd hpre
  rw [remapLoop_append, h1]
  have hmap : (fin.map (fun c => applyPushes ends push c.node_ids pre c)).map
      Component.node_ids = fin.map Component.node_ids := by
    simp [List.map_map, Function.comp_def, applyPushes_node_ids ends push hpush]
  have hv : ∀ u, cmap1.value u = cmap.value u := by
    intro u
    by_cases hu : ∀ l ∈ fin.map Component.node_ids, u ∉ l
    · rw [hd.miss u hu, hd1.miss u hu]
    · simp only [not_forall, not_not] at hu
      obtain ⟨l, hl, hul⟩ := hu
      obtain ⟨j, hj⟩ := List.mem_iff_getElem?.1 hl
      rw [hd.indexOf hj hul, hd1.indexOf hj hul]
  have hx1 : ¬ (cmap1.value (ends x).1).1 = (cmap1.value (ends x).2).1 := by
    rw [hv, hv]; exact hx
  simp only [remapLoop, remapStep_eq, if_neg hx1]

/-- A remapping loop stops at the first item whose endpoints both read the null component
pointer: the assertion passes and the push goes through the null pointer. -/
theorem remapLoop_null {ι : Type} (ends : ι → Nat × Nat)
    (push : ι → Component → Nat → Nat → Component)
    (hpush : ∀ x c l r, (push x c l r).node_ids = c.node_ids) (cs0 : List Component)
    (pre : List ι) (x : ι) (post : List ι) (cmap : CMap) (fin : List Component)
    (hd : Dense cs0.length cmap (fin.map Component.node_ids))
    (hpre : ∀ y ∈ pre, SameList (fin.map Component.node_ids) (ends y))
    (hx1 : ∀ l ∈ fin.map Component.node_ids, (ends x).1 ∉ l)
    (hx2 : ∀ l ∈ fin.map Component.node_ids, (ends x).2 ∉ l) :
    remapLoop ends push (pre ++ x :: post) (cmap, cs0 ++ fin) =
      .error (Fault.nullDeref,
        cs0 ++ fin.map (fun c => applyPushes ends push c.node_ids pre c)) := by
  obtain ⟨cmap1, h1, hd1⟩ := remapLoop_ok ends push hpush cs0 pre cmap fin hd hpre
  rw [remapLoop_append, h1]
  simp only [remapLoop, remapStep_eq, hd1.miss _ hx1, hd1.miss _ hx2, if_true]

/-! ### The three instances -/

theorem applyPushes_pushEdge (ids : List Nat) (es : List (Nat × Nat)) :
    ∀ c : Component, applyPushes id pushEdge ids es c =
      { c with
        edges := c.edges ++ (es.filter (fun e => decide (e.1 ∈ ids))).map
          (fun e => (ids.indexOf e.1, ids.indexOf e.2)) } := by
  unfold applyPushes
  induction es with
  | nil => intro c; simp
  | cons e es ih =>
    intro c
    by_cases he : e.1 ∈ ids
    · simp only [id, List.filter_cons, he, decide_True, if_true, List.foldl_cons, List.map_cons]
      simp only [id] at ih
      rw [ih]
      simp [pushEdge]
    · simp only [id, List.filter_cons, he, decide_False]
      simp only [id] at ih
      exact ih c

theorem applyPushes_pushScx (ids : List Nat) (xs : List SimpleConstraint) :
    ∀ c : Component, applyPushes SimpleConstraint.ends pushScx ids xs c =
      { c with
        scx := c.scx ++ (xs.filter (fun x => decide (x.left ∈ ids))).map
          (fun x => ⟨ids.indexOf x.left, ids.indexOf x.right, x.gap⟩) } := by
  unfold applyPushes
  induction xs with
  | nil => intro c; simp
  | cons x xs ih =>
    intro c
    by_cases he : x.left ∈ ids
    · simp only [SimpleConstraint.ends, List.filter_cons, he, decide_True, if_true,
        List.foldl_cons, List.map_cons]
      simp only [SimpleConstraint.ends] at ih
      rw [ih]
      simp [pushScx]
    · simp only [SimpleConstraint.ends, List.filter_cons, he, decide_False]
      simp only [SimpleConstraint.ends] at ih
      exact ih c

theorem applyPushes_pushScy (ids : List Nat) (xs : List SimpleConstraint) :
    ∀ c : Component, applyPushes SimpleConstraint.ends pushScy ids xs c =
      { c with
        scy := c.scy ++ (xs.filter (fun x => decide (x.left ∈ ids))).map
          (fun x => ⟨ids.indexOf x.left, ids.indexOf x.right, x.gap⟩) } := by
  unfold applyPushes
  induction xs with
  | nil => intro c; simp
  | cons x xs ih =>
    intro c
    by_cases he : x.left ∈ ids
    · simp only [SimpleConstraint.ends, List.filter_cons, he, decide_True, if_true,
        List.foldl_cons, List.map_cons]
      simp only [SimpleConstraint.ends] at ih
      rw [ih]
      simp [pushScy]
    · simp only [SimpleConstraint.ends, List.filter_cons, he, decide_False]
      simp only [SimpleConstraint.ends] at ih
      exact ih c

/-! ## From the extraction to the remapping loops -/

theorem value_of_some {cmap : CMap} {u : Nat} {e : Option Nat × Nat} (h : cmap u = some e) :
    cmap.value u = e := by
  simp [CMap.value, h]

theorem value_of_none {cmap : CMap} {u : Nat} (h : cmap u = none) :
    cmap.value u = (none, 0) := by
  simp [CMap.value, h]

theorem Extracted.dense {rs : List Nat} {es : List (Nat × Nat)} {cs0 : List Component}
    {s : CCState} {fin : List Component} (h : Extracted rs es cs0 s fin) :
    Dense cs0.length s.cmap (fin.map Component.node_ids) := by
  refine ⟨?_, ?_⟩
  · intro j l k u hj hk
    rw [List.getElem?_map] at hj
    cases hc : fin[j]? with
    | none => rw [hc] at hj; simp at hj
    | some c =>
      rw [hc] at hj
      simp only [Option.map_some', Option.some.injEq] at hj
      subst hj
      exact value_of_some (h.hit j c k u hc hk)
  · intro u hu
    apply value_of_none
    apply h.miss
    by_contra hlt
    obtain ⟨c, hc, huc⟩ := mem_allIds.1 ((h.mem u).2 (Nat.lt_of_not_le hlt))
    exact hu c.node_ids (List.mem_map.2 ⟨c, hc, rfl⟩) huc

theorem Extracted.mem_of_connected {rs : List Nat} {es : List (Nat × Nat)}
    {cs0 : List Component} {s : CCState} {fin : List Component}
    (h : Extracted rs es cs0 s fin) {c : Component} (hc : c ∈ fin) {u w : Nat}
    (hu : u ∈ c.node_ids) (hp : Connected es u w) : w ∈ c.node_ids := by
  induction hp with
  | refl => exact hu
  | tail _ hbc ih => exact h.closed c hc _ ih _ hbc

theorem Extracted.unique {rs : List Nat} {es : List (Nat × Nat)} {cs0 : List Component}
    {s : CCState} {fin : List Component} (h : Extracted rs es cs0 s fin)
    {c1 c2 : Component} (h1 : c1 ∈ fin) (h2 : c2 ∈ fin) {u : Nat}
    (hu1 : u ∈ c1.node_ids) (hu2 : u ∈ c2.node_ids) : c1 = c2 := by
  obtain ⟨j1, hj1⟩ := List.mem_iff_getElem?.1 h1
  obtain ⟨j2, hj2⟩ := List.mem_iff_getElem?.1 h2
  have e1 : (fin.map Component.node_ids)[j1]? = some c1.node_ids := by
    rw [List.getElem?_map, hj1]; rfl
  have e2 : (fin.map Component.node_ids)[j2]? = some c2.node_ids := by
    rw [List.getElem?_map, hj2]; rfl
  have := h.dense.index_unique e1 e2 hu1 hu2
  subst this
  rw [hj1] at hj2
  exact Option.some.inj hj2

theorem Extracted.sameList {rs : List Nat} {es : List (Nat × Nat)} {cs0 : List Component}
    {s : CCState} {fin : List Component} (h : Extracted rs es cs0 s fin) {a b : Nat}
    (ha : a < numNodes rs) (hp : Connected es a b) :
    SameList (fin.map Component.node_ids) (a, b) := by
  obtain ⟨c, hc, hac⟩ := mem_allIds.1 ((h.mem a).2 ha)
  exact ⟨c.node_ids, List.mem_map.2 ⟨c, hc, rfl⟩, hac, h.mem_of_connected hc hac hp⟩

/-- Two ids of one list of a dense index map read the same component pointer; ids of
different lists, or one id in a list and one in none, read different ones. -/
theorem Extracted.value_ne {rs : List Nat} {es : List (Nat × Nat)} {cs0 : List Component}
    {s : CCState} {fin : List Component} (h : Extracted rs es cs0 s fin) {cmap : CMap}
    (hd : Dense cs0.length cmap (fin.map Component.node_ids)) {a b : Nat}
    (hab : a < numNodes rs ∨ b < numNodes rs)
    (hbad : ¬ (a < numNodes rs ∧ b < numNodes rs ∧ Connected es a b)) :
    (cmap.value a).1 ≠ (cmap.value b).1 := by
  have key : ∀ u, u < numNodes rs → ∃ j c, fin[j]? = some c ∧ u ∈ c.node_ids ∧
      (cmap.value u).1 = some (cs0.length + j) := by
    intro u hu
    obtain ⟨c, hc, huc⟩ := mem_allIds.1 ((h.mem u).2 hu)
    obtain ⟨j, hj⟩ := List.mem_iff_getElem?.1 hc
    have e : (fin.map Component.node_ids)[j]? = some c.node_ids := by
      rw [List.getElem?_map, hj]; rfl
    exact ⟨j, c, hj, huc, by rw [hd.indexOf e huc]⟩
  have out : ∀ u, ¬ u < numNodes rs → (cmap.value u).1 = none := by
    intro u hu
    have : ∀ l ∈ fin.map Component.node_ids, u ∉ l := by
      intro l hl hul
      obtain ⟨c, hc, rfl⟩ := List.mem_map.1 hl
      exact hu ((h.mem u).1 (mem_allIds.2 ⟨c, hc, hul⟩))
    rw [hd.miss u this]
  by_cases ha : a < numNodes rs
  · obtain ⟨j1, c1, hj1, hac1, e1⟩ := key a ha
    by_cases hb : b < numNodes rs
    · obtain ⟨j2, c2, hj2, hbc2, e2⟩ := key b hb
      rw [e1, e2]
      intro heq
      have hj : j1 = j2 := by simpa using heq
      subst hj
      rw [hj1] at hj2
      have hc : c1 = c2 := Option.some.inj hj2
      subst hc
      exact hbad ⟨ha, hb, h.conn c1 (List.mem_iff_getElem?.2 ⟨j1, hj1⟩) a hac1 b hbc2⟩
    · rw [e1, out b hb]; simp
  · have hb : b < numNodes rs := hab.resolve_left ha
    obtain ⟨j2, c2, hj2, hbc2, e2⟩ := key b hb
    rw [out a ha, e2]; simp

/-- Restricting items that lie in one list each to the list `l` by the first endpoint or
by both endpoints is the same. -/
theorem filter_first_eq_both {ι : Type} {m : Nat} {cmap : CMap} {L : List (List Nat)}
    (hd : Dense m cmap L) (ends : ι → Nat × Nat) (xs : List ι)
    (hxs : ∀ x ∈ xs, SameList L (ends x)) {l : List Nat} (hl : l ∈ L) :
    xs.filter (fun x => decide ((ends x).1 ∈ l)) =
      xs.filter (fun x => decide ((ends x).1 ∈ l ∧ (ends x).2 ∈ l)) := by
  apply List.filter_congr
  intro x hx
  obtain ⟨l1, hl1, ha, hb⟩ := hxs x hx
  by_cases h1 : (ends x).1 ∈ l
  · obtain ⟨j, hj⟩ := List.mem_iff_getElem?.1 hl
    obtain ⟨j1, hj1⟩ := List.mem_iff_getElem?.1 hl1
    have := hd.index_unique hj hj1 h1 ha
    subst this
    rw [hj] at hj1
    have : l = l1 := Option.some.inj hj1
    subst this
    simp [h1, hb]
  · simp [h1]

theorem finish_node_ids (es : List (Nat × Nat)) (xs ys : List SimpleConstraint)
    (c : Component) : (finish es xs ys c).node_ids = c.node_ids := rfl

theorem map_finish_node_ids (es : List (Nat × Nat)) (xs ys : List SimpleConstraint)
    (fin : List Component) :
    (fin.map (finish es xs ys)).map Component.node_ids = fin.map Component.node_ids := by
  simp [List.map_map, Function.comp_def, finish_node_ids]

theorem pushEdge_node_ids (x : Nat × Nat) (c : Component) (l r : Nat) :
    (pushEdge x c l r).node_ids = c.node_ids := rfl

theorem pushScx_node_ids (x : SimpleConstraint) (c : Component) (l r : Nat) :
    (pushScx x c l r).node_ids = c.node_ids := rfl

theorem pushScy_node_ids (x : SimpleConstraint) (c : Component) (l r : Nat) :
    (pushScy x c l r).node_ids = c.node_ids := rfl

/-- The pushes of the edge loop on the components of the extraction. -/
theorem map_applyPushes_edges {m : Nat} {cmap : CMap} {fin : List Component}
    (hd : Dense m cmap (fin.map Component.node_ids)) (es : List (Nat × Nat))
    (hes : ∀ e ∈ es, SameList (fin.map Component.node_ids) e) :
    fin.map (fun c => applyPushes id pushEdge c.node_ids es c) =
      fin.map (finish es [] []) := by
  apply List.map_congr_left
  intro c hc
  have := filter_first_eq_both hd id es hes (List.mem_map.2 ⟨c, hc, rfl⟩)
  simp only [id] at this
  rw [applyPushes_pushEdge, this]
  simp [finish, localEdges, localConstraints]

/-- The pushes of the X loop on components that already carry the local edges. -/
theorem map_applyPushes_scx {m : Nat} {cmap : CMap} {fin : List Component}
    (hd : Dense m cmap (fin.map Component.node_ids)) (es : List (Nat × Nat))
    (xs : List SimpleConstraint)
    (hxs : ∀ x ∈ xs, SameList (fin.map Component.node_ids) x.ends) :
    (fin.map (finish es [] [])).map
        (fun c => applyPushes SimpleConstraint.ends pushScx c.node_ids xs c) =
      fin.map (finish es xs []) := by
  rw [List.map_map]
  apply List.map_congr_left
  intro c hc
  have := filter_first_eq_both hd SimpleConstraint.ends xs hxs (List.mem_map.2 ⟨c, hc, rfl⟩)
  simp only [SimpleConstraint.ends] at this
  simp only [Function.comp_def, finish_node_ids]
  rw [applyPushes_pushScx, this]
  simp [finish, localEdges, localConstraints]

/-- The pushes of the Y loop on components that already carry the local edges and the
local X constraints. -/
theorem map_applyPushes_scy {m : Nat} {cmap : CMap} {fin : List Component}
    (hd : Dense m cmap (fin.map Component.node_ids)) (es : List (Nat × Nat))
    (xs ys : List SimpleConstraint)
    (hys : ∀ y ∈ ys, SameList (fin.map Component.node_ids) y.ends) :
    (fin.map (finish es xs [])).map
        (fun c => applyPushes SimpleConstraint.ends pushScy c.node_ids ys c) =
      fin.map (finish es xs ys) := by
  rw [List.map_map]
  apply List.map_congr_left
  intro c hc
  have := filter_first_eq_both hd SimpleConstraint.ends ys hys (List.mem_map.2 ⟨c, hc, rfl⟩)
  simp only [SimpleConstraint.ends] at this
  simp only [Function.comp_def, finish_node_ids]
  rw [applyPushes_pushScy, this]
  simp [finish, localEdges, localConstraints]

/-! ## The whole call -/

/-- A constraint list meets the precondition throughout, or there is a first constraint
that does not. -/
theorem good_or_stops (n : Nat) (es : List (Nat × Nat)) (xs : List SimpleConstraint) :
    (∀ x ∈ xs, GoodConstraint n es x) ∨ ∃ pre f, Stops n es xs pre f := by
  induction xs with
  | nil => left; simp
  | cons x xs ih =>
    by_cases hx : GoodConstraint n es x
    · rcases ih with h | ⟨pre, f, y, post, h1, h2, h3⟩
      · left
        intro z hz
        rcases List.mem_cons.1 hz with rfl | hz
        · exact hx
        · exact h z hz
      · right
        refine ⟨x :: pre, f, y, post, by rw [h1]; rfl, ?_, h3⟩
        intro z hz
        rcases List.mem_cons.1 hz with rfl | hz
        · exact hx
        · exact h2 z hz
    · right
      by_cases hr : x.left < n ∨ x.right < n
      · exact ⟨[], Fault.assertion, x, xs, rfl, by simp, Or.inl ⟨rfl, hr, hx⟩⟩
      · simp only [not_or, not_lt] at hr
        exact ⟨[], Fault.nullDeref, x, xs, rfl, by simp, Or.inr ⟨rfl, hr.1, hr.2⟩⟩

/-- The edge loop (lines 61-66) after the extraction: no assertion fails, and every
component receives its local edges. -/
theorem edges_pass {rs : List Nat} {es : List (Nat × Nat)} {cs0 : List Component}
    {s : CCState} {fin : List Component} (h : Extracted rs es cs0 s fin)
    (hv : ValidEdges (numNodes rs) es) :
    ∃ cmap1, remapLoop id pushEdge es (s.cmap, s.components) =
        .ok (cmap1, cs0 ++ fin.map (finish es [] [])) ∧
      Dense cs0.length cmap1 (fin.map Component.node_ids) := by
  have hes : ∀ e ∈ es, SameList (fin.map Component.node_ids) (id e) := by
    intro e he
    exact h.sameList (hv e he).1 (Relation.ReflTransGen.single (Or.inl he))
  obtain ⟨cmap1, h1, hd1⟩ := remapLoop_ok id pushEdge pushEdge_node_ids cs0 es s.cmap fin
    h.dense hes
  refine ⟨cmap1, ?_, hd1⟩
  rw [h.comps, h1, map_applyPushes_edges h.dense es hes]

theorem good_sameList {rs : List Nat} {es : List (Nat × Nat)} {cs0 : List Component}
    {s : CCState} {fin : List Component} (h : Extracted rs es cs0 s fin)
    {xs : List SimpleConstraint} (hxs : ∀ x ∈ xs, GoodConstraint (numNodes rs) es x) :
    ∀ x ∈ xs, SameList (fin.map Component.node_ids) x.ends :=
  fun x hx => h.sameList (hxs x hx).1 (hxs x hx).2.2

/-- The X loop (lines 67-74) on constraints that meet the precondition. -/
theorem scx_pass {rs : List Nat} {es : List (Nat × Nat)} {cs0 : List Component}
    {s : CCState} {fin : List Component} (h : Extracted rs es cs0 s fin) {cmap1 : CMap}
    (hd : Dense cs0.length cmap1 (fin.map Component.node_ids)) {xs : List SimpleConstraint}
    (hxs : ∀ x ∈ xs, GoodConstraint (numNodes rs) es x) :
    ∃ cmap2, remapLoop SimpleConstraint.ends pushScx xs
        (cmap1, cs0 ++ fin.map (finish es [] [])) =
        .ok (cmap2, cs0 ++ fin.map (finish es xs [])) ∧
      Dense cs0.length cmap2 (fin.map Component.node_ids) := by
  have hs := good_sameList h hxs
  obtain ⟨cmap2, h2, hd2⟩ := remapLoop_ok SimpleConstraint.ends pushScx pushScx_node_ids cs0
    xs cmap1 (fin.map (finish es [] []))
    (by rw [map_finish_node_ids]; exact hd) (by rw [map_finish_node_ids]; exact hs)
  rw [map_finish_node_ids] at hd2
  exact ⟨cmap2, by rw [h2, map_applyPushes_scx hd es xs hs], hd2⟩

/-- The Y loop (lines 75-82) on constraints that meet the precondition. -/
theorem scy_pass {rs : List Nat} {es : List (Nat × Nat)} {cs0 : List Component}
    {s : CCState} {fin : List Component} (h : Extracted rs es cs0 s fin) {cmap2 : CMap}
    (hd : Dense cs0.length cmap2 (fin.map Component.node_ids))
    (xs : List SimpleConstraint) {ys : List SimpleConstraint}
    (hys : ∀ y ∈ ys, GoodConstraint (numNodes rs) es y) :
    ∃ cmap3, remapLoop SimpleConstraint.ends pushScy ys
        (cmap2, cs0 ++ fin.map (finish es xs [])) =
        .ok (cmap3, cs0 ++ fin.map (finish es xs ys)) ∧
      Dense cs0.length cmap3 (fin.map Component.node_ids) := by
  have hs := good_sameList h hys
  obtain ⟨cmap3, h3, hd3⟩ := remapLoop_ok SimpleConstraint.ends pushScy pushScy_node_ids cs0
    ys cmap2 (fin.map (finish es xs []))
    (by rw [map_finish_node_ids]; exact hd) (by rw [map_finish_node_ids]; exact hs)
  rw [map_finish_node_ids] at hd3
  exact ⟨cmap3, by rw [h3, map_applyPushes_scy hd es xs ys hs], hd3⟩

theorem not_mem_of_ge {rs : List Nat} {es : List (Nat × Nat)} {cs0 : List Component}
    {s : CCState} {fin : List Component} (h : Extracted rs es cs0 s fin) {u : Nat}
    (hu : numNodes rs ≤ u) : ∀ l ∈ fin.map Component.node_ids, u ∉ l := by
  intro l hl hul
  obtain ⟨c, hc, rfl⟩ := List.mem_map.1 hl
  have := (h.mem u).1 (mem_allIds.2 ⟨c, hc, hul⟩)
  omega

/-- The X loop stops at the first constraint that does not meet the precondition. -/
theorem scx_stops {rs : List Nat} {es : List (Nat × Nat)} {cs0 : List Component}
    {s : CCState} {fin : List Component} (h : Extracted rs es cs0 s fin) {cmap1 : CMap}
    (hd : Dense cs0.length cmap1 (fin.map Component.node_ids)) {xs pre : List SimpleConstraint}
    {f : Fault} (hst : Stops (numNodes rs) es xs pre f) :
    remapLoop SimpleConstraint.ends pushScx xs (cmap1, cs0 ++ fin.map (finish es [] [])) =
      .error (f, cs0 ++ fin.map (finish es pre [])) := by
  obtain ⟨x, post, hxs, hpre, hx⟩ := hst
  have hs := good_sameList h hpre
  have hd1 : Dense cs0.length cmap1 ((fin.map (finish es [] [])).map Component.node_ids) := by
    rw [map_finish_node_ids]; exact hd
  have hs1 : ∀ y ∈ pre, SameList ((fin.map (finish es [] [])).map Component.node_ids) y.ends := by
    rw [map_finish_node_ids]; exact hs
  subst hxs
  rcases hx with ⟨rfl, hr, hbad⟩ | ⟨rfl, h1, h2⟩
  · rw [remapLoop_assert SimpleConstraint.ends pushScx pushScx_node_ids cs0 pre x post cmap1
      _ hd1 hs1 (h.value_ne hd hr hbad), map_applyPushes_scx hd es pre hs]
  · rw [remapLoop_null SimpleConstraint.ends pushScx pushScx_node_ids cs0 pre x post cmap1
      _ hd1 hs1 (by rw [map_finish_node_ids]; exact not_mem_of_ge h h1)
      (by rw [map_finish_node_ids]; exact not_mem_of_ge h h2),
      map_applyPushes_scx hd es pre hs]

/-- The Y loop stops at the first constraint that does not meet the precondition. -/
theorem scy_stops {rs : List Nat} {es : List (Nat × Nat)} {cs0 : List Component}
    {s : CCState} {fin : List Component} (h : Extracted rs es cs0 s fin) {cmap2 : CMap}
    (hd : Dense cs0.length cmap2 (fin.map Component.node_ids)) (xs : List SimpleConstraint)
    {ys pre : List SimpleConstraint} {f : Fault} (hst : Stops (numNodes rs) es ys pre f) :
    remapLoop SimpleConstraint.ends pushScy ys (cmap2, cs0 ++ fin.map (finish es xs [])) =
      .error (f, cs0 ++ fin.map (finish es xs pre)) := by
  obtain ⟨x, post, hxs, hpre, hx⟩ := hst
  have hs := good_sameList h hpre
  have hd1 : Dense cs0.length cmap2 ((fin.map (finish es xs [])).map Component.node_ids) := by
    rw [map_finish_node_ids]; exact hd
  have hs1 : ∀ y ∈ pre, SameList ((fin.map (finish es xs [])).map Component.node_ids) y.ends := by
    rw [map_finish_node_ids]; exact hs
  subst hxs
  rcases hx with ⟨rfl, hr, hbad⟩ | ⟨rfl, h1, h2⟩
  · rw [remapLoop_assert SimpleConstraint.ends pushScy pushScy_node_ids cs0 pre x post cmap2
      _ hd1 hs1 (h.value_ne hd hr hbad), map_applyPushes_scy hd es xs pre hs]
  · rw [remapLoop_null SimpleConstraint.ends pushScy pushScy_node_ids cs0 pre x post cmap2
      _ hd1 hs1 (by rw [map_finish_node_ids]; exact not_mem_of_ge h h1)
      (by rw [map_finish_node_ids]; exact not_mem_of_ge h h2),
      map_applyPushes_scy hd es xs pre hs]

/-- Every run of `connectedComponents` on in-range edges: the extraction succeeds, then
the call either stops in the X loop, or stops in the Y loop, or returns; in each case the
output vector holds the old entries followed by the extracted components with the local
edges and the local constraints processed so far. -/
theorem connectedComponents_run (rs : List Nat) (es : List (Nat × Nat))
    (scx scy : List SimpleConstraint) (cs0 : List Component)
    (hv : ValidEdges (numNodes rs) es) :
    ∃ vs0 s fin, buildAdjacency (initNodes rs) es = some vs0 ∧
      extractLoop (numNodes rs) (numNodes rs + 1)
        ⟨vs0, initRemaining rs, CMap.emptyMap, cs0⟩ = some s ∧
      Extracted rs es cs0 s fin ∧
      ((∃ px f, Stops (numNodes rs) es scx px f ∧
          connectedComponents rs es scx scy cs0 =
            .failed f (cs0 ++ fin.map (finish es px []))) ∨
       ((∀ x ∈ scx, GoodConstraint (numNodes rs) es x) ∧
          ∃ py f, Stops (numNodes rs) es scy py f ∧
          connectedComponents rs es scx scy cs0 =
            .failed f (cs0 ++ fin.map (finish es scx py))) ∨
       ((∀ x ∈ scx, GoodConstraint (numNodes rs) es x) ∧
          (∀ y ∈ scy, GoodConstraint (numNodes rs) es y) ∧
          connectedComponents rs es scx scy cs0 =
            .returned (cs0 ++ fin.map (finish es scx scy)))) := by
  obtain ⟨vs0, s, fin, hb, hs, hex⟩ := extraction_spec rs es cs0 hv
  obtain ⟨cmap1, he, hd1⟩ := edges_pass hex hv
  refine ⟨vs0, s, fin, hb, hs, hex, ?_⟩
  rcases good_or_stops (numNodes rs) es scx with hx | ⟨px, f, hst⟩
  · obtain ⟨cmap2, h2, hd2⟩ := scx_pass hex hd1 hx
    rcases good_or_stops (numNodes rs) es scy with hy | ⟨py, f, hst⟩
    · obtain ⟨cmap3, h3, _⟩ := scy_pass hex hd2 scx hy
      right; right
      refine ⟨hx, hy, ?_⟩
      simp only [connectedComponents, hb, hs, he, h2, h3]
    · right; left
      refine ⟨hx, py, f, hst, ?_⟩
      simp only [connectedComponents, hb, hs, he, h2, scy_stops hex hd2 scx hst]
  · left
    refine ⟨px, f, hst, ?_⟩
    simp only [connectedComponents, hb, hs, he, scx_stops hex hd1 hst]

/-- The call returns on inputs that meet the documented preconditions. -/
theorem connectedComponents_returned (rs : List Nat) (es : List (Nat × Nat))
    (scx scy : List SimpleConstraint) (cs0 : List Component)
    (hv : ValidEdges (numNodes rs) es)
    (hx : ∀ x ∈ scx, GoodConstraint (numNodes rs) es x)
    (hy : ∀ y ∈ scy, GoodConstraint (numNodes rs) es y) :
    ∃ vs0 s fin, buildAdjacency (initNodes rs) es = some vs0 ∧
      extractLoop (numNodes rs) (numNodes rs + 1)
        ⟨vs0, initRemaining rs, CMap.emptyMap, cs0⟩ = some s ∧
      Extracted rs es cs0 s fin ∧
      connectedComponents rs es scx scy cs0 =
        .returned (cs0 ++ fin.map (finish es scx scy)) := by
  obtain ⟨vs0, s, fin, hb, hs, hex⟩ := extraction_spec rs es cs0 hv
  obtain ⟨cmap1, he, hd1⟩ := edges_pass hex hv
  obtain ⟨cmap2, h2, hd2⟩ := scx_pass hex hd1 hx
  obtain ⟨cmap3, h3, _⟩ := scy_pass hex hd2 scx hy
  refine ⟨vs0, s, fin, hb, hs, hex, ?_⟩
  simp only [connectedComponents, hb, hs, he, h2, h3]

/-! ## Shared facts about the result -/

theorem allIds_map_finish (es : List (Nat × Nat)) (xs ys : List SimpleConstraint)
    (fin : List Component) : allIds (fin.map (finish es xs ys)) = allIds fin := by
  simp [allIds, List.map_map, Function.comp_def, finish_node_ids]

/-- The components of the result in closed form. -/
theorem Extracted.finish_eq {rs : List Nat} {es : List (Nat × Nat)} {cs0 : List Component}
    {s : CCState} {fin : List Component} (h : Extracted rs es cs0 s fin)
    (xs ys : List SimpleConstraint) {c : Component} (hc : c ∈ fin) :
    finish es xs ys c = ⟨c.node_ids, c.node_ids.map (fun u => rs.getD u 0),
      localEdges c.node_ids es, localConstraints c.node_ids xs,
      localConstraints c.node_ids ys⟩ := by
  obtain ⟨h1, h2, h3, h4⟩ := h.fields c hc
  simp [finish, h1, h2, h3, h4]

theorem mem_map_finish {es : List (Nat × Nat)} {xs ys : List SimpleConstraint}
    {fin : List Component} {C : Component} :
    C ∈ fin.map (finish es xs ys) ↔ ∃ c ∈ fin, finish es xs ys c = C := List.mem_map

theorem twoTriangles_valid : ValidEdges (numNodes sixRects) twoTriangles := by
  unfold ValidEdges; decide

theorem twoTriangles_good :
    ∀ x ∈ [(⟨0, 1, 10⟩ : SimpleConstraint)], GoodConstraint (numNodes sixRects) twoTriangles x := by
  intro x hx
  rw [List.mem_singleton] at hx
  subst hx
  exact ⟨by decide, by decide, Relation.ReflTransGen.single (Or.inl (by decide))⟩

theorem nil_good (n : Nat) (es : List (Nat × Nat)) :
    ∀ x ∈ ([] : List SimpleConstraint), GoodConstraint n es x := by
  intro x hx; simp at hx

/-- In the two triangles no path leaves the triangle it starts in. -/
theorem twoTriangles_side {u w : Nat} (h : Connected twoTriangles u w) : u < 3 ↔ w < 3 := by
  induction h with
  | refl => exact Iff.rfl
  | tail _ hbc ih =>
    rw [ih]
    rcases hbc with h1 | h1 <;>
    · simp only [twoTriangles, List.mem_cons, Prod.mk.injEq, List.mem_singleton,
        List.not_mem_nil, or_false] at h1
      omega

theorem getElem?_indexOf {l : List Nat} {a : Nat} (h : a ∈ l) : l[l.indexOf a]? = some a := by
  have hlt : l.indexOf a < l.length := List.indexOf_lt_length.2 h
  rw [List.getElem?_eq_getElem hlt, List.getElem_indexOf hlt]

theorem numNodes_le (rs : List Nat) : numNodes rs ≤ rs.length := Nat.mod_le _ _

theorem rect_of_lt {rs : List Nat} {u : Nat} (h : u < numNodes rs) :
    rs[u]? = some (rs.getD u 0) := by
  have hlt : u < rs.length := lt_of_lt_of_le h (numNodes_le rs)
  rw [List.getElem?_eq_getElem hlt, List.getD_eq_getElem rs 0 hlt]

/-- The local constraint made for an input constraint with both endpoints in `ids`. -/
theorem mem_localConstraints {ids : List Nat} {xs : List SimpleConstraint}
    {x : SimpleConstraint} (hx : x ∈ xs) (hl : x.left ∈ ids) (hr : x.right ∈ ids) :
    (⟨ids.indexOf x.left, ids.indexOf x.right, x.gap⟩ : SimpleConstraint) ∈
      localConstraints ids xs := by
  unfold localConstraints
  exact List.mem_map.2 ⟨x, List.mem_filter.2 ⟨hx, by simp [hl, hr]⟩, rfl⟩

theorem length_localConstraints_cons (ids : List Nat) (x : SimpleConstraint)
    (xs : List SimpleConstraint) :
    (localConstraints ids (x :: xs)).length =
      (localConstraints ids xs).length +
        (if x.left ∈ ids ∧ x.right ∈ ids then 1 else 0) := by
  unfold localConstraints
  by_cases h : x.left ∈ ids ∧ x.right ∈ ids
  · simp [List.filter_cons, h]
  · simp [List.filter_cons, h]

/-- Among components with disjoint id lists, exactly the one that holds `a` counts. -/
theorem indicator_sum (a b : Nat) :
    ∀ fin : List Component, (allIds fin).Nodup →
      (∀ c ∈ fin, a ∈ c.node_ids → b ∈ c.node_ids) →
      (fin.map (fun c => if a ∈ c.node_ids ∧ b ∈ c.node_ids then 1 else 0)).sum =
        if a ∈ allIds fin then 1 else 0 := by
  intro fin
  induction fin with
  | nil => intro _ _; simp [allIds]
  | cons c fin ih =>
    intro hnd hcl
    have hids : allIds (c :: fin) = c.node_ids ++ allIds fin := by simp [allIds]
    rw [hids] at hnd
    have hdis := (List.nodup_append.1 hnd).2.2
    have ih1 := ih (List.nodup_append.1 hnd).2.1
      (fun d hd => hcl d (List.mem_cons_of_mem _ hd))
    rw [List.map_cons, List.sum_cons, ih1, hids]
    by_cases ha : a ∈ c.node_ids
    · have hb := hcl c (List.mem_cons_self _ _) ha
      have hna : a ∉ allIds fin := fun h => hdis ha h
      simp [ha, hb, hna]
    · simp [ha]

/-- The local constraint lists of the components share out the input list: their lengths
add up to its length. -/
theorem sum_localConstraints {rs : List Nat} {es : List (Nat × Nat)} {cs0 : List Component}
    {s : CCState} {fin : List Component} (h : Extracted rs es cs0 s fin) :
    ∀ xs : List SimpleConstraint, (∀ x ∈ xs, GoodConstraint (numNodes rs) es x) →
      (fin.map (fun c => (localConstraints c.node_ids xs).length)).sum = xs.length := by
  intro xs
  induction xs with
  | nil => intro _; simp [localConstraints]
  | cons x xs ih =>
    intro hxs
    have hx := hxs x (List.mem_cons_self _ _)
    simp only [length_localConstraints_cons]
    rw [List.sum_map_add, ih (fun y hy => hxs y (List.mem_cons_of_mem _ hy)),
      indicator_sum x.left x.right fin h.nodup
        (fun c hc hl => h.mem_of_connected hc hl hx.2.2),
      if_pos ((h.mem x.left).2 hx.1)]
    simp

/-- A call on in-range edges whose constraints each have a valid endpoint, one of them
not meeting the precondition: it stops at the failed assertion, and the components then
carry the local constraints of a prefix `px` of the X list and a prefix `py` of the Y list
made of constraints that meet the precondition. -/
theorem assertion_stop (rs : List Nat) (es : List (Nat × Nat))
    (scx scy : List SimpleConstraint) (cs0 : List Component)
    (hv : ValidEdges (numNodes rs) es)
    (hin : ∀ y ∈ scx ++ scy, y.left < numNodes rs ∨ y.right < numNodes rs)
    (hbad : ∃ x ∈ scx ++ scy, ¬ GoodConstraint (numNodes rs) es x) :
    ∃ s fin px py, Extracted rs es cs0 s fin ∧
      connectedComponents rs es scx scy cs0 =
        .failed Fault.assertion (cs0 ++ fin.map (finish es px py)) ∧
      px <+: scx ∧ py <+: scy ∧ ∀ y ∈ px ++ py, GoodConstraint (numNodes rs) es y := by
  obtain ⟨_, s, fin, _, _, hex, hrun⟩ := connectedComponents_run rs es scx scy cs0 hv
  have hf : ∀ (zs pre : List SimpleConstraint) (f : Fault), (∀ z ∈ zs, z ∈ scx ++ scy) →
      Stops (numNodes rs) es zs pre f →
      f = Fault.assertion ∧ pre <+: zs ∧ ∀ y ∈ pre, GoodConstraint (numNodes rs) es y := by
    rintro zs pre f hsub ⟨x, post, hzs, hpre, hx⟩
    refine ⟨?_, ⟨x :: post, hzs.symm⟩, hpre⟩
    rcases hx with ⟨rfl, _, _⟩ | ⟨_, h1, h2⟩
    · rfl
    · have := hin x (hsub x (by rw [hzs]; simp))
      omega
  rcases hrun with ⟨px, f, hst, hr⟩ | ⟨hx, py, f, hst, hr⟩ | ⟨hx, hy, _⟩
  · obtain ⟨rfl, hp, hg⟩ := hf scx px f (fun z hz => List.mem_append_left _ hz) hst
    exact ⟨s, fin, px, [], hex, hr, hp, List.nil_prefix, by simpa using hg⟩
  · obtain ⟨rfl, hp, hg⟩ := hf scy py f (fun z hz => List.mem_append_right _ hz) hst
    refine ⟨s, fin, scx, py, hex, hr, List.prefix_refl _, hp, ?_⟩
    intro y hy
    rcases List.mem_append.1 hy with hy | hy
    · exact hx y hy
    · exact hg y hy
  · obtain ⟨x, hxm, hxb⟩ := hbad
    rcases List.mem_append.1 hxm with h | h
    · exact absurd (hx x h) hxb
    · exact absurd (hy x h) hxb

theorem twoTriangles_not_connected : ¬ Connected twoTriangles 0 3 := by
  intro h
  have := twoTriangles_side h
  omega

/-- The fuel `connectedComponents` gives to `dfs` and to the extraction loop is never
exhausted, whatever the input. -/
theorem connectedComponents_fuel (rs : List Nat) (es : List (Nat × Nat))
    (scx scy : List SimpleConstraint) (cs0 : List Component) :
    connectedComponents rs es scx scy cs0 ≠ .outOfFuel := by
  by_cases hv : ValidEdges (numNodes rs) es
  · obtain ⟨_, _, _, _, _, _, hrun⟩ := connectedComponents_run rs es scx scy cs0 hv
    rcases hrun with ⟨_, _, _, hr⟩ | ⟨_, _, _, _, hr⟩ | ⟨_, _, hr⟩ <;>
    · rw [hr]; exact fun h => Outcome.noConfusion h
  · have hb : buildAdjacency (initNodes rs) es = none :=
      buildAdjacency_none es (initNodes rs) (by rw [length_initNodes]; exact hv)
    simp only [connectedComponents, hb]
    exact fun h => Outcome.noConfusion h

/-! ## The claims -/

/-- C1 (partition).  On in-range edges and constraints that meet the precondition, a call
with an empty output vector returns components whose `node_ids` lists, taken together,
hold every id below `N` exactly once: the concatenation has no repetition (so no id is in
two components or twice in one) and its members are exactly the ids below `N`. -/
theorem partition_of_ids (rs : List Nat) (es : List (Nat × Nat))
    (scx scy : List SimpleConstraint) (hv : ValidEdges (numNodes rs) es)
    (hx : ∀ x ∈ scx, GoodConstraint (numNodes rs) es x)
    (hy : ∀ y ∈ scy, GoodConstraint (numNodes rs) es y) :
    ∃ cs, connectedComponents rs es scx scy [] = .returned cs ∧
      (allIds cs).Nodup ∧ (∀ u, u ∈ allIds cs ↔ u < numNodes rs) ∧
      (allIds cs).Perm (List.range (numNodes rs)) := by
  obtain ⟨_, s, fin, _, _, hex, hr⟩ := connectedComponents_returned rs es scx scy [] hv hx hy
  refine ⟨fin.map (finish es scx scy), by simpa using hr, ?_, ?_, ?_⟩
  · rw [allIds_map_finish]; exact hex.nodup
  · rw [allIds_map_finish]; exact hex.mem
  · rw [allIds_map_finish]
    exact (List.perm_ext_iff_of_nodup hex.nodup (List.nodup_range _)).2
      (fun u => by rw [hex.mem u, List.mem_range])

theorem partition_of_ids_witness :
    ValidEdges (numNodes sixRects) twoTriangles ∧
    ∃ cs, connectedComponents sixRects twoTriangles [⟨0, 1, 10⟩] [] [] = .returned cs ∧
      (allIds cs).Nodup ∧ (∀ u, u ∈ allIds cs ↔ u < numNodes sixRects) ∧
      (allIds cs).Perm (List.range (numNodes sixRects)) :=
  ⟨twoTriangles_valid,
   partition_of_ids sixRects twoTriangles [⟨0, 1, 10⟩] [] twoTriangles_valid
     twoTriangles_good (nil_good _ _)⟩

/-- C2 (maximal connectivity).  On a valid input, two ids below `N` lie in the same
returned component if and only if a path of input edges, taken as undirected, joins
them. -/
theorem same_component_iff_connected (rs : List Nat) (es : List (Nat × Nat))
    (scx scy : List SimpleConstraint) (hv : ValidEdges (numNodes rs) es)
    (hx : ∀ x ∈ scx, GoodConstraint (numNodes rs) es x)
    (hy : ∀ y ∈ scy, GoodConstraint (numNodes rs) es y) :
    ∃ cs, connectedComponents rs es scx scy [] = .returned cs ∧
      ∀ u v, u < numNodes rs → v < numNodes rs →
        ((∃ C ∈ cs, u ∈ C.node_ids ∧ v ∈ C.node_ids) ↔ Connected es u v) := by
  obtain ⟨_, s, fin, _, _, hex, hr⟩ := connectedComponents_returned rs es scx scy [] hv hx hy
  refine ⟨fin.map (finish es scx scy), by simpa using hr, ?_⟩
  intro u v hu _
  constructor
  · rintro ⟨C, hC, huC, hvC⟩
    obtain ⟨c, hc, rfl⟩ := mem_map_finish.1 hC
    exact hex.conn c hc u huC v hvC
  · intro hp
    obtain ⟨c, hc, huc⟩ := mem_allIds.1 ((hex.mem u).2 hu)
    exact ⟨finish es scx scy c, mem_map_finish.2 ⟨c, hc, rfl⟩, huc,
      hex.mem_of_connected hc huc hp⟩

theorem same_component_iff_connected_witness :
    ValidEdges (numNodes sixRects) twoTriangles ∧
    ∃ cs, connectedComponents sixRects twoTriangles [⟨0, 1, 10⟩] [] [] = .returned cs ∧
      ∀ u v, u < numNodes sixRects → v < numNodes sixRects →
        ((∃ C ∈ cs, u ∈ C.node_ids ∧ v ∈ C.node_ids) ↔ Connected twoTriangles u v) :=
  ⟨twoTriangles_valid,
   same_component_iff_connected sixRects twoTriangles [⟨0, 1, 10⟩] [] twoTriangles_valid
     twoTriangles_good (nil_good _ _)⟩

/-- C3 (constraint remapping).  On a valid input every input constraint `(left, right,
gap)`, of either axis, has a local constraint `(l, r, gap)` stored in the list of its axis
of a returned component `C` with `C.node_ids[l] = left`, `C.node_ids[r] = right`,
`C.rects[l] = rs[left]` and `C.rects[r] = rs[right]`. -/
theorem constraint_remapping (rs : List Nat) (es : List (Nat × Nat))
    (scx scy : List SimpleConstraint) (hv : ValidEdges (numNodes rs) es)
    (hx : ∀ x ∈ scx, GoodConstraint (numNodes rs) es x)
    (hy : ∀ y ∈ scy, GoodConstraint (numNodes rs) es y) :
    ∃ cs, connectedComponents rs es scx scy [] = .returned cs ∧
      (∀ x ∈ scx, ∃ C ∈ cs, ∃ lc ∈ C.scx, lc.gap = x.gap ∧
        C.node_ids[lc.left]? = some x.left ∧ C.node_ids[lc.right]? = some x.right ∧
        C.rects[lc.left]? = rs[x.left]? ∧ C.rects[lc.right]? = rs[x.right]?) ∧
      (∀ y ∈ scy, ∃ C ∈ cs, ∃ lc ∈ C.scy, lc.gap = y.gap ∧
        C.node_ids[lc.left]? = some y.left ∧ C.node_ids[lc.right]? = some y.right ∧
        C.rects[lc.left]? = rs[y.left]? ∧ C.rects[lc.right]? = rs[y.right]?) := by
  obtain ⟨_, s, fin, _, _, hex, hr⟩ := connectedComponents_returned rs es scx scy [] hv hx hy
  have key : ∀ (zs : List SimpleConstraint) (z : SimpleConstraint), z ∈ zs →
      GoodConstraint (numNodes rs) es z → ∃ c ∈ fin, z.left ∈ c.node_ids ∧
        z.right ∈ c.node_ids ∧
        (c.node_ids.map (fun u => rs.getD u 0))[c.node_ids.indexOf z.left]? = rs[z.left]? ∧
        (c.node_ids.map (fun u => rs.getD u 0))[c.node_ids.indexOf z.right]? = rs[z.right]? := by
    intro zs z _ hg
    obtain ⟨c, hc, hl⟩ := mem_allIds.1 ((hex.mem z.left).2 hg.1)
    have hrm := hex.mem_of_connected hc hl hg.2.2
    refine ⟨c, hc, hl, hrm, ?_, ?_⟩
    · rw [List.getElem?_map, getElem?_indexOf hl, rect_of_lt hg.1]; rfl
    · rw [List.getElem?_map, getElem?_indexOf hrm, rect_of_lt hg.2.1]; rfl
  refine ⟨fin.map (finish es scx scy), by simpa using hr, ?_, ?_⟩
  · intro x hxm
    obtain ⟨c, hc, hl, hrm, h1, h2⟩ := key scx x hxm (hx x hxm)
    refine ⟨finish es scx scy c, mem_map_finish.2 ⟨c, hc, rfl⟩,
      ⟨c.node_ids.indexOf x.left, c.node_ids.indexOf x.right, x.gap⟩, ?_, rfl, ?_⟩
    · rw [hex.finish_eq scx scy hc]; exact mem_localConstraints hxm hl hrm
    · rw [hex.finish_eq scx scy hc]
      exact ⟨getElem?_indexOf hl, getElem?_indexOf hrm, h1, h2⟩
  · intro y hym
    obtain ⟨c, hc, hl, hrm, h1, h2⟩ := key scy y hym (hy y hym)
    refine ⟨finish es scx scy c, mem_map_finish.2 ⟨c, hc, rfl⟩,
      ⟨c.node_ids.indexOf y.left, c.node_ids.indexOf y.right, y.gap⟩, ?_, rfl, ?_⟩
    · rw [hex.finish_eq scx scy hc]; exact mem_localConstraints hym hl hrm
    · rw [hex.finish_eq scx scy hc]
      exact ⟨getElem?_indexOf hl, getElem?_indexOf hrm, h1, h2⟩

theorem constraint_remapping_witness :
    ValidEdges (numNodes sixRects) twoTriangles ∧
    ∃ cs, connectedComponents sixRects twoTriangles [⟨0, 1, 10⟩] [] [] = .returned cs ∧
      (∀ x ∈ [(⟨0, 1, 10⟩ : SimpleConstraint)], ∃ C ∈ cs, ∃ lc ∈ C.scx, lc.gap = x.gap ∧
        C.node_ids[lc.left]? = some x.left ∧ C.node_ids[lc.right]? = some x.right ∧
        C.rects[lc.left]? = sixRects[x.left]? ∧ C.rects[lc.right]? = sixRects[x.right]?) ∧
      (∀ y ∈ ([] : List SimpleConstraint), ∃ C ∈ cs, ∃ lc ∈ C.scy, lc.gap = y.gap ∧
        C.node_ids[lc.left]? = some y.left ∧ C.node_ids[lc.right]? = some y.right ∧
        C.rects[lc.left]? = sixRects[y.left]? ∧ C.rects[lc.right]? = sixRects[y.right]?) :=
  ⟨twoTriangles_valid,
   constraint_remapping sixRects twoTriangles [⟨0, 1, 10⟩] [] twoTriangles_valid
     twoTriangles_good (nil_good _ _)⟩

/-- C4 (constraint partitioning).  On a valid input the `scx` list of every returned
component is the input X list restricted to the constraints with both endpoints in that
component, in input order, gaps kept and endpoints replaced by local indices; the same for
`scy` and the input Y list (so no constraint changes axis); and the `scx` lengths add up to
the number of input X constraints, the `scy` lengths to the number of input Y
constraints. -/
theorem constraint_partitioning (rs : List Nat) (es : List (Nat × Nat))
    (scx scy : List SimpleConstraint) (hv : ValidEdges (numNodes rs) es)
    (hx : ∀ x ∈ scx, GoodConstraint (numNodes rs) es x)
    (hy : ∀ y ∈ scy, GoodConstraint (numNodes rs) es y) :
    ∃ cs, connectedComponents rs es scx scy [] = .returned cs ∧
      (∀ C ∈ cs, C.scx = localConstraints C.node_ids scx ∧
        C.scy = localConstraints C.node_ids scy) ∧
      (cs.map (fun C => C.scx.length)).sum = scx.length ∧
      (cs.map (fun C => C.scy.length)).sum = scy.length := by
  obtain ⟨_, s, fin, _, _, hex, hr⟩ := connectedComponents_returned rs es scx scy [] hv hx hy
  refine ⟨fin.map (finish es scx scy), by simpa using hr, ?_, ?_, ?_⟩
  · intro C hC
    obtain ⟨c, hc, rfl⟩ := mem_map_finish.1 hC
    rw [hex.finish_eq scx scy hc]
    exact ⟨rfl, rfl⟩
  · rw [List.map_map, ← sum_localConstraints hex scx hx]
    congr 1
    apply List.map_congr_left
    intro c hc
    simp only [Function.comp_def]
    rw [hex.finish_eq scx scy hc]
  · rw [List.map_map, ← sum_localConstraints hex scy hy]
    congr 1
    apply List.map_congr_left
    intro c hc
    simp only [Function.comp_def]
    rw [hex.finish_eq scx scy hc]

theorem constraint_partitioning_witness :
    ValidEdges (numNodes sixRects) twoTriangles ∧
    ∃ cs, connectedComponents sixRects twoTriangles [⟨0, 1, 10⟩] [] [] = .returned cs ∧
      (∀ C ∈ cs, C.scx = localConstraints C.node_ids [⟨0, 1, 10⟩] ∧
        C.scy = localConstraints C.node_ids []) ∧
      (cs.map (fun C => C.scx.length)).sum = [(⟨0, 1, 10⟩ : SimpleConstraint)].length ∧
      (cs.map (fun C => C.scy.length)).sum = ([] : List SimpleConstraint).length :=
  ⟨twoTriangles_valid,
   constraint_partitioning sixRects twoTriangles [⟨0, 1, 10⟩] [] twoTriangles_valid
     twoTriangles_good (nil_good _ _)⟩

/-- C5 (a constraint that spans components is rejected).  On in-range edges and in-range
constraints, if some X or Y constraint `x` has endpoints not joined by a path of edges, the
call stops at the failed same-component assertion.  The constraints attached by then are
exactly the local forms of a prefix `px` of the X list and a prefix `py` of the Y list, all
with connected endpoints, so `x` is among neither and is attached to no component. -/
theorem spanning_constraint_rejected (rs : List Nat) (es : List (Nat × Nat))
    (scx scy : List SimpleConstraint) (hv : ValidEdges (numNodes rs) es)
    (hin : ValidConstraints (numNodes rs) (scx ++ scy))
    (x : SimpleConstraint) (hx : x ∈ scx ++ scy) (hsp : ¬ Connected es x.left x.right) :
    ∃ cs px py, connectedComponents rs es scx scy [] = .failed Fault.assertion cs ∧
      px <+: scx ∧ py <+: scy ∧ x ∉ px ++ py ∧
      (∀ y ∈ px ++ py, Connected es y.left y.right) ∧
      ∀ C ∈ cs, C.scx = localConstraints C.node_ids px ∧
        C.scy = localConstraints C.node_ids py := by
  obtain ⟨s, fin, px, py, hex, hr, hpx, hpy, hg⟩ := assertion_stop rs es scx scy [] hv
    (fun y hy => Or.inl (hin y hy).1) ⟨x, hx, fun h => hsp h.2.2⟩
  refine ⟨fin.map (finish es px py), px, py, by simpa using hr, hpx, hpy, ?_, ?_, ?_⟩
  · exact fun h => hsp (hg x h).2.2
  · exact fun y hy => (hg y hy).2.2
  · intro C hC
    obtain ⟨c, hc, rfl⟩ := mem_map_finish.1 hC
    rw [hex.finish_eq px py hc]
    exact ⟨rfl, rfl⟩

theorem spanning_constraint_rejected_witness :
    ValidEdges (numNodes sixRects) twoTriangles ∧
    ValidConstraints (numNodes sixRects) ([⟨0, 3, 10⟩] ++ []) ∧
    ¬ Connected twoTriangles 0 3 ∧
    ∃ cs px py, connectedComponents sixRects twoTriangles [⟨0, 3, 10⟩] [] [] =
        .failed Fault.assertion cs ∧
      px <+: [⟨0, 3, 10⟩] ∧ py <+: [] ∧ (⟨0, 3, 10⟩ : SimpleConstraint) ∉ px ++ py ∧
      (∀ y ∈ px ++ py, Connected twoTriangles y.left y.right) ∧
      ∀ C ∈ cs, C.scx = localConstraints C.node_ids px ∧
        C.scy = localConstraints C.node_ids py :=
  ⟨twoTriangles_valid, by unfold ValidConstraints; decide, twoTriangles_not_connected,
   spanning_constraint_rejected sixRects twoTriangles [⟨0, 3, 10⟩] [] twoTriangles_valid
     (by unfold ValidConstraints; decide) ⟨0, 3, 10⟩ (by simp) twoTriangles_not_connected⟩

/-- C6, counterexample.  The claim that the output vector is as before the call whenever
the call fails is false for the two triangles with the X constraint `(0, 3, 10)` and an
empty output vector: the call stops at the failed assertion with two components in the
vector. -/
theorem failure_not_atomic :
    ¬ ∀ f cs, connectedComponents sixRects twoTriangles [⟨0, 3, 10⟩] [] [] = .failed f cs →
      cs = [] := by
  intro h
  have h1 : connectedComponents sixRects twoTriangles [⟨0, 3, 10⟩] [] [] =
      .failed Fault.assertion
        [⟨[0, 1, 2], [10, 11, 12], [(0, 1), (1, 2), (2, 0)], [], []⟩,
         ⟨[3, 4, 5], [13, 14, 15], [(0, 1), (1, 2), (2, 0)], [], []⟩] := by decide
  have h2 := h _ _ h1
  simp at h2

/-- C6, amended.  When a call stops without returning, the entries the output vector held
at the call are still its first entries.  If the stop is the out-of-range access of the
adjacency loop (some edge endpoint is not below `N`) the vector is exactly as at the call.
Otherwise the components of the extraction have already been appended: they partition the
ids below `N`, carry their local edges and the local constraints of a prefix of the X list
and of a prefix of the Y list. -/
theorem failure_state (rs : List Nat) (es : List (Nat × Nat))
    (scx scy : List SimpleConstraint) (cs0 : List Component) (f : Fault)
    (cs : List Component) (h : connectedComponents rs es scx scy cs0 = .failed f cs) :
    (¬ ValidEdges (numNodes rs) es ∧ f = Fault.outOfRange ∧ cs = cs0) ∨
    (ValidEdges (numNodes rs) es ∧ f ≠ Fault.outOfRange ∧
      ∃ added px py, cs = cs0 ++ added ∧ (allIds added).Perm (List.range (numNodes rs)) ∧
        px <+: scx ∧ py <+: scy ∧
        ∀ C ∈ added, C.edges = localEdges C.node_ids es ∧
          C.scx = localConstraints C.node_ids px ∧
          C.scy = localConstraints C.node_ids py) := by
  by_cases hv : ValidEdges (numNodes rs) es
  · right
    obtain ⟨_, s, fin, _, _, hex, hrun⟩ := connectedComponents_run rs es scx scy cs0 hv
    have hperm : ∀ px py, (allIds (fin.map (finish es px py))).Perm
        (List.range (numNodes rs)) := by
      intro px py
      rw [allIds_map_finish]
      exact (List.perm_ext_iff_of_nodup hex.nodup (List.nodup_range _)).2
        (fun u => by rw [hex.mem u, List.mem_range])
    have hfields : ∀ px py, ∀ C ∈ fin.map (finish es px py),
        C.edges = localEdges C.node_ids es ∧ C.scx = localConstraints C.node_ids px ∧
          C.scy = localConstraints C.node_ids py := by
      intro px py C hC
      obtain ⟨c, hc, rfl⟩ := mem_map_finish.1 hC
      rw [hex.finish_eq px py hc]
      exact ⟨rfl, rfl, rfl⟩
    have hne : ∀ (zs pre : List SimpleConstraint) (g : Fault),
        Stops (numNodes rs) es zs pre g → g ≠ Fault.outOfRange ∧ pre <+: zs := by
      rintro zs pre g ⟨x, post, hzs, _, hx⟩
      refine ⟨?_, ⟨x :: post, hzs.symm⟩⟩
      rcases hx with ⟨rfl, _⟩ | ⟨rfl, _⟩ <;> simp
    rcases hrun with ⟨px, g, hst, hr⟩ | ⟨_, py, g, hst, hr⟩ | ⟨_, _, hr⟩
    · rw [hr] at h
      injection h with h1 h2
      subst h1; subst h2
      exact ⟨hv, (hne _ _ _ hst).1, _, px, [], rfl, hperm px [], (hne _ _ _ hst).2,
        List.nil_prefix, hfields px []⟩
    · rw [hr] at h
      injection h with h1 h2
      subst h1; subst h2
      exact ⟨hv, (hne _ _ _ hst).1, _, scx, py, rfl, hperm scx py, List.prefix_refl _,
        (hne _ _ _ hst).2, hfields scx py⟩
    · rw [hr] at h
      exact Outcome.noConfusion h
  · left
    have hb : buildAdjacency (initNodes rs) es = none :=
      buildAdjacency_none es (initNodes rs) (by rw [length_initNodes]; exact hv)
    simp only [connectedComponents, hb] at h
    injection h with h1 h2
    exact ⟨hv, h1.symm, h2.symm⟩

theorem failure_state_witness :
    connectedComponents sixRects twoTriangles [⟨0, 3, 10⟩] [] [] =
      .failed Fault.assertion
        [⟨[0, 1, 2], [10, 11, 12], [(0, 1), (1, 2), (2, 0)], [], []⟩,
         ⟨[3, 4, 5], [13, 14, 15], [(0, 1), (1, 2), (2, 0)], [], []⟩] ∧
    ((¬ ValidEdges (numNodes sixRects) twoTriangles ∧ Fault.assertion = Fault.outOfRange ∧
        [⟨[0, 1, 2], [10, 11, 12], [(0, 1), (1, 2), (2, 0)], [], []⟩,
         ⟨[3, 4, 5], [13, 14, 15], [(0, 1), (1, 2), (2, 0)], [], []⟩] = ([] : List Component)) ∨
    (ValidEdges (numNodes sixRects) twoTriangles ∧ Fault.assertion ≠ Fault.outOfRange ∧
      ∃ added px py,
        [⟨[0, 1, 2], [10, 11, 12], [(0, 1), (1, 2), (2, 0)], [], []⟩,
         ⟨[3, 4, 5], [13, 14, 15], [(0, 1), (1, 2), (2, 0)], [], []⟩] = [] ++ added ∧
        (allIds added).Perm (List.range (numNodes sixRects)) ∧
        px <+: [⟨0, 3, 10⟩] ∧ py <+: [] ∧
        ∀ C ∈ added, C.edges = localEdges C.node_ids twoTriangles ∧
          C.scx = localConstraints C.node_ids px ∧
          C.scy = localConstraints C.node_ids py)) :=
  ⟨by decide,
   failure_state sixRects twoTriangles [⟨0, 3, 10⟩] [] [] Fault.assertion _ (by decide)⟩

/-- C7, counterexample.  With one rectangle and the edge `(0, 1)` the call does not stop
at an error the code detects: the adjacency loop indexes the one-element node array at
`1`, an unchecked out-of-range access. -/
theorem invalid_edge_not_detected :
    connectedComponents [10] [(0, 1)] [] [] [] = .failed Fault.outOfRange [] ∧
    (connectedComponents [10] [(0, 1)] [] [] []).detectedError = false := by
  constructor <;> decide

/-- C7, amended.  For every `N` and every edge list with an endpoint that is not below
`N`, the call runs into the unchecked out-of-range access of the adjacency loop, which is
undefined behaviour and not a detected error; no component has been created then, and the
output vector is as it was at the call. -/
theorem invalid_edge_out_of_range (rs : List Nat) (es : List (Nat × Nat))
    (scx scy : List SimpleConstraint) (cs0 : List Component)
    (h : ¬ ValidEdges (numNodes rs) es) :
    connectedComponents rs es scx scy cs0 = .failed Fault.outOfRange cs0 ∧
    (connectedComponents rs es scx scy cs0).detectedError = false := by
  have hb : buildAdjacency (initNodes rs) es = none :=
    buildAdjacency_none es (initNodes rs) (by rw [length_initNodes]; exact h)
  have hr : connectedComponents rs es scx scy cs0 = .failed Fault.outOfRange cs0 := by
    simp only [connectedComponents, hb]
  exact ⟨hr, by rw [hr]; rfl⟩

theorem invalid_edge_out_of_range_witness :
    ¬ ValidEdges (numNodes [10]) [(0, 1)] ∧
    connectedComponents [10] [(0, 1)] [⟨0, 0, 1⟩] [] [] = .failed Fault.outOfRange [] ∧
    (connectedComponents [10] [(0, 1)] [⟨0, 0, 1⟩] [] []).detectedError = false :=
  ⟨by unfold ValidEdges; decide,
   invalid_edge_out_of_range [10] [(0, 1)] [⟨0, 0, 1⟩] [] [] (by unfold ValidEdges; decide)⟩

/-- C8, counterexample.  With one rectangle, no edge and the X constraint `(1, 2, 5)`,
whose two ids are out of range, the call does not stop at an error the code detects: both
lookups read the null pointer, the assertion passes and the push goes through the null
pointer. -/
theorem invalid_constraint_not_detected :
    connectedComponents [10] [] [⟨1, 2, 5⟩] [] [] =
      .failed Fault.nullDeref [⟨[0], [10], [], [], []⟩] ∧
    (connectedComponents [10] [] [⟨1, 2, 5⟩] [] []).detectedError = false := by
  constructor <;> decide

/-- C8, amended.  On in-range edges, if some X or Y constraint `x` has an id that is not
below `N` and no constraint has both ids out of range, the call stops at the failed
same-component assertion, which is a detected error.  The constraints attached by then are
the local forms of a prefix `px` of the X list and a prefix `py` of the Y list that do not
contain `x`, so `x` is attached to no component. -/
theorem invalid_constraint_asserts (rs : List Nat) (es : List (Nat × Nat))
    (scx scy : List SimpleConstraint) (hv : ValidEdges (numNodes rs) es)
    (hin : ∀ y ∈ scx ++ scy, y.left < numNodes rs ∨ y.right < numNodes rs)
    (x : SimpleConstraint) (hx : x ∈ scx ++ scy)
    (hout : numNodes rs ≤ x.left ∨ numNodes rs ≤ x.right) :
    ∃ cs px py, connectedComponents rs es scx scy [] = .failed Fault.assertion cs ∧
      (connectedComponents rs es scx scy []).detectedError = true ∧
      px <+: scx ∧ py <+: scy ∧ x ∉ px ++ py ∧
      ∀ C ∈ cs, C.scx = localConstraints C.node_ids px ∧
        C.scy = localConstraints C.node_ids py := by
  have hxb : ¬ GoodConstraint (numNodes rs) es x := by
    intro hg
    have h1 := hg.1
    have h2 := hg.2.1
    omega
  obtain ⟨s, fin, px, py, hex, hr, hpx, hpy, hg⟩ := assertion_stop rs es scx scy [] hv hin
    ⟨x, hx, hxb⟩
  refine ⟨fin.map (finish es px py), px, py, by simpa using hr, by rw [hr]; rfl, hpx, hpy,
    ?_, ?_⟩
  · exact fun h => hxb (hg x h)
  · intro C hC
    obtain ⟨c, hc, rfl⟩ := mem_map_finish.1 hC
    rw [hex.finish_eq px py hc]
    exact ⟨rfl, rfl⟩

theorem invalid_constraint_asserts_witness :
    ValidEdges (numNodes sixRects) twoTriangles ∧
    (∀ y ∈ [(⟨0, 1, 10⟩ : SimpleConstraint)] ++ [⟨2, 6, 3⟩],
      y.left < numNodes sixRects ∨ y.right < numNodes sixRects) ∧
    ∃ cs px py, connectedComponents sixRects twoTriangles [⟨0, 1, 10⟩] [⟨2, 6, 3⟩] [] =
        .failed Fault.assertion cs ∧
      (connectedComponents sixRects twoTriangles [⟨0, 1, 10⟩] [⟨2, 6, 3⟩] []).detectedError
        = true ∧
      px <+: [⟨0, 1, 10⟩] ∧ py <+: [⟨2, 6, 3⟩] ∧ (⟨2, 6, 3⟩ : SimpleConstraint) ∉ px ++ py ∧
      ∀ C ∈ cs, C.scx = localConstraints C.node_ids px ∧
        C.scy = localConstraints C.node_ids py :=
  ⟨twoTriangles_valid, by decide,
   invalid_constraint_asserts sixRects twoTriangles [⟨0, 1, 10⟩] [⟨2, 6, 3⟩]
     twoTriangles_valid (by decide) ⟨2, 6, 3⟩ (by simp) (Or.inr (by decide))⟩

/-- C9 (success under the documented preconditions).  If every edge endpoint and every
constraint endpoint is below `N` and the endpoints of every constraint are joined by a
path of edges, the call returns: no assertion fails, and both endpoints of every edge and
of every constraint have an entry in the index map left by the extraction, with the same
non-null component pointer. -/
theorem success_under_preconditions (rs : List Nat) (es : List (Nat × Nat))
    (scx scy : List SimpleConstraint) (hv : ValidEdges (numNodes rs) es)
    (hx : ∀ x ∈ scx, GoodConstraint (numNodes rs) es x)
    (hy : ∀ y ∈ scy, GoodConstraint (numNodes rs) es y) :
    ∃ vs0 s cs, buildAdjacency (initNodes rs) es = some vs0 ∧
      extractLoop (numNodes rs) (numNodes rs + 1)
        ⟨vs0, initRemaining rs, CMap.emptyMap, []⟩ = some s ∧
      connectedComponents rs es scx scy [] = .returned cs ∧
      (∀ e ∈ es, ∃ p l r, s.cmap e.1 = some (some p, l) ∧ s.cmap e.2 = some (some p, r)) ∧
      (∀ x ∈ scx ++ scy, ∃ p l r,
        s.cmap x.left = some (some p, l) ∧ s.cmap x.right = some (some p, r)) := by
  obtain ⟨vs0, s, fin, hb, hs, hex, hr⟩ :=
    connectedComponents_returned rs es scx scy [] hv hx hy
  have key : ∀ a b, a < numNodes rs → Connected es a b →
      ∃ p l r, s.cmap a = some (some p, l) ∧ s.cmap b = some (some p, r) := by
    intro a b ha hp
    obtain ⟨c, hc, hac⟩ := mem_allIds.1 ((hex.mem a).2 ha)
    have hbc := hex.mem_of_connected hc hac hp
    obtain ⟨j, hj⟩ := List.mem_iff_getElem?.1 hc
    obtain ⟨ka, hka⟩ := List.mem_iff_getElem?.1 hac
    obtain ⟨kb, hkb⟩ := List.mem_iff_getElem?.1 hbc
    exact ⟨_, ka, kb, hex.hit j c ka a hj hka, hex.hit j c kb b hj hkb⟩
  refine ⟨vs0, s, _, hb, hs, hr, ?_, ?_⟩
  · intro e he
    exact key e.1 e.2 (hv e he).1 (Relation.ReflTransGen.single (Or.inl he))
  · intro x hxm
    rcases List.mem_append.1 hxm with h | h
    · exact key x.left x.right (hx x h).1 (hx x h).2.2
    · exact key x.left x.right (hy x h).1 (hy x h).2.2

theorem success_under_preconditions_witness :
    ValidEdges (numNodes sixRects) twoTriangles ∧
    ∃ vs0 s cs, buildAdjacency (initNodes sixRects) twoTriangles = some vs0 ∧
      extractLoop (numNodes sixRects) (numNodes sixRects + 1)
        ⟨vs0, initRemaining sixRects, CMap.emptyMap, []⟩ = some s ∧
      connectedComponents sixRects twoTriangles [⟨0, 1, 10⟩] [] [] = .returned cs ∧
      (∀ e ∈ twoTriangles, ∃ p l r,
        s.cmap e.1 = some (some p, l) ∧ s.cmap e.2 = some (some p, r)) ∧
      (∀ x ∈ [(⟨0, 1, 10⟩ : SimpleConstraint)] ++ [], ∃ p l r,
        s.cmap x.left = some (some p, l) ∧ s.cmap x.right = some (some p, r)) :=
  ⟨twoTriangles_valid,
   success_under_preconditions sixRects twoTriangles [⟨0, 1, 10⟩] [] twoTriangles_valid
     twoTriangles_good (nil_good _ _)⟩

/-- C10 (dense local indices).  On a valid input the index map left by the extraction
sends a global id `u` to the pair (pointer of component `j`, `k`) exactly when `u` is entry
`k` of the `node_ids` of the returned component `j`; so within a component the local
indices are the positions `0, .., size - 1` of its `node_ids`, each used once. -/
theorem dense_local_indices (rs : List Nat) (es : List (Nat × Nat))
    (scx scy : List SimpleConstraint) (hv : ValidEdges (numNodes rs) es)
    (hx : ∀ x ∈ scx, GoodConstraint (numNodes rs) es x)
    (hy : ∀ y ∈ scy, GoodConstraint (numNodes rs) es y) :
    ∃ vs0 s cs, buildAdjacency (initNodes rs) es = some vs0 ∧
      extractLoop (numNodes rs) (numNodes rs + 1)
        ⟨vs0, initRemaining rs, CMap.emptyMap, []⟩ = some s ∧
      connectedComponents rs es scx scy [] = .returned cs ∧
      ∀ j k u, (∃ C, cs[j]? = some C ∧ C.node_ids[k]? = some u) ↔
        s.cmap u = some (some j, k) := by
  obtain ⟨vs0, s, fin, hb, hs, hex, hr⟩ :=
    connectedComponents_returned rs es scx scy [] hv hx hy
  refine ⟨vs0, s, fin.map (finish es scx scy), hb, hs, by simpa using hr, ?_⟩
  have hget : ∀ (j : Nat) (C : Component), (fin.map (finish es scx scy))[j]? = some C ↔
      ∃ c, fin[j]? = some c ∧ finish es scx scy c = C := by
    intro j C
    rw [List.getElem?_map]
    cases fin[j]? <;> simp
  intro j k u
  constructor
  · rintro ⟨C, hC, hk⟩
    obtain ⟨c, hc, rfl⟩ := (hget j C).1 hC
    have := hex.hit j c k u hc hk
    simpa using this
  · intro hm
    have hu : u < numNodes rs := by
      by_contra hge
      rw [hex.miss u (Nat.le_of_not_lt hge)] at hm
      exact Option.noConfusion hm
    obtain ⟨c, hc, huc⟩ := mem_allIds.1 ((hex.mem u).2 hu)
    obtain ⟨j1, hj1⟩ := List.mem_iff_getElem?.1 hc
    obtain ⟨k1, hk1⟩ := List.mem_iff_getElem?.1 huc
    have h1 := hex.hit j1 c k1 u hj1 hk1
    rw [hm] at h1
    simp only [List.length_nil, Nat.zero_add, Option.some.injEq, Prod.mk.injEq] at h1
    obtain ⟨h2, h3⟩ := h1
    subst h2; subst h3
    exact ⟨finish es scx scy c, (hget j (finish es scx scy c)).2 ⟨c, hj1, rfl⟩, hk1⟩

theorem dense_local_indices_witness :
    ValidEdges (numNodes sixRects) twoTriangles ∧
    ∃ vs0 s cs, buildAdjacency (initNodes sixRects) twoTriangles = some vs0 ∧
      extractLoop (numNodes sixRects) (numNodes sixRects + 1)
        ⟨vs0, initRemaining sixRects, CMap.emptyMap, []⟩ = some s ∧
      connectedComponents sixRects twoTriangles [⟨0, 1, 10⟩] [] [] = .returned cs ∧
      ∀ j k u, (∃ C, cs[j]? = some C ∧ C.node_ids[k]? = some u) ↔
        s.cmap u = some (some j, k) :=
  ⟨twoTriangles_valid,
   dense_local_indices sixRects twoTriangles [⟨0, 1, 10⟩] [] twoTriangles_valid
     twoTriangles_good (nil_good _ _)⟩

/-! ## Further facts about the result -/

theorem length_localEdges_cons (ids : List Nat) (e : Nat × Nat) (es : List (Nat × Nat)) :
    (localEdges ids (e :: es)).length =
      (localEdges ids es).length + (if e.1 ∈ ids ∧ e.2 ∈ ids then 1 else 0) := by
  unfold localEdges
  by_cases h : e.1 ∈ ids ∧ e.2 ∈ ids
  · simp [List.filter_cons, h]
  · simp [List.filter_cons, h]

/-- The local edge lists of the components share out a list of edges that each join two
ids of one component: their lengths add up to its length. -/
theorem sum_localEdges {rs : List Nat} {es : List (Nat × Nat)} {cs0 : List Component}
    {s : CCState} {fin : List Component} (h : Extracted rs es cs0 s fin) :
    ∀ xs : List (Nat × Nat),
      (∀ e ∈ xs, e.1 < numNodes rs ∧ Connected es e.1 e.2) →
      (fin.map (fun c => (localEdges c.node_ids xs).length)).sum = xs.length := by
  intro xs
  induction xs with
  | nil => intro _; simp [localEdges]
  | cons e xs ih =>
    intro hxs
    have he := hxs e (List.mem_cons_self _ _)
    simp only [length_localEdges_cons]
    rw [List.sum_map_add, ih (fun y hy => hxs y (List.mem_cons_of_mem _ hy)),
      indicator_sum e.1 e.2 fin h.nodup
        (fun c hc hl => h.mem_of_connected hc hl he.2),
      if_pos ((h.mem e.1).2 he.1)]
    simp

/-- No path of edges leaves a node that is an endpoint of no edge. -/
theorem connected_isolated {es : List (Nat × Nat)} {i w : Nat}
    (hi : ∀ e ∈ es, e.1 ≠ i ∧ e.2 ≠ i) (h : Connected es i w) : w = i := by
  induction h with
  | refl => rfl
  | tail _ hbc ih =>
    subst ih
    rcases hbc with h1 | h1
    · exact absurd rfl (hi _ h1).1
    · exact absurd rfl (hi _ h1).2

theorem eq_singleton_of_forall_eq {l : List Nat} {i : Nat} (hne : l ≠ []) (hnd : l.Nodup)
    (hall : ∀ u ∈ l, u = i) : l = [i] := by
  cases l with
  | nil => exact absurd rfl hne
  | cons a t =>
    have ha : a = i := hall a (List.mem_cons_self _ _)
    subst ha
    cases t with
    | nil => rfl
    | cons b t =>
      have hb : b = a := hall b (List.mem_cons_of_mem _ (List.mem_cons_self _ _))
      subst hb
      simp at hnd

theorem Extracted.nodup_ids {rs : List Nat} {es : List (Nat × Nat)} {cs0 : List Component}
    {s : CCState} {fin : List Component} (h : Extracted rs es cs0 s fin) {c : Component}
    (hc : c ∈ fin) : c.node_ids.Nodup := by
  have := h.nodup
  unfold allIds at this
  exact (List.nodup_flatten.1 this).1 c.node_ids (List.mem_map.2 ⟨c, hc, rfl⟩)

/-! ## Order of the extraction -/

/-- The loop of `dfs` appends what the reference loop appends, when the neighbours tried
lie in no earlier component. -/
theorem dfsLoop_preorder {vs0 : List Node} {m : Nat} {fin : List Component}
    {rec : Nat → DfsState → Option DfsState} {rec1 : Nat → List Nat → List Nat} {fuel : Nat}
    (hrec : ∀ v s, Inv vs0 m s.vs s.remaining s.cmap (fin ++ [s.component]) →
      v < vs0.length → (deref s.vs v).visited = false → s.remaining.length ≤ fuel →
      DfsPost vs0 m fin [v] s (rec v s))
    (hpre : ∀ v s, Inv vs0 m s.vs s.remaining s.cmap (fin ++ [s.component]) →
      v < vs0.length → (deref s.vs v).visited = false → s.remaining.length ≤ fuel →
      ∀ s1, rec v s = some s1 → s1.component.node_ids = rec1 v s.component.node_ids) :
    ∀ (us : List Nat) (s : DfsState),
      Inv vs0 m s.vs s.remaining s.cmap (fin ++ [s.component]) →
      (∀ u ∈ us, u < vs0.length ∧ u ∉ allIds fin) → s.remaining.length ≤ fuel →
      ∀ s1, dfsLoop rec us s = some s1 →
        s1.component.node_ids = preorderLoop rec1 us s.component.node_ids := by
  intro us
  induction us with
  | nil =>
    intro s _ _ _ s1 h1
    simp only [dfsLoop, Option.some.injEq] at h1
    subst h1
    rfl
  | cons u us ih =>
    intro s h hus hfuel s1 h1
    have hus1 : ∀ w ∈ us, w < vs0.length ∧ w ∉ allIds fin :=
      fun w hw => hus w (List.mem_cons_of_mem _ hw)
    obtain ⟨hu, hufin⟩ := hus u (List.mem_cons_self _ _)
    have htest : (deref s.vs u).visited = true ↔ u ∈ s.component.node_ids := by
      rw [← h.mem_ids, allIds_append_singleton, List.mem_append]
      constructor
      · rintro (h2 | h2)
        · exact absurd h2 hufin
        · exact h2
      · exact Or.inr
    by_cases hvu : (deref s.vs u).visited = true
    · have hmem := htest.1 hvu
      simp only [dfsLoop, hvu, if_true] at h1
      simp only [preorderLoop, hmem, if_true]
      exact ih s h hus1 hfuel s1 h1
    · have hvu1 : (deref s.vs u).visited = false := by simpa using hvu
      have hmem : u ∉ s.component.node_ids := fun hm => hvu (htest.2 hm)
      obtain ⟨s2, new, hr2, hinv2, _, hrem2, _⟩ := hrec u s h hu hvu1 hfuel
      have hp2 := hpre u s h hu hvu1 hfuel s2 hr2
      simp only [dfsLoop, hvu1, hr2, Option.bind_some] at h1
      simp only [preorderLoop, hmem, if_false]
      rw [← hp2]
      exact ih s2 hinv2 hus1 (le_trans hrem2 hfuel) s1 (by simpa using h1)

/-- The recursive `dfs` appends the reference traversal of the same depth, when no
neighbour of a node outside the earlier components lies in one of them. -/
theorem dfs_preorder {vs0 : List Node} {m : Nat} {fin : List Component} (hst : Static vs0)
    (hfree : ∀ u w, u ∉ allIds fin → w ∈ (deref vs0 u).neighbours → w ∉ allIds fin) :
    ∀ (fuel v : Nat) (s : DfsState),
      Inv vs0 m s.vs s.remaining s.cmap (fin ++ [s.component]) →
      v < vs0.length → (deref s.vs v).visited = false → s.remaining.length ≤ fuel →
      ∀ s1, dfs (m + fin.length) fuel v s = some s1 →
        s1.component.node_ids =
          preorderVisit (fun u => (deref vs0 u).neighbours) fuel v s.component.node_ids := by
  intro fuel
  induction fuel with
  | zero => intro v s _ _ _ _ s1 h1; simp [dfs] at h1
  | succ fuel ih =>
    intro v s h hv hun hfuel s1 h1
    have hmem : v ∈ s.remaining := (mem_remaining h v).2 ⟨hv, hun⟩
    have hpos : 0 < s.remaining.length := List.length_pos_of_mem hmem
    have hinv1 := inv_visit hst h hv hun
    have hid : (deref s.vs v).id = v := by rw [shape_id h.shape]; exact hst.id_eq v hv
    have hrem1 : (visit (m + fin.length) v s).remaining.length = s.remaining.length - 1 :=
      List.length_erase_of_mem hmem
    have hids1 : (visit (m + fin.length) v s).component.node_ids =
        s.component.node_ids ++ [v] := by simp [visit, hid]
    have hvfin : v ∉ allIds fin := by
      intro hm
      have : v ∈ allIds (fin ++ [s.component]) := by
        rw [allIds_append_singleton]; exact List.mem_append_left _ hm
      rw [h.mem_ids, hun] at this
      exact Bool.noConfusion this
    have hnb : ∀ u ∈ (deref s.vs v).neighbours, u < vs0.length ∧ u ∉ allIds fin := by
      intro u hu
      rw [shape_neighbours h.shape] at hu
      exact ⟨hst.nbr_lt v u hu, hfree v u hvfin hu⟩
    simp only [dfs] at h1
    have := dfsLoop_preorder (fun v s a b c d => (dfs_spec hst fuel v s a b c d).1) ih
      (deref s.vs v).neighbours (visit (m + fin.length) v s) hinv1 hnb (by omega) s1 h1
    rw [this, hids1, shape_neighbours h.shape]
    rfl

theorem head_le_of_filter_range {p : Nat → Bool} {n v : Nat} {rest : List Nat}
    (h : v :: rest = (List.range n).filter p) {u : Nat} (hu : u < n) (hp : p u = true) :
    v ≤ u := by
  have hsorted : (v :: rest).Pairwise (· < ·) := by
    rw [h]; exact List.Pairwise.filter _ (List.pairwise_lt_range n)
  have hmem : u ∈ v :: rest := by
    rw [h]; exact List.mem_filter.2 ⟨List.mem_range.2 hu, hp⟩
  rcases List.mem_cons.1 hmem with rfl | hm
  · exact le_refl _
  · exact le_of_lt (List.rel_of_pairwise_cons hsorted hm)

/-- The extraction loop keeps the order facts. -/
theorem extractLoop_ordered {vs0 : List Node} {cs0 : List Component} (hst : Static vs0)
    (hsym : ∀ u w, NbrRel vs0 u w → NbrRel vs0 w u) (depth : Nat) :
    ∀ (fuel : Nat) (s : CCState) (fin : List Component),
      s.components = cs0 ++ fin →
      Inv vs0 cs0.length s.vs s.remaining s.cmap fin → TopInv vs0 fin →
      Ordered (fun u => (deref vs0 u).neighbours) depth fin →
      s.remaining.length < fuel → s.remaining.length ≤ depth →
      ∀ s1 fin1, extractLoop depth fuel s = some s1 → s1.components = cs0 ++ fin1 →
        Ordered (fun u => (deref vs0 u).neighbours) depth fin1 := by
  intro fuel
  induction fuel with
  | zero => intro s fin _ _ _ _ h _; exact absurd h (Nat.not_lt_zero _)
  | succ fuel ih =>
    intro s fin hcs hinv htop hord hfuel hdepth s1 fin1 hs1 hcs1
    obtain ⟨vs, rem, cmap, comps⟩ := s
    simp only at hcs hinv hfuel hdepth
    cases rem with
    | nil =>
      simp only [extractLoop, Option.some.injEq] at hs1
      subst hs1
      simp only at hcs1
      rw [hcs] at hcs1
      have := List.append_cancel_left hcs1
      subst this
      exact hord
    | cons v rest =>
      have hvmem : v ∈ v :: rest := List.mem_cons_self _ _
      obtain ⟨hv, hun⟩ := (mem_remaining hinv v).1 hvmem
      have hp : comps.length = cs0.length + fin.length := by rw [hcs]; simp
      have hinv0 := inv_new_component hinv
      obtain ⟨⟨d, new, hd, hinvd, hids, _, hreach, hclosed, _⟩, hlt⟩ :=
        @dfs_spec vs0 cs0.length fin hst depth v
          ⟨vs, v :: rest, cmap, Component.empty⟩ hinv0 hv hun hdepth
      obtain ⟨hlt1, tl, htl⟩ := hlt d hd
      simp only [Component.empty, List.nil_append] at hids htl
      have hlt2 : d.remaining.length < rest.length + 1 := hlt1
      have hfuel1 : rest.length + 1 < fuel + 1 := hfuel
      have hdepth1 : rest.length + 1 ≤ depth := hdepth
      have hnodup := hinvd.nodup
      rw [allIds_append_singleton] at hnodup
      have hfree : ∀ u w, u ∉ allIds fin → w ∈ (deref vs0 u).neighbours → w ∉ allIds fin := by
        intro u w hu hw hwfin
        obtain ⟨c1, hc1, hwc1⟩ := mem_allIds.1 hwfin
        exact hu (mem_allIds.2 ⟨c1, hc1, htop.closed c1 hc1 w hwc1 u (hsym u w hw)⟩)
      have hpre := dfs_preorder hst hfree depth v
        ⟨vs, v :: rest, cmap, Component.empty⟩ hinv0 hv hun hdepth d hd
      simp only [Component.empty] at hpre
      have htop1 : TopInv vs0 (fin ++ [d.component]) := by
        refine ⟨?_, ?_, ?_⟩
        · intro c hc
          rcases List.mem_append.1 hc with hc | hc
          · exact htop.ne c hc
          · rw [List.mem_singleton] at hc; subst hc; rw [htl]; simp
        · intro c hc u hu w hw
          rcases List.mem_append.1 hc with hc | hc
          · exact htop.conn c hc u hu w hw
          · rw [List.mem_singleton] at hc; subst hc
            rw [hids] at hu hw
            obtain ⟨r1, hr1, p1⟩ := hreach u hu
            obtain ⟨r2, hr2, p2⟩ := hreach w hw
            rw [List.mem_singleton] at hr1 hr2
            subst hr1; subst hr2
            exact (Relation.ReflTransGen.symmetric hsym p1).trans p2
        · intro c hc u hu w huw
          rcases List.mem_append.1 hc with hc | hc
          · exact htop.closed c hc u hu w huw
          · rw [List.mem_singleton] at hc; subst hc
            have hwv : (deref d.vs w).visited = true := by
              rw [hids] at hu
              exact hclosed u hu w huw
            have hw := (hinvd.mem_ids w).2 hwv
            rw [allIds_append_singleton] at hw
            rcases List.mem_append.1 hw with hw | hw
            · exfalso
              obtain ⟨c1, hc1, hwc1⟩ := mem_allIds.1 hw
              have hu1 := htop.closed c1 hc1 w hwc1 u (hsym u w huw)
              exact (List.nodup_append.1 hnodup).2.2 (mem_allIds.2 ⟨c1, hc1, hu1⟩) hu
            · exact hw
      have hord1 : Ordered (fun u => (deref vs0 u).neighbours) depth (fin ++ [d.component]) := by
        refine ⟨?_, ?_⟩
        · intro j c hj
          rcases (getElem?_append_singleton _ _ _ _).1 hj with hj1 | ⟨hj1, hc⟩
          · obtain ⟨r, t, hrt, hlow⟩ := hord.roots j c hj1
            refine ⟨r, t, hrt, ?_⟩
            have hjlt : j < fin.length := by
              by_contra hge
              rw [List.getElem?_eq_none (Nat.le_of_not_lt hge)] at hj1
              exact Option.noConfusion hj1
            rw [List.take_append_of_le_length (le_of_lt hjlt)]
            exact hlow
          · subst hc; subst hj1
            refine ⟨v, tl, htl, ?_⟩
            intro u hu
            rw [List.take_left]
            rw [hinv.mem_ids]
            by_contra hnv
            have hnv1 : (deref vs u).visited = false := by simpa using hnv
            have hle := head_le_of_filter_range hinv.rem_eq (lt_trans hu hv)
              (by simp [hnv1])
            omega
        · intro c hc r t hrt
          rcases List.mem_append.1 hc with hc | hc
          · exact hord.pre c hc r t hrt
          · rw [List.mem_singleton] at hc; subst hc
            have hr : r = v := by
              rw [htl] at hrt
              exact (List.cons.inj hrt).1.symm
            subst hr
            exact hpre
      exact ih ⟨d.vs, d.remaining, d.cmap, comps ++ [d.component]⟩ (fin ++ [d.component])
        (by simp [hcs]) hinvd htop1 hord1 (show d.remaining.length < fuel by omega)
        (show d.remaining.length ≤ depth by omega) s1 fin1
        (by
          simp only [extractLoop] at hs1
          rw [hp, hd] at hs1
          exact hs1)
        hcs1

/-- The node array the extraction starts from meets what the extraction needs. -/
theorem start_facts {rs : List Nat} {es : List (Nat × Nat)}
    (hv : ValidEdges (numNodes rs) es) {vs0 : List Node}
    (hb : buildAdjacency (initNodes rs) es = some vs0) (cs0 : List Component) :
    vs0.length = numNodes rs ∧ (∀ u, (deref vs0 u).neighbours = neighboursOf es u) ∧
      Static vs0 ∧ (∀ u w, NbrRel vs0 u w → NbrRel vs0 w u) ∧
      Inv vs0 cs0.length vs0 (initRemaining rs) CMap.emptyMap [] := by
  obtain ⟨vs1, hb1, hlen, hin, hout⟩ := adjacency_nodes hv
  rw [hb] at hb1
  have := Option.some.inj hb1
  subst this
  have hnb : ∀ u, (deref vs0 u).neighbours = neighboursOf es u := by
    intro u
    by_cases hu : u < numNodes rs
    · rw [hin u hu]
    · rw [hout u (Nat.le_of_not_lt hu), neighboursOf_eq_nil hv (Nat.le_of_not_lt hu)]; rfl
  have hvis : ∀ u, (deref vs0 u).visited = false := by
    intro u
    by_cases hu : u < numNodes rs
    · rw [hin u hu]
    · rw [hout u (Nat.le_of_not_lt hu)]; rfl
  have hrel : ∀ u w, NbrRel vs0 u w ↔ EdgeAdj es u w := by
    intro u w; simp only [NbrRel, hnb]; exact mem_neighboursOf
  have hst : Static vs0 := by
    refine ⟨?_, ?_⟩
    · intro u hu; rw [hlen] at hu; rw [hin u hu]
    · intro u w hw
      rw [hnb] at hw
      rw [hlen]
      rcases mem_neighboursOf.1 hw with h1 | h1
      · exact (hv _ h1).2
      · exact (hv _ h1).1
  have hsym : ∀ u w, NbrRel vs0 u w → NbrRel vs0 w u := by
    intro u w h; rw [hrel] at h ⊢; exact edgeAdj_symm h
  have hshape : vs0.map clearVisited = vs0 := by
    apply List.ext_getElem?
    intro i
    rw [List.getElem?_map]
    by_cases hi : i < vs0.length
    · have hd : deref vs0 i = vs0[i] := deref_eq_of_getElem? (List.getElem?_eq_getElem hi)
      have := hvis i
      rw [hd] at this
      rw [List.getElem?_eq_getElem hi]
      simp only [Option.map_some', clearVisited, Option.some.injEq]
      rw [← this]
    · rw [List.getElem?_eq_none (Nat.le_of_not_lt hi)]; rfl
  refine ⟨hlen, hnb, hst, hsym, hshape, ?_, by simp [allIds], ?_, ?_, ?_, ?_⟩
  · rw [hlen, initRemaining]
    symm
    rw [List.filter_eq_self]
    intro u _; simp [hvis u]
  · intro u; simp [allIds, hvis u]
  · intro j c k u hj; simp at hj
  · intro u _; rfl
  · intro c hc; simp at hc

/-- The components of the extraction of a call on in-range edges, in output order: each
starts with the smallest id not in an earlier one and is the depth-first preorder from it
in the graph of the edge list. -/
theorem extraction_ordered (rs : List Nat) (es : List (Nat × Nat)) (cs0 : List Component)
    (hv : ValidEdges (numNodes rs) es) (vs0 : List Node) (s : CCState)
    (fin : List Component) (hb : buildAdjacency (initNodes rs) es = some vs0)
    (hs : extractLoop (numNodes rs) (numNodes rs + 1)
      ⟨vs0, initRemaining rs, CMap.emptyMap, cs0⟩ = some s)
    (hcs : s.components = cs0 ++ fin) :
    Ordered (neighboursOf es) (numNodes rs) fin := by
  obtain ⟨_, hnb, hst, hsym, hinv0⟩ := start_facts hv hb cs0
  have hadj : (fun u => (deref vs0 u).neighbours) = neighboursOf es := funext hnb
  rw [← hadj]
  exact @extractLoop_ordered vs0 cs0 hst hsym (numNodes rs) (numNodes rs + 1)
    ⟨vs0, initRemaining rs, CMap.emptyMap, cs0⟩ [] (by simp) hinv0
    ⟨by simp, by simp, by simp⟩ ⟨by intro j c hj; simp at hj, by simp⟩
    (by simp [initRemaining]) (by simp [initRemaining]) s fin hs hcs

theorem allIds_append (a b : List Component) : allIds (a ++ b) = allIds a ++ allIds b := by
  simp [allIds]

/-- An id of component `j` is in none of the components before it. -/
theorem not_mem_allIds_take {cs : List Component} (hnd : (allIds cs).Nodup) {j : Nat}
    {C : Component} (hj : cs[j]? = some C) {u : Nat} (hu : u ∈ C.node_ids) :
    u ∉ allIds (cs.take j) := by
  obtain ⟨hlt, hC⟩ := List.getElem?_eq_some.1 hj
  have hsplit : cs = cs.take j ++ (C :: cs.drop (j + 1)) := by
    rw [← hC, ← List.drop_eq_getElem_cons hlt, List.take_append_drop]
  rw [hsplit, allIds_append] at hnd
  intro hmem
  exact (List.nodup_append.1 hnd).2.2 hmem
    (mem_allIds.2 ⟨C, List.mem_cons_self _ _, hu⟩)

/-- An id of component `i` is in the components before `j` when `i < j`. -/
theorem mem_allIds_take {cs : List Component} {i j : Nat} {C : Component}
    (hi : cs[i]? = some C) (hij : i < j) {u : Nat} (hu : u ∈ C.node_ids) :
    u ∈ allIds (cs.take j) := by
  refine mem_allIds.2 ⟨C, List.mem_iff_getElem?.2 ⟨i, ?_⟩, hu⟩
  rw [List.getElem?_take_of_lt hij]
  exact hi

theorem allIds_take_mono {cs : List Component} {i j : Nat} (hij : i ≤ j) {u : Nat}
    (hu : u ∈ allIds (cs.take i)) : u ∈ allIds (cs.take j) := by
  obtain ⟨c, hc, huc⟩ := mem_allIds.1 hu
  obtain ⟨k, hk⟩ := List.mem_iff_getElem?.1 hc
  rw [List.getElem?_take] at hk
  by_cases hki : k < i
  · rw [if_pos hki] at hk
    exact mem_allIds_take hk (lt_of_lt_of_le hki hij) huc
  · rw [if_neg hki] at hk
    exact Option.noConfusion hk

theorem allIds_take_map_finish (es : List (Nat × Nat)) (xs ys : List SimpleConstraint)
    (fin : List Component) (j : Nat) :
    allIds ((fin.map (finish es xs ys)).take j) = allIds (fin.take j) := by
  rw [← List.map_take, allIds_map_finish]

theorem getElem?_map_finish {es : List (Nat × Nat)} {xs ys : List SimpleConstraint}
    {fin : List Component} {j : Nat} {C : Component} :
    (fin.map (finish es xs ys))[j]? = some C ↔
      ∃ c, fin[j]? = some c ∧ finish es xs ys c = C := by
  rw [List.getElem?_map]
  cases fin[j]? <;> simp

/-- The root of component `j` of the result: it is the first entry, it lies in no earlier
component, every smaller id lies in an earlier component, and it is the smallest id of its
component. -/
theorem root_facts {rs : List Nat} {es : List (Nat × Nat)} {cs0 : List Component}
    {s : CCState} {fin : List Component} (hex : Extracted rs es cs0 s fin)
    {adj : Nat → List Nat} {depth : Nat} (hord : Ordered adj depth fin)
    {j : Nat} {c : Component} (hj : fin[j]? = some c) :
    ∃ r tl, c.node_ids = r :: tl ∧ r ∉ allIds (fin.take j) ∧
      (∀ u, u < r → u ∈ allIds (fin.take j)) ∧ ∀ u ∈ c.node_ids, r ≤ u := by
  obtain ⟨r, tl, hrt, hlow⟩ := hord.roots j c hj
  have hr : r ∈ c.node_ids := by rw [hrt]; exact List.mem_cons_self _ _
  refine ⟨r, tl, hrt, not_mem_allIds_take hex.nodup hj hr, hlow, ?_⟩
  intro u hu
  by_contra hlt
  exact not_mem_allIds_take hex.nodup hj hu (hlow u (Nat.lt_of_not_le hlt))

/-! ## The union-find count -/

theorem connected_mono {es es1 : List (Nat × Nat)} (h : ∀ e ∈ es, e ∈ es1) {x y : Nat}
    (hp : Connected es x y) : Connected es1 x y :=
  Relation.ReflTransGen.mono
    (fun _ _ hab => hab.elim (fun h1 => Or.inl (h _ h1)) (fun h1 => Or.inr (h _ h1))) hp

/-- Paths after one more edge `(u, v)`: the old paths, and those that cross the new edge
once in one direction or the other. -/
theorem connected_snoc (pre : List (Nat × Nat)) (u v x y : Nat) :
    Connected (pre ++ [(u, v)]) x y ↔
      Connected pre x y ∨ (Connected pre x u ∧ Connected pre v y) ∨
        (Connected pre x v ∧ Connected pre u y) := by
  have hsub : ∀ e ∈ pre, e ∈ pre ++ [(u, v)] := fun e he => List.mem_append_left _ he
  have hnew : Connected (pre ++ [(u, v)]) u v :=
    Relation.ReflTransGen.single (Or.inl (by simp))
  constructor
  · intro h
    induction h with
    | refl => exact Or.inl Relation.ReflTransGen.refl
    | @tail b c _ hbc ih =>
      have hold : EdgeAdj pre b c ∨ (b = u ∧ c = v) ∨ (b = v ∧ c = u) := by
        rcases hbc with h1 | h1
        · rcases List.mem_append.1 h1 with h2 | h2
          · exact Or.inl (Or.inl h2)
          · simp at h2; exact Or.inr (Or.inl h2)
        · rcases List.mem_append.1 h1 with h2 | h2
          · exact Or.inl (Or.inr h2)
          · simp at h2; exact Or.inr (Or.inr ⟨h2.2, h2.1⟩)
      rcases hold with hadj | ⟨rfl, rfl⟩ | ⟨rfl, rfl⟩
      · rcases ih with h1 | ⟨h1, h2⟩ | ⟨h1, h2⟩
        · exact Or.inl (h1.tail hadj)
        · exact Or.inr (Or.inl ⟨h1, h2.tail hadj⟩)
        · exact Or.inr (Or.inr ⟨h1, h2.tail hadj⟩)
      · rcases ih with h1 | ⟨h1, _⟩ | ⟨h1, _⟩
        · exact Or.inr (Or.inl ⟨h1, Relation.ReflTransGen.refl⟩)
        · exact Or.inr (Or.inl ⟨h1, Relation.ReflTransGen.refl⟩)
        · exact Or.inl h1
      · rcases ih with h1 | ⟨h1, _⟩ | ⟨h1, _⟩
        · exact Or.inr (Or.inr ⟨h1, Relation.ReflTransGen.refl⟩)
        · exact Or.inl h1
        · exact Or.inr (Or.inr ⟨h1, Relation.ReflTransGen.refl⟩)
  · rintro (h | ⟨h1, h2⟩ | ⟨h1, h2⟩)
    · exact connected_mono hsub h
    · exact ((connected_mono hsub h1).trans hnew).trans (connected_mono hsub h2)
    · exact ((connected_mono hsub h1).trans (connected_symm hnew)).trans
        (connected_mono hsub h2)

theorem connected_nil {x y : Nat} : Connected [] x y ↔ x = y := by
  constructor
  · intro h
    induction h with
    | refl => rfl
    | tail _ hbc _ => rcases hbc with h1 | h1 <;> simp at h1
  · rintro rfl; exact Relation.ReflTransGen.refl

theorem relabel_eq (a b p q : Nat) :
    ((if a = q then p else a) = (if b = q then p else b)) ↔
      (a = b ∨ (a = p ∧ q = b) ∨ (a = q ∧ p = b)) := by
  split_ifs <;> omega

theorem same_label_eq (a b p q : Nat) (hpq : p = q) :
    a = b ↔ (a = b ∨ (a = p ∧ q = b) ∨ (a = q ∧ p = b)) := by
  omega

/-- One union step keeps the labelling in step with the paths of the edges processed. -/
theorem ufStep_kernel (pre : List (Nat × Nat)) (st : (Nat → Nat) × Nat) (e : Nat × Nat)
    (h : ∀ x y, st.1 x = st.1 y ↔ Connected pre x y) :
    ∀ x y, (ufStep st e).1 x = (ufStep st e).1 y ↔ Connected (pre ++ [e]) x y := by
  intro x y
  obtain ⟨u, v⟩ := e
  rw [connected_snoc, ← h x y, ← h x u, ← h v y, ← h x v, ← h u y]
  unfold ufStep
  by_cases huv : st.1 u = st.1 v
  · simp only [huv, if_true]
    exact same_label_eq _ _ _ _ rfl
  · simp only [huv, if_false]
    exact relabel_eq _ _ _ _

/-- The labelling of the reference union-find identifies exactly the ids joined by a path
of edges. -/
theorem ufRun_kernel (es : List (Nat × Nat)) :
    ∀ x y, (ufRun es).1 x = (ufRun es).1 y ↔ Connected es x y := by
  have gen : ∀ (es pre : List (Nat × Nat)) (st : (Nat → Nat) × Nat),
      (∀ x y, st.1 x = st.1 y ↔ Connected pre x y) →
      ∀ x y, (es.foldl ufStep st).1 x = (es.foldl ufStep st).1 y ↔
        Connected (pre ++ es) x y := by
    intro es
    induction es with
    | nil => intro pre st h x y; simpa using h x y
    | cons e es ih =>
      intro pre st h x y
      have := ih (pre ++ [e]) (ufStep st e) (ufStep_kernel pre st e h) x y
      simpa using this
  intro x y
  have := gen es [] (id, 0) (fun x y => by rw [connected_nil]; rfl) x y
  simpa [ufRun] using this

theorem labelCount_eq_card (n : Nat) (label : Nat → Nat) :
    labelCount n label = ((Finset.range n).image label).card := by
  unfold labelCount
  rw [← List.card_toFinset]
  congr 1

/-- One union step on an in-range edge keeps the sum of the number of distinct labels and
the number of merges. -/
theorem ufStep_count (n : Nat) (st : (Nat → Nat) × Nat) (e : Nat × Nat)
    (he : e.1 < n ∧ e.2 < n) :
    labelCount n (ufStep st e).1 + (ufStep st e).2 = labelCount n st.1 + st.2 := by
  obtain ⟨u, v⟩ := e
  simp only at he
  unfold ufStep
  by_cases huv : st.1 u = st.1 v
  · simp only [huv, if_true]
  · simp only [huv, if_false]
    rw [labelCount_eq_card, labelCount_eq_card]
    have himg : (Finset.range n).image
        (fun x => if st.1 x = st.1 v then st.1 u else st.1 x) =
        ((Finset.range n).image st.1).erase (st.1 v) := by
      ext a
      simp only [Finset.mem_image, Finset.mem_range, Finset.mem_erase]
      constructor
      · rintro ⟨x, hx, rfl⟩
        by_cases hxv : st.1 x = st.1 v
        · simp only [hxv, if_true]
          exact ⟨huv, u, he.1, rfl⟩
        · simp only [hxv, if_false]
          exact ⟨hxv, x, hx, rfl⟩
      · rintro ⟨hne, x, hx, rfl⟩
        exact ⟨x, hx, by simp [hne]⟩
    have hmem : st.1 v ∈ (Finset.range n).image st.1 :=
      Finset.mem_image.2 ⟨v, Finset.mem_range.2 he.2, rfl⟩
    rw [himg, Finset.card_erase_of_mem hmem]
    have hpos : 0 < ((Finset.range n).image st.1).card := Finset.card_pos.2 ⟨_, hmem⟩
    omega

/-- After the reference union-find run on in-range edges, the number of distinct labels
below `n` is `n` minus the number of merges. -/
theorem ufRun_count (n : Nat) (es : List (Nat × Nat)) (hv : ValidEdges n es) :
    labelCount n (ufRun es).1 + (ufRun es).2 = n := by
  have gen : ∀ (es : List (Nat × Nat)) (st : (Nat → Nat) × Nat), ValidEdges n es →
      labelCount n (es.foldl ufStep st).1 + (es.foldl ufStep st).2 =
        labelCount n st.1 + st.2 := by
    intro es
    induction es with
    | nil => intro st _; rfl
    | cons e es ih =>
      intro st hes
      rw [List.foldl_cons, ih (ufStep st e) (fun x hx => hes x (List.mem_cons_of_mem _ hx)),
        ufStep_count n st e (hes e (List.mem_cons_self _ _))]
  have h0 : labelCount n id = n := by
    unfold labelCount
    rw [List.map_id, List.Nodup.dedup (List.nodup_range n), List.length_range]
  have := gen es (id, 0) hv
  simp only [h0, Nat.add_zero] at this
  exact this

/-- A labelling that identifies exactly the ids joined by a path of edges has as many
distinct labels below `N` as the extraction has components. -/
theorem labelCount_eq_length {rs : List Nat} {es : List (Nat × Nat)} {cs0 : List Component}
    {s : CCState} {fin : List Component} (hex : Extracted rs es cs0 s fin)
    (label : Nat → Nat) (hk : ∀ x y, label x = label y ↔ Connected es x y) :
    labelCount (numNodes rs) label = fin.length := by
  have hhead : ∀ c ∈ fin, c.node_ids.headD 0 ∈ c.node_ids := by
    intro c hc
    cases hids : c.node_ids with
    | nil => exact absurd hids (hex.ne c hc)
    | cons r tl => simp
  have hnd : (fin.map (fun c => label (c.node_ids.headD 0))).Nodup := by
    have hpw : fin.Pairwise (fun c d => List.Disjoint c.node_ids d.node_ids) := by
      have := (List.nodup_flatten.1 hex.nodup).2
      rwa [List.pairwise_map] at this
    rw [List.Nodup, List.pairwise_map]
    refine List.Pairwise.imp_of_mem ?_ hpw
    intro c d hc hd hdis heq
    have hp := (hk _ _).1 heq
    exact hdis (hex.mem_of_connected hc (hhead c hc) hp) (hhead d hd)
  rw [labelCount_eq_card, ← List.length_map fin (fun c => label (c.node_ids.headD 0)),
    ← List.toFinset_card_of_nodup hnd]
  congr 1
  ext a
  simp only [Finset.mem_image, Finset.mem_range, List.mem_toFinset, List.mem_map]
  constructor
  · rintro ⟨u, hu, rfl⟩
    obtain ⟨c, hc, huc⟩ := mem_allIds.1 ((hex.mem u).2 hu)
    exact ⟨c, hc, (hk _ _).2 (hex.conn c hc _ (hhead c hc) u huc)⟩
  · rintro ⟨c, hc, rfl⟩
    exact ⟨_, (hex.mem _).1 (mem_allIds.2 ⟨c, hc, hhead c hc⟩), rfl⟩

/-- C13 (worked example).  For six rectangles, the two triangles, the X constraint
`(0, 1, 10)` and no Y constraint, the call returns exactly two components: the first with
`node_ids` `[0, 1, 2]`, local edges `[(0, 1), (1, 2), (2, 0)]`, `scx = [(0, 1, 10)]` and
empty `scy`; the second with `node_ids` `[3, 4, 5]`, local edges `[(0, 1), (1, 2), (2, 0)]`
and empty `scx` and `scy`. -/
theorem worked_example :
    connectedComponents sixRects twoTriangles [⟨0, 1, 10⟩] [] [] =
      .returned
        [⟨[0, 1, 2], [10, 11, 12], [(0, 1), (1, 2), (2, 0)], [⟨0, 1, 10⟩], []⟩,
         ⟨[3, 4, 5], [13, 14, 15], [(0, 1), (1, 2), (2, 0)], [], []⟩] := by
  decide

/-- C14 (edge conversion).  On a valid input the local edge list of every returned
component is the input edge list restricted to the edges with both endpoints in that
component, in input order, each pair `(first, second)` replaced by the pair of the local
indices of `first` and `second` (not swapped); and the local edge counts add up to the
number of input edges, duplicates included. -/
theorem edge_conversion (rs : List Nat) (es : List (Nat × Nat))
    (scx scy : List SimpleConstraint) (hv : ValidEdges (numNodes rs) es)
    (hx : ∀ x ∈ scx, GoodConstraint (numNodes rs) es x)
    (hy : ∀ y ∈ scy, GoodConstraint (numNodes rs) es y) :
    ∃ cs, connectedComponents rs es scx scy [] = .returned cs ∧
      (∀ C ∈ cs, C.edges = localEdges C.node_ids es) ∧
      (cs.map (fun C => C.edges.length)).sum = es.length := by
  obtain ⟨_, s, fin, _, _, hex, hr⟩ := connectedComponents_returned rs es scx scy [] hv hx hy
  refine ⟨fin.map (finish es scx scy), by simpa using hr, ?_, ?_⟩
  · intro C hC
    obtain ⟨c, hc, rfl⟩ := mem_map_finish.1 hC
    rw [hex.finish_eq scx scy hc]
  · rw [List.map_map, ← sum_localEdges hex es
      (fun e he => ⟨(hv e he).1, Relation.ReflTransGen.single (Or.inl he)⟩)]
    congr 1
    apply List.map_congr_left
    intro c hc
    simp only [Function.comp_def]
    rw [hex.finish_eq scx scy hc]

theorem edge_conversion_witness :
    ValidEdges (numNodes sixRects) twoTriangles ∧
    ∃ cs, connectedComponents sixRects twoTriangles [⟨0, 1, 10⟩] [] [] = .returned cs ∧
      (∀ C ∈ cs, C.edges = localEdges C.node_ids twoTriangles) ∧
      (cs.map (fun C => C.edges.length)).sum = twoTriangles.length :=
  ⟨twoTriangles_valid,
   edge_conversion sixRects twoTriangles [⟨0, 1, 10⟩] [] twoTriangles_valid
     twoTriangles_good (nil_good _ _)⟩

/-- C15 (rectangle handles follow the node order).  On a valid input every returned
component `C` has `C.rects` and `C.node_ids` of the same length, and `C.rects[k]` is the
caller's handle `rs[C.node_ids[k]]` for every position `k`. -/
theorem rects_follow_node_ids (rs : List Nat) (es : List (Nat × Nat))
    (scx scy : List SimpleConstraint) (hv : ValidEdges (numNodes rs) es)
    (hx : ∀ x ∈ scx, GoodConstraint (numNodes rs) es x)
    (hy : ∀ y ∈ scy, GoodConstraint (numNodes rs) es y) :
    ∃ cs, connectedComponents rs es scx scy [] = .returned cs ∧
      ∀ C ∈ cs, C.rects.length = C.node_ids.length ∧
        ∀ (k u : Nat), C.node_ids[k]? = some u → C.rects[k]? = rs[u]? := by
  obtain ⟨_, s, fin, _, _, hex, hr⟩ := connectedComponents_returned rs es scx scy [] hv hx hy
  refine ⟨fin.map (finish es scx scy), by simpa using hr, ?_⟩
  intro C hC
  obtain ⟨c, hc, rfl⟩ := mem_map_finish.1 hC
  rw [hex.finish_eq scx scy hc]
  refine ⟨by simp, ?_⟩
  intro k u hk
  have hu : u < numNodes rs :=
    (hex.mem u).1 (mem_allIds.2 ⟨c, hc, List.mem_iff_getElem?.2 ⟨k, hk⟩⟩)
  simp only at hk ⊢
  rw [List.getElem?_map, hk, rect_of_lt hu]
  rfl

theorem rects_follow_node_ids_witness :
    ValidEdges (numNodes sixRects) twoTriangles ∧
    ∃ cs, connectedComponents sixRects twoTriangles [⟨0, 1, 10⟩] [] [] = .returned cs ∧
      ∀ C ∈ cs, C.rects.length = C.node_ids.length ∧
        ∀ (k u : Nat), C.node_ids[k]? = some u → C.rects[k]? = sixRects[u]? :=
  ⟨twoTriangles_valid,
   rects_follow_node_ids sixRects twoTriangles [⟨0, 1, 10⟩] [] twoTriangles_valid
     twoTriangles_good (nil_good _ _)⟩

/-- C16, counterexample.  One rectangle, no edge and the X constraint `(0, 0, 5)` is a
valid input in which node `0` is an endpoint of no edge, yet no returned component has
`node_ids = [0]` together with empty `scx`: the constraint is attached to the singleton
component as `(0, 0, 5)`. -/
theorem isolated_node_keeps_own_constraint :
    GoodConstraint (numNodes [10]) [] ⟨0, 0, 5⟩ ∧
    connectedComponents [10] [] [⟨0, 0, 5⟩] [] [] =
      .returned [⟨[0], [10], [], [⟨0, 0, 5⟩], []⟩] ∧
    ¬ ∃ cs, connectedComponents [10] [] [⟨0, 0, 5⟩] [] [] = .returned cs ∧
      ∃ C ∈ cs, C.node_ids = [0] ∧ C.edges = [] ∧ C.scx = [] ∧ C.scy = [] := by
  have h1 : connectedComponents [10] [] [⟨0, 0, 5⟩] [] [] =
      .returned [⟨[0], [10], [], [⟨0, 0, 5⟩], []⟩] := by decide
  refine ⟨⟨by decide, by decide, Relation.ReflTransGen.refl⟩, h1, ?_⟩
  rintro ⟨cs, hcs, C, hC, _, _, hscx, _⟩
  rw [h1] at hcs
  injection hcs with hcs
  subst hcs
  rw [List.mem_singleton] at hC
  subst hC
  simp at hscx

/-- C16, amended.  On a valid input, for every node `i` below `N` that is an endpoint of
no edge, the result contains a component whose `node_ids` is exactly `[i]`, whose `rects`
is the handle of `i`, whose local edge list is empty, and whose `scx` (`scy`) list holds
one entry `(0, 0, gap)` for each input X (Y) constraint with `left = right = i`, in input
order, and nothing else; so both are empty when no constraint has both ids equal
to `i`. -/
theorem isolated_node (rs : List Nat) (es : List (Nat × Nat))
    (scx scy : List SimpleConstraint) (hv : ValidEdges (numNodes rs) es)
    (hx : ∀ x ∈ scx, GoodConstraint (numNodes rs) es x)
    (hy : ∀ y ∈ scy, GoodConstraint (numNodes rs) es y)
    (i : Nat) (hi : i < numNodes rs) (hiso : ∀ e ∈ es, e.1 ≠ i ∧ e.2 ≠ i) :
    ∃ cs, connectedComponents rs es scx scy [] = .returned cs ∧
      ∃ C ∈ cs, C.node_ids = [i] ∧ C.rects = [rs.getD i 0] ∧ C.edges = [] ∧
        C.scx = (scx.filter (fun x => decide (x.left = i ∧ x.right = i))).map
          (fun x => ⟨0, 0, x.gap⟩) ∧
        C.scy = (scy.filter (fun x => decide (x.left = i ∧ x.right = i))).map
          (fun x => ⟨0, 0, x.gap⟩) := by
  obtain ⟨_, s, fin, _, _, hex, hr⟩ := connectedComponents_returned rs es scx scy [] hv hx hy
  obtain ⟨c, hc, hic⟩ := mem_allIds.1 ((hex.mem i).2 hi)
  have hids : c.node_ids = [i] :=
    eq_singleton_of_forall_eq (hex.ne c hc) (hex.nodup_ids hc)
      (fun u hu => connected_isolated hiso (hex.conn c hc i hic u hu))
  have hlc : ∀ xs : List SimpleConstraint, localConstraints [i] xs =
      (xs.filter (fun x => decide (x.left = i ∧ x.right = i))).map
        (fun x => ⟨0, 0, x.gap⟩) := by
    intro xs
    unfold localConstraints
    have hf : xs.filter (fun x => decide (x.left ∈ [i] ∧ x.right ∈ [i])) =
        xs.filter (fun x => decide (x.left = i ∧ x.right = i)) := by
      apply List.filter_congr
      intro x _
      simp
    rw [hf]
    apply List.map_congr_left
    intro x hxm
    have := (List.mem_filter.1 hxm).2
    simp only [decide_eq_true_eq] at this
    simp [this.1, this.2]
  have hle : localEdges [i] es = [] := by
    unfold localEdges
    rw [List.map_eq_nil_iff, List.filter_eq_nil_iff]
    intro e he
    have := (hiso e he).1
    simp [this]
  refine ⟨fin.map (finish es scx scy), by simpa using hr, finish es scx scy c,
    mem_map_finish.2 ⟨c, hc, rfl⟩, ?_⟩
  rw [hex.finish_eq scx scy hc, hids]
  exact ⟨rfl, rfl, hle, hlc scx, hlc scy⟩

theorem isolated_node_witness :
    ValidEdges (numNodes [10, 11, 12]) [(0, 1)] ∧
    (∀ e ∈ [((0 : Nat), (1 : Nat))], e.1 ≠ 2 ∧ e.2 ≠ 2) ∧
    ∃ cs, connectedComponents [10, 11, 12] [(0, 1)] [⟨2, 2, 7⟩] [] [] = .returned cs ∧
      ∃ C ∈ cs, C.node_ids = [2] ∧ C.rects = [[10, 11, 12].getD 2 0] ∧ C.edges = [] ∧
        C.scx = ([(⟨2, 2, 7⟩ : SimpleConstraint)].filter
          (fun x => decide (x.left = 2 ∧ x.right = 2))).map (fun x => ⟨0, 0, x.gap⟩) ∧
        C.scy = (([] : List SimpleConstraint).filter
          (fun x => decide (x.left = 2 ∧ x.right = 2))).map (fun x => ⟨0, 0, x.gap⟩) :=
  ⟨by unfold ValidEdges; decide, by decide,
   isolated_node [10, 11, 12] [(0, 1)] [⟨2, 2, 7⟩] [] (by unfold ValidEdges; decide)
     (by
       intro x hx
       rw [List.mem_singleton] at hx
       subst hx
       exact ⟨by decide, by decide, Relation.ReflTransGen.refl⟩)
     (nil_good _ _) 2 (by decide) (by decide)⟩

/-- C17 (empty input).  With `N = 0`, no edge and no constraint, the call reports no error
and adds no component: it returns the output vector as it was at the call, so an empty
vector stays empty. -/
theorem empty_input (rs : List Nat) (cs0 : List Component) (h : numNodes rs = 0) :
    connectedComponents rs [] [] [] cs0 = .returned cs0 := by
  simp [connectedComponents, initNodes, initRemaining, h, buildAdjacency, extractLoop,
    remapLoop]

theorem empty_input_witness :
    numNodes [] = 0 ∧ connectedComponents [] [] [] [] [] = .returned [] :=
  ⟨by decide, empty_input [] [] (by decide)⟩

/-- C19 (root selection).  On a valid input the first entry of the `node_ids` of every
returned component is the smallest id below `N` that is in no earlier component, and it is
the smallest id of its own component. -/
theorem root_selection (rs : List Nat) (es : List (Nat × Nat))
    (scx scy : List SimpleConstraint) (hv : ValidEdges (numNodes rs) es)
    (hx : ∀ x ∈ scx, GoodConstraint (numNodes rs) es x)
    (hy : ∀ y ∈ scy, GoodConstraint (numNodes rs) es y) :
    ∃ cs, connectedComponents rs es scx scy [] = .returned cs ∧
      ∀ (j : Nat) (C : Component), cs[j]? = some C →
        ∃ r tl, C.node_ids = r :: tl ∧ r < numNodes rs ∧ r ∉ allIds (cs.take j) ∧
          (∀ u, u < numNodes rs → u ∉ allIds (cs.take j) → r ≤ u) ∧
          ∀ u ∈ C.node_ids, r ≤ u := by
  obtain ⟨vs0, s, fin, hb, hs, hex, hr⟩ :=
    connectedComponents_returned rs es scx scy [] hv hx hy
  have hord := extraction_ordered rs es [] hv vs0 s fin hb hs hex.comps
  refine ⟨fin.map (finish es scx scy), by simpa using hr, ?_⟩
  intro j C hC
  obtain ⟨c, hc, rfl⟩ := getElem?_map_finish.1 hC
  obtain ⟨r, tl, hrt, hnot, hlow, hmin⟩ := root_facts hex hord hc
  have hrc : r ∈ c.node_ids := by rw [hrt]; exact List.mem_cons_self _ _
  refine ⟨r, tl, hrt, ?_, ?_, ?_, hmin⟩
  · exact (hex.mem r).1 (mem_allIds.2 ⟨c, List.mem_iff_getElem?.2 ⟨j, hc⟩, hrc⟩)
  · rw [allIds_take_map_finish]; exact hnot
  · intro u _ hu
    rw [allIds_take_map_finish] at hu
    by_contra hlt
    exact hu (hlow u (Nat.lt_of_not_le hlt))

theorem root_selection_witness :
    ValidEdges (numNodes sixRects) twoTriangles ∧
    ∃ cs, connectedComponents sixRects twoTriangles [⟨0, 1, 10⟩] [] [] = .returned cs ∧
      ∀ (j : Nat) (C : Component), cs[j]? = some C →
        ∃ r tl, C.node_ids = r :: tl ∧ r < numNodes sixRects ∧ r ∉ allIds (cs.take j) ∧
          (∀ u, u < numNodes sixRects → u ∉ allIds (cs.take j) → r ≤ u) ∧
          ∀ u ∈ C.node_ids, r ≤ u :=
  ⟨twoTriangles_valid,
   root_selection sixRects twoTriangles [⟨0, 1, 10⟩] [] twoTriangles_valid
     twoTriangles_good (nil_good _ _)⟩

/-- C11 (output order).  On a valid input the returned components are in discovery order:
for two consecutive components, the smallest id of the earlier one is strictly less than
the smallest id of the later one. -/
theorem output_order (rs : List Nat) (es : List (Nat × Nat))
    (scx scy : List SimpleConstraint) (hv : ValidEdges (numNodes rs) es)
    (hx : ∀ x ∈ scx, GoodConstraint (numNodes rs) es x)
    (hy : ∀ y ∈ scy, GoodConstraint (numNodes rs) es y) :
    ∃ cs, connectedComponents rs es scx scy [] = .returned cs ∧
      ∀ (i : Nat) (C D : Component), cs[i]? = some C → cs[i + 1]? = some D →
        ∃ a ∈ C.node_ids, ∃ b ∈ D.node_ids,
          (∀ u ∈ C.node_ids, a ≤ u) ∧ (∀ u ∈ D.node_ids, b ≤ u) ∧ a < b := by
  obtain ⟨vs0, s, fin, hb, hs, hex, hr⟩ :=
    connectedComponents_returned rs es scx scy [] hv hx hy
  have hord := extraction_ordered rs es [] hv vs0 s fin hb hs hex.comps
  refine ⟨fin.map (finish es scx scy), by simpa using hr, ?_⟩
  intro i C D hC hD
  obtain ⟨c, hc, rfl⟩ := getElem?_map_finish.1 hC
  obtain ⟨d, hd, rfl⟩ := getElem?_map_finish.1 hD
  obtain ⟨a, ta, hat, _, hlowa, hmina⟩ := root_facts hex hord hc
  obtain ⟨b, tb, hbt, hnotb, _, hminb⟩ := root_facts hex hord hd
  have hac : a ∈ c.node_ids := by rw [hat]; exact List.mem_cons_self _ _
  have hbd : b ∈ d.node_ids := by rw [hbt]; exact List.mem_cons_self _ _
  refine ⟨a, hac, b, hbd, hmina, hminb, ?_⟩
  have hne : a ≠ b := by
    intro e
    subst e
    exact hnotb (mem_allIds_take hc (Nat.lt_succ_self i) hac)
  have hnlt : ¬ b < a := by
    intro hlt
    exact hnotb (allIds_take_mono (Nat.le_succ i) (hlowa b hlt))
  omega

theorem output_order_witness :
    ValidEdges (numNodes sixRects) twoTriangles ∧
    ∃ cs, connectedComponents sixRects twoTriangles [⟨0, 1, 10⟩] [] [] = .returned cs ∧
      ∀ (i : Nat) (C D : Component), cs[i]? = some C → cs[i + 1]? = some D →
        ∃ a ∈ C.node_ids, ∃ b ∈ D.node_ids,
          (∀ u ∈ C.node_ids, a ≤ u) ∧ (∀ u ∈ D.node_ids, b ≤ u) ∧ a < b :=
  ⟨twoTriangles_valid,
   output_order sixRects twoTriangles [⟨0, 1, 10⟩] [] twoTriangles_valid
     twoTriangles_good (nil_good _ _)⟩

/-- C20 (visitation order).  On a valid input the `node_ids` of every returned component
is the depth-first preorder from its first entry, the root, in the graph of the edge list:
the neighbours of a node are tried in the order of its neighbour list and nodes already
visited are skipped. -/
theorem visitation_order (rs : List Nat) (es : List (Nat × Nat))
    (scx scy : List SimpleConstraint) (hv : ValidEdges (numNodes rs) es)
    (hx : ∀ x ∈ scx, GoodConstraint (numNodes rs) es x)
    (hy : ∀ y ∈ scy, GoodConstraint (numNodes rs) es y) :
    ∃ cs, connectedComponents rs es scx scy [] = .returned cs ∧
      ∀ C ∈ cs, ∃ r tl, C.node_ids = r :: tl ∧
        C.node_ids = preorder (neighboursOf es) (numNodes rs) r := by
  obtain ⟨vs0, s, fin, hb, hs, hex, hr⟩ :=
    connectedComponents_returned rs es scx scy [] hv hx hy
  have hord := extraction_ordered rs es [] hv vs0 s fin hb hs hex.comps
  refine ⟨fin.map (finish es scx scy), by simpa using hr, ?_⟩
  intro C hC
  obtain ⟨c, hc, rfl⟩ := mem_map_finish.1 hC
  obtain ⟨j, hj⟩ := List.mem_iff_getElem?.1 hc
  obtain ⟨r, tl, hrt, _⟩ := hord.roots j c hj
  exact ⟨r, tl, hrt, hord.pre c hc r tl hrt⟩

theorem visitation_order_witness :
    ValidEdges (numNodes fourRects) smallTree ∧
    preorder (neighboursOf smallTree) (numNodes fourRects) 0 = [0, 2, 3, 1] ∧
    connectedComponents fourRects smallTree [] [] [] =
      .returned [⟨[0, 2, 3, 1], [10, 12, 13, 11], [(0, 1), (0, 3), (1, 2)], [], []⟩] ∧
    ∃ cs, connectedComponents fourRects smallTree [] [] [] = .returned cs ∧
      ∀ C ∈ cs, ∃ r tl, C.node_ids = r :: tl ∧
        C.node_ids = preorder (neighboursOf smallTree) (numNodes fourRects) r :=
  ⟨by unfold ValidEdges; decide, by decide, by decide,
   visitation_order fourRects smallTree [] [] (by unfold ValidEdges; decide)
     (nil_good _ _) (nil_good _ _)⟩

/-- C12 (component count).  On a valid input the number of returned components is the
union-find component count: `N` minus the number of edges that, processed in list order,
join two sets that were disjoint before.  It is also the number of classes of
edge-reachability on the ids below `N`: the final union-find labelling identifies exactly
the ids joined by a path, and the components are as many as its distinct labels. -/
theorem component_count (rs : List Nat) (es : List (Nat × Nat))
    (scx scy : List SimpleConstraint) (hv : ValidEdges (numNodes rs) es)
    (hx : ∀ x ∈ scx, GoodConstraint (numNodes rs) es x)
    (hy : ∀ y ∈ scy, GoodConstraint (numNodes rs) es y) :
    ∃ cs, connectedComponents rs es scx scy [] = .returned cs ∧
      cs.length = ufCount (numNodes rs) es ∧
      cs.length = labelCount (numNodes rs) (ufRun es).1 ∧
      ∀ u v, (ufRun es).1 u = (ufRun es).1 v ↔ Connected es u v := by
  obtain ⟨_, s, fin, _, _, hex, hr⟩ := connectedComponents_returned rs es scx scy [] hv hx hy
  have hlen := labelCount_eq_length hex (ufRun es).1 (ufRun_kernel es)
  have hcount := ufRun_count (numNodes rs) es hv
  refine ⟨fin.map (finish es scx scy), by simpa using hr, ?_, ?_, ufRun_kernel es⟩
  · rw [List.length_map, ufCount]; omega
  · rw [List.length_map, hlen]

theorem component_count_witness :
    ValidEdges (numNodes sixRects) twoTriangles ∧
    ufCount (numNodes sixRects) twoTriangles = 2 ∧
    ∃ cs, connectedComponents sixRects twoTriangles [⟨0, 1, 10⟩] [] [] = .returned cs ∧
      cs.length = ufCount (numNodes sixRects) twoTriangles ∧
      cs.length = labelCount (numNodes sixRects) (ufRun twoTriangles).1 ∧
      ∀ u v, (ufRun twoTriangles).1 u = (ufRun twoTriangles).1 v ↔
        Connected twoTriangles u v :=
  ⟨twoTriangles_valid, by decide,
   component_count sixRects twoTriangles [⟨0, 1, 10⟩] [] twoTriangles_valid
     twoTriangles_good (nil_good _ _)⟩

/-! ## Adjacency lists, frame and bounds -/

theorem sum_range_indicator (a : Nat) :
    ∀ n, ((List.range n).map (fun u => if a = u then 1 else 0)).sum = if a < n then 1 else 0 := by
  intro n
  induction n with
  | zero => simp
  | succ n ih =>
    rw [List.range_succ, List.map_append, List.sum_append, ih]
    by_cases h1 : a < n
    · have h2 : a ≠ n := by omega
      have h3 : a < n + 1 := by omega
      simp [h1, h2, h3]
    · by_cases h2 : a = n
      · subst h2; simp
      · have h3 : ¬ a < n + 1 := by omega
        simp [h1, h2, h3]

theorem neighboursOf_cons (e : Nat × Nat) (es : List (Nat × Nat)) (u : Nat) :
    neighboursOf (e :: es) u = incident u e ++ neighboursOf es u := by
  simp [neighboursOf, List.flatMap_cons]

theorem neighboursOf_append (es1 es2 : List (Nat × Nat)) (u : Nat) :
    neighboursOf (es1 ++ es2) u = neighboursOf es1 u ++ neighboursOf es2 u := by
  simp [neighboursOf, List.flatMap_append]

theorem length_incident (u : Nat) (e : Nat × Nat) :
    (incident u e).length = (if e.1 = u then 1 else 0) + (if e.2 = u then 1 else 0) := by
  unfold incident
  by_cases h1 : e.1 = u <;> by_cases h2 : e.2 = u <;> simp [h1, h2]

/-- The neighbour lists of the ids below `n` hold two entries for every in-range edge. -/
theorem sum_neighboursOf (n : Nat) (es : List (Nat × Nat)) (hv : ValidEdges n es) :
    ((List.range n).map (fun u => (neighboursOf es u).length)).sum = 2 * es.length := by
  induction es with
  | nil => simp [neighboursOf]
  | cons e es ih =>
    have he := hv e (List.mem_cons_self _ _)
    simp only [neighboursOf_cons, List.length_append, length_incident]
    rw [List.sum_map_add, List.sum_map_add, sum_range_indicator, sum_range_indicator,
      ih (fun x hx => hv x (List.mem_cons_of_mem _ hx)), if_pos he.1, if_pos he.2,
      List.length_cons]
    omega

theorem forall₂_trans_of {R : Component → Component → Prop}
    (htrans : ∀ a b c, R a b → R b c → R a c) :
    ∀ {l1 l2 l3 : List Component}, List.Forall₂ R l1 l2 → List.Forall₂ R l2 l3 →
      List.Forall₂ R l1 l3 := by
  intro l1 l2 l3 h12
  induction h12 generalizing l3 with
  | nil => intro h; cases h; exact List.Forall₂.nil
  | cons hab _ ih =>
    intro h
    cases h with
    | cons hbc htl => exact List.Forall₂.cons (htrans _ _ _ hab hbc) (ih htl)

theorem forall₂_modify {R : Component → Component → Prop} (hrefl : ∀ c, R c c)
    {f : Component → Component} (hf : ∀ c, R c (f c)) :
    ∀ (l : List Component) (p : Nat), List.Forall₂ R l (l.modify f p) := by
  intro l
  induction l with
  | nil => intro p; simp
  | cons a l ih =>
    intro p
    cases p with
    | zero =>
      rw [List.modify_zero_cons]
      exact List.Forall₂.cons (hf a) (List.forall₂_same.2 (fun x _ => hrefl x))
    | succ p =>
      rw [List.modify_succ_cons]
      exact List.Forall₂.cons (hrefl a) (ih p)

/-- A remapping loop relates the output vector before it to the output vector after it, or
at its fault, entry by entry, by any reflexive and transitive relation that each push
respects. -/
theorem remapLoop_frame {ι : Type} {R : Component → Component → Prop}
    (hrefl : ∀ c, R c c) (htrans : ∀ a b c, R a b → R b c → R a c)
    (ends : ι → Nat × Nat) (push : ι → Component → Nat → Nat → Component)
    (hpush : ∀ x c l r, R c (push x c l r)) :
    ∀ (xs : List ι) (st : CMap × List Component),
      (∀ st1, remapLoop ends push xs st = .ok st1 → List.Forall₂ R st.2 st1.2) ∧
      (∀ f, remapLoop ends push xs st = .error f → List.Forall₂ R st.2 f.2) := by
  intro xs
  induction xs with
  | nil =>
    intro st
    refine ⟨?_, ?_⟩
    · intro st1 h
      simp only [remapLoop, Except.ok.injEq] at h
      subst h
      exact List.forall₂_same.2 (fun x _ => hrefl x)
    · intro f h; simp [remapLoop] at h
  | cons x xs ih =>
    intro st
    obtain ⟨cmap, cs⟩ := st
    have hstep : (∀ st1, remapStep (push x) (ends x).1 (ends x).2 (cmap, cs) = .ok st1 →
        List.Forall₂ R cs st1.2) ∧
        (∀ f, remapStep (push x) (ends x).1 (ends x).2 (cmap, cs) = .error f → f.2 = cs) := by
      rw [remapStep_eq]
      by_cases hc : (cmap.value (ends x).1).1 = (cmap.value (ends x).2).1
      · rw [if_pos hc]
        cases hp : (cmap.value (ends x).1).1 with
        | none =>
          refine ⟨?_, ?_⟩
          · intro st1 h; simp at h
          · intro f h
            simp only [Except.error.injEq] at h
            rw [← h]
        | some p =>
          refine ⟨?_, ?_⟩
          · intro st1 h
            simp only [Except.ok.injEq] at h
            rw [← h]
            exact forall₂_modify hrefl (fun c => hpush x c _ _) cs p
          · intro f h; simp at h
      · rw [if_neg hc]
        refine ⟨?_, ?_⟩
        · intro st1 h; simp at h
        · intro f h
          simp only [Except.error.injEq] at h
          rw [← h]
    simp only [remapLoop]
    cases hs : remapStep (push x) (ends x).1 (ends x).2 (cmap, cs) with
    | error f =>
      refine ⟨?_, ?_⟩
      · intro st1 h; simp at h
      · intro g h
        simp only [Except.error.injEq] at h
        subst h
        rw [hstep.2 f hs]
        exact List.forall₂_same.2 (fun x _ => hrefl x)
    | ok st1 =>
      have h1 := hstep.1 st1 hs
      refine ⟨?_, ?_⟩
      · intro st2 h
        exact forall₂_trans_of htrans h1 ((ih st1).1 st2 h)
      · intro g h
        exact forall₂_trans_of htrans h1 ((ih st1).2 g h)

theorem growsScx_refl (c : Component) : GrowsScx c c :=
  ⟨rfl, rfl, rfl, rfl, List.prefix_refl _⟩

theorem growsScx_trans (a b c : Component) (h1 : GrowsScx a b) (h2 : GrowsScx b c) :
    GrowsScx a c :=
  ⟨h2.1.trans h1.1, h2.2.1.trans h1.2.1, h2.2.2.1.trans h1.2.2.1,
   h2.2.2.2.1.trans h1.2.2.2.1, h1.2.2.2.2.trans h2.2.2.2.2⟩

theorem growsScx_push (x : SimpleConstraint) (c : Component) (l r : Nat) :
    GrowsScx c (pushScx x c l r) :=
  ⟨rfl, rfl, rfl, rfl, List.prefix_append _ _⟩

theorem growsScy_refl (c : Component) : GrowsScy c c :=
  ⟨rfl, rfl, rfl, rfl, List.prefix_refl _⟩

theorem growsScy_trans (a b c : Component) (h1 : GrowsScy a b) (h2 : GrowsScy b c) :
    GrowsScy a c :=
  ⟨h2.1.trans h1.1, h2.2.1.trans h1.2.1, h2.2.2.1.trans h1.2.2.1,
   h2.2.2.2.1.trans h1.2.2.2.1, h1.2.2.2.2.trans h2.2.2.2.2⟩

theorem growsScy_push (x : SimpleConstraint) (c : Component) (l r : Nat) :
    GrowsScy c (pushScy x c l r) :=
  ⟨rfl, rfl, rfl, rfl, List.prefix_append _ _⟩

/-- The components of the result of a valid call store only positions of their
`node_ids`. -/
theorem inBounds_finish {rs : List Nat} {es : List (Nat × Nat)} {cs0 : List Component}
    {s : CCState} {fin : List Component} (hex : Extracted rs es cs0 s fin)
    (xs ys : List SimpleConstraint) {c : Component} (hc : c ∈ fin) :
    InBounds (finish es xs ys c) := by
  have hlc : ∀ (zs : List SimpleConstraint), ∀ x ∈ localConstraints c.node_ids zs,
      x.left < c.node_ids.length ∧ x.right < c.node_ids.length := by
    intro zs x hx
    unfold localConstraints at hx
    obtain ⟨z, hz, rfl⟩ := List.mem_map.1 hx
    have := (List.mem_filter.1 hz).2
    simp only [decide_eq_true_eq] at this
    exact ⟨List.indexOf_lt_length.2 this.1, List.indexOf_lt_length.2 this.2⟩
  rw [hex.finish_eq xs ys hc]
  refine ⟨?_, ?_⟩
  · intro e he
    simp only at he
    unfold localEdges at he
    obtain ⟨z, hz, rfl⟩ := List.mem_map.1 he
    have := (List.mem_filter.1 hz).2
    simp only [decide_eq_true_eq] at this
    exact ⟨List.indexOf_lt_length.2 this.1, List.indexOf_lt_length.2 this.2⟩
  · intro x hx
    rcases List.mem_append.1 hx with h | h
    · exact hlc xs x h
    · exact hlc ys x h

/-- A call on in-range edges whose X loop stops: the outcome. -/
theorem run_stops_x (rs : List Nat) (es : List (Nat × Nat))
    (scx scy : List SimpleConstraint) (cs0 : List Component)
    (hv : ValidEdges (numNodes rs) es) {px : List SimpleConstraint} {f : Fault}
    (hst : Stops (numNodes rs) es scx px f) :
    ∃ vs0 s fin, buildAdjacency (initNodes rs) es = some vs0 ∧
      extractLoop (numNodes rs) (numNodes rs + 1)
        ⟨vs0, initRemaining rs, CMap.emptyMap, cs0⟩ = some s ∧
      Extracted rs es cs0 s fin ∧
      connectedComponents rs es scx scy cs0 =
        .failed f (cs0 ++ fin.map (finish es px [])) := by
  obtain ⟨vs0, s, fin, hb, hs, hex⟩ := extraction_spec rs es cs0 hv
  obtain ⟨cmap1, he, hd1⟩ := edges_pass hex hv
  refine ⟨vs0, s, fin, hb, hs, hex, ?_⟩
  simp only [connectedComponents, hb, hs, he, scx_stops hex hd1 hst]

theorem length_le_allIds :
    ∀ fin : List Component, (∀ c ∈ fin, c.node_ids ≠ []) → fin.length ≤ (allIds fin).length := by
  intro fin
  induction fin with
  | nil => intro _; simp
  | cons c fin ih =>
    intro h
    have hc := h c (List.mem_cons_self _ _)
    have hpos : 0 < c.node_ids.length := List.length_pos.2 hc
    have := ih (fun d hd => h d (List.mem_cons_of_mem _ hd))
    have hids : allIds (c :: fin) = c.node_ids ++ allIds fin := by simp [allIds]
    rw [hids, List.length_append, List.length_cons]
    omega

theorem Extracted.length_allIds {rs : List Nat} {es : List (Nat × Nat)}
    {cs0 : List Component} {s : CCState} {fin : List Component}
    (hex : Extracted rs es cs0 s fin) : (allIds fin).length = numNodes rs := by
  have hperm : (allIds fin).Perm (List.range (numNodes rs)) :=
    (List.perm_ext_iff_of_nodup hex.nodup (List.nodup_range _)).2
      (fun u => by rw [hex.mem u, List.mem_range])
  rw [hperm.length_eq, List.length_range]

/-! ## The result in closed form -/

/-- Two extractions by the same rule from the same taken ids yield the same lists. -/
theorem chain_unique {P : Nat → List Nat} {n : Nat} :
    ∀ (L1 L2 : List (List Nat)) (used : List Nat),
      Chain P n used L1 → Chain P n used L2 → L1 = L2 := by
  intro L1
  induction L1 with
  | nil =>
    intro L2 used h1 h2
    cases L2 with
    | nil => rfl
    | cons l rest =>
      obtain ⟨⟨r, hr, hnot, _, _⟩, _⟩ := h2
      exact absurd (h1 r hr) hnot
  | cons l1 rest1 ih =>
    intro L2 used h1 h2
    obtain ⟨⟨r1, hr1, hnot1, hlow1, hl1⟩, hrest1⟩ := h1
    cases L2 with
    | nil => exact absurd (h2 r1 hr1) hnot1
    | cons l2 rest2 =>
      obtain ⟨⟨r2, hr2, hnot2, hlow2, hl2⟩, hrest2⟩ := h2
      have hr : r1 = r2 := by
        by_contra hne
        rcases Nat.lt_or_gt_of_ne hne with h | h
        · exact hnot1 (hlow2 r1 h)
        · exact hnot2 (hlow1 r2 h)
      subst hr
      have hl : l1 = l2 := by rw [hl1, hl2]
      subst hl
      rw [ih rest2 (used ++ l1) hrest1 hrest2]

/-- The id lists of the extraction follow the root-by-root rule with the reference
traversal. -/
theorem chain_of_extracted {rs : List Nat} {es : List (Nat × Nat)} {cs0 : List Component}
    {s : CCState} {fin : List Component} (hex : Extracted rs es cs0 s fin)
    {adj : Nat → List Nat} (hord : Ordered adj (numNodes rs) fin) :
    Chain (preorder adj (numNodes rs)) (numNodes rs) [] (fin.map Component.node_ids) := by
  have gen : ∀ (suf pre : List Component), fin = pre ++ suf →
      Chain (preorder adj (numNodes rs)) (numNodes rs) (allIds pre)
        (suf.map Component.node_ids) := by
    intro suf
    induction suf with
    | nil =>
      intro pre hfin
      rw [List.append_nil] at hfin
      subst hfin
      exact fun u hu => (hex.mem u).2 hu
    | cons c rest ih =>
      intro pre hfin
      have hj : fin[pre.length]? = some c := by
        rw [hfin, List.getElem?_append_right (le_refl _)]; simp
      have hc : c ∈ fin := List.mem_iff_getElem?.2 ⟨_, hj⟩
      obtain ⟨r, tl, hrt, hnot, hlow, _⟩ := root_facts hex hord hj
      have htake : fin.take pre.length = pre := by rw [hfin, List.take_left]
      rw [htake] at hnot hlow
      have hrc : r ∈ c.node_ids := by rw [hrt]; exact List.mem_cons_self _ _
      refine ⟨⟨r, (hex.mem r).1 (mem_allIds.2 ⟨c, hc, hrc⟩), hnot, hlow,
        hord.pre c hc r tl hrt⟩, ?_⟩
      have := ih (pre ++ [c]) (by rw [hfin]; simp)
      rw [allIds_append_singleton] at this
      exact this
  have := gen fin [] (by simp)
  simpa [allIds] using this

/-- The outcome of a valid call in closed form: the output vector as it was, followed by
one component for every id list of the root-by-root rule. -/
theorem returned_closed_form (rs : List Nat) (es : List (Nat × Nat))
    (scx scy : List SimpleConstraint) (cs0 : List Component)
    (hv : ValidEdges (numNodes rs) es)
    (hx : ∀ x ∈ scx, GoodConstraint (numNodes rs) es x)
    (hy : ∀ y ∈ scy, GoodConstraint (numNodes rs) es y) :
    ∃ s fin, Extracted rs es cs0 s fin ∧
      Chain (preorder (neighboursOf es) (numNodes rs)) (numNodes rs) []
        (fin.map Component.node_ids) ∧
      connectedComponents rs es scx scy cs0 =
        .returned (cs0 ++ (fin.map Component.node_ids).map (componentOf rs es scx scy)) := by
  obtain ⟨vs0, s, fin, hb, hs, hex, hr⟩ :=
    connectedComponents_returned rs es scx scy cs0 hv hx hy
  have hord := extraction_ordered rs es cs0 hv vs0 s fin hb hs hex.comps
  refine ⟨s, fin, hex, chain_of_extracted hex hord, ?_⟩
  rw [hr, List.map_map]
  congr 2
  apply List.map_congr_left
  intro c hc
  rw [hex.finish_eq scx scy hc]
  rfl

theorem localEdges_append (ids : List Nat) (a b : List (Nat × Nat)) :
    localEdges ids (a ++ b) = localEdges ids a ++ localEdges ids b := by
  simp [localEdges, List.filter_append]

theorem localEdges_cons (ids : List Nat) (e : Nat × Nat) (b : List (Nat × Nat)) :
    localEdges ids (e :: b) =
      (if e.1 ∈ ids ∧ e.2 ∈ ids then [(ids.indexOf e.1, ids.indexOf e.2)] else []) ++
        localEdges ids b := by
  unfold localEdges
  by_cases h : e.1 ∈ ids ∧ e.2 ∈ ids
  · simp [List.filter_cons, h]
  · simp [List.filter_cons, h]

/-- Edge lists with the same adjacency relation have the same paths. -/
theorem connected_congr {es1 es2 : List (Nat × Nat)}
    (h : ∀ a b, EdgeAdj es1 a b → EdgeAdj es2 a b) {x y : Nat} (hp : Connected es1 x y) :
    Connected es2 x y :=
  Relation.ReflTransGen.mono h hp

/-! ## Comparing two edge lists -/

theorem preorderLoop_append (rec : Nat → List Nat → List Nat) (a b : List Nat) :
    ∀ acc, preorderLoop rec (a ++ b) acc = preorderLoop rec b (preorderLoop rec a acc) := by
  induction a with
  | nil => intro acc; rfl
  | cons u a ih =>
    intro acc
    simp only [List.cons_append, preorderLoop]
    by_cases h : u ∈ acc
    · simp only [h, if_true]; exact ih acc
    · simp only [h, if_false]; exact ih (rec u acc)

theorem preorderLoop_mono {rec : Nat → List Nat → List Nat}
    (hmono : ∀ u acc x, x ∈ acc → x ∈ rec u acc) :
    ∀ (us acc : List Nat) (x : Nat), x ∈ acc → x ∈ preorderLoop rec us acc := by
  intro us
  induction us with
  | nil => intro acc x hx; exact hx
  | cons u us ih =>
    intro acc x hx
    simp only [preorderLoop]
    by_cases h : u ∈ acc
    · simp only [h, if_true]; exact ih acc x hx
    · simp only [h, if_false]; exact ih (rec u acc) x (hmono u acc x hx)

theorem preorderVisit_mono (adj : Nat → List Nat) :
    ∀ (fuel u : Nat) (acc : List Nat) (x : Nat), x ∈ acc → x ∈ preorderVisit adj fuel u acc := by
  intro fuel
  induction fuel with
  | zero => intro u acc x hx; exact hx
  | succ fuel ih =>
    intro u acc x hx
    simp only [preorderVisit]
    exact preorderLoop_mono ih _ _ x (List.mem_append_left _ hx)

/-- The reference traversal of a given depth either never appends (depth zero) or always
ends with its start node in the output. -/
theorem preorderVisit_settles (adj : Nat → List Nat) (fuel : Nat) :
    (∀ u acc, preorderVisit adj fuel u acc = acc) ∨
      (∀ u acc, u ∈ preorderVisit adj fuel u acc) := by
  cases fuel with
  | zero => left; intro u acc; rfl
  | succ fuel =>
    right
    intro u acc
    simp only [preorderVisit]
    exact preorderLoop_mono (preorderVisit_mono adj fuel) _ _ u (by simp)

/-- After the reference loop over `us`, trying again a node of `us` changes nothing. -/
theorem preorderLoop_skip {rec : Nat → List Nat → List Nat}
    (hmono : ∀ u acc x, x ∈ acc → x ∈ rec u acc)
    (hset : (∀ u acc, rec u acc = acc) ∨ (∀ u acc, u ∈ rec u acc)) (us d : List Nat)
    (hd : ∀ w ∈ d, w ∈ us) (acc : List Nat) :
    preorderLoop rec d (preorderLoop rec us acc) = preorderLoop rec us acc := by
  have hskip : ∀ (d acc1 : List Nat), (∀ w ∈ d, w ∈ acc1 ∨ ∀ u a, rec u a = a) →
      preorderLoop rec d acc1 = acc1 := by
    intro d
    induction d with
    | nil => intro acc1 _; rfl
    | cons w d ih =>
      intro acc1 h
      have hrest : ∀ w1 ∈ d, w1 ∈ acc1 ∨ ∀ u a, rec u a = a :=
        fun w1 hw1 => h w1 (List.mem_cons_of_mem _ hw1)
      simp only [preorderLoop]
      by_cases hw : w ∈ acc1
      · simp only [hw, if_true]; exact ih acc1 hrest
      · simp only [hw, if_false]
        rcases h w (List.mem_cons_self _ _) with h1 | h1
        · exact absurd h1 hw
        · rw [h1]; exact ih acc1 hrest
  have hin : ∀ (us acc : List Nat), ∀ w ∈ us,
      w ∈ preorderLoop rec us acc ∨ ∀ u a, rec u a = a := by
    intro us
    induction us with
    | nil => intro acc w hw; simp at hw
    | cons u us ih =>
      intro acc w hw
      rcases hset with h0 | h1
      · exact Or.inr h0
      · left
        simp only [preorderLoop]
        rcases List.mem_cons.1 hw with rfl | hw1
        · by_cases h : w ∈ acc
          · simp only [h, if_true]; exact preorderLoop_mono hmono _ _ w h
          · simp only [h, if_false]; exact preorderLoop_mono hmono _ _ w (h1 w acc)
        · by_cases h : u ∈ acc
          · simp only [h, if_true]
            exact (ih acc w hw1).resolve_right (fun h0 => by
              have := h1 u []
              rw [h0] at this
              simp at this)
          · simp only [h, if_false]
            exact (ih (rec u acc) w hw1).resolve_right (fun h0 => by
              have := h1 u []
              rw [h0] at this
              simp at this)
  exact hskip d _ (fun w hw => hin us acc w (hd w hw))

/-- Repeating, later in the neighbour lists, entries that are already there does not
change the reference traversal. -/
theorem preorderVisit_dup (adj1 adj2 : Nat → List Nat) (l1 d l3 : Nat → List Nat)
    (h1 : ∀ u, adj1 u = l1 u ++ l3 u) (h2 : ∀ u, adj2 u = l1 u ++ d u ++ l3 u)
    (hd : ∀ u, ∀ w ∈ d u, w ∈ l1 u) :
    ∀ fuel, preorderVisit adj2 fuel = preorderVisit adj1 fuel := by
  intro fuel
  induction fuel with
  | zero => rfl
  | succ fuel ih =>
    funext v acc
    simp only [preorderVisit]
    rw [ih, h1, h2, preorderLoop_append, preorderLoop_append, preorderLoop_append,
      preorderLoop_skip (preorderVisit_mono adj1 fuel) (preorderVisit_settles adj1 fuel)
        (l1 v) (d v) (hd v)]

theorem incident_swap {u v : Nat} (huv : u ≠ v) (w : Nat) :
    incident w (v, u) = incident w (u, v) := by
  unfold incident
  by_cases h1 : u = w <;> by_cases h2 : v = w
  · exact absurd (h1.trans h2.symm) huv
  · simp [h1, h2]
  · simp [h1, h2]
  · simp [h1, h2]

theorem mem_incident {w x : Nat} {e : Nat × Nat} (h : x ∈ incident w e) :
    x ∈ neighboursOf [e] w := by
  simpa [neighboursOf] using h

theorem edgeAdj_iff_mem {es : List (Nat × Nat)} {a b : Nat} :
    EdgeAdj es a b ↔ b ∈ neighboursOf es a := mem_neighboursOf.symm

theorem eq_of_deref {a b : List Node} (hlen : a.length = b.length)
    (h : ∀ u, deref a u = deref b u) : a = b := by
  apply List.ext_getElem hlen
  intro i h1 h2
  have e1 : deref a i = a[i] := deref_eq_of_getElem? (List.getElem?_eq_getElem h1)
  have e2 : deref b i = b[i] := deref_eq_of_getElem? (List.getElem?_eq_getElem h2)
  rw [← e1, ← e2, h i]

/-- Edge lists with the same neighbour lists give the same node array. -/
theorem buildAdjacency_congr {rs : List Nat} {es1 es2 : List (Nat × Nat)}
    (hv1 : ValidEdges (numNodes rs) es1) (hv2 : ValidEdges (numNodes rs) es2)
    (h : ∀ w, neighboursOf es2 w = neighboursOf es1 w) :
    buildAdjacency (initNodes rs) es2 = buildAdjacency (initNodes rs) es1 := by
  obtain ⟨a, ha, hla, hina, houta⟩ := adjacency_nodes hv1
  obtain ⟨b, hb, hlb, hinb, houtb⟩ := adjacency_nodes hv2
  rw [ha, hb]
  congr 1
  apply eq_of_deref (hlb.trans hla.symm)
  intro u
  by_cases hu : u < numNodes rs
  · rw [hina u hu, hinb u hu, h u]
  · rw [houta u (Nat.le_of_not_lt hu), houtb u (Nat.le_of_not_lt hu)]

/-- Two valid calls whose edge lists have the same reference traversal and the same paths
return components with the same id lists; each component carries the local edges of its
own edge list, and the local edge counts add up to the lengths of the edge lists. -/
theorem same_id_lists (rs : List Nat) (es1 es2 : List (Nat × Nat))
    (scx scy : List SimpleConstraint)
    (hv1 : ValidEdges (numNodes rs) es1) (hv2 : ValidEdges (numNodes rs) es2)
    (hx : ∀ x ∈ scx, GoodConstraint (numNodes rs) es1 x)
    (hy : ∀ y ∈ scy, GoodConstraint (numNodes rs) es1 y)
    (hP : preorder (neighboursOf es2) (numNodes rs) = preorder (neighboursOf es1) (numNodes rs))
    (hadj : ∀ a b, EdgeAdj es1 a b → EdgeAdj es2 a b) :
    ∃ L : List (List Nat),
      connectedComponents rs es1 scx scy [] =
        .returned (L.map (componentOf rs es1 scx scy)) ∧
      connectedComponents rs es2 scx scy [] =
        .returned (L.map (componentOf rs es2 scx scy)) ∧
      (L.map (fun ids => (localEdges ids es1).length)).sum = es1.length ∧
      (L.map (fun ids => (localEdges ids es2).length)).sum = es2.length := by
  have hx2 : ∀ x ∈ scx, GoodConstraint (numNodes rs) es2 x :=
    fun x h => ⟨(hx x h).1, (hx x h).2.1, connected_congr hadj (hx x h).2.2⟩
  have hy2 : ∀ y ∈ scy, GoodConstraint (numNodes rs) es2 y :=
    fun y h => ⟨(hy y h).1, (hy y h).2.1, connected_congr hadj (hy y h).2.2⟩
  obtain ⟨_, fin1, hex1, hch1, hr1⟩ := returned_closed_form rs es1 scx scy [] hv1 hx hy
  obtain ⟨_, fin2, hex2, hch2, hr2⟩ := returned_closed_form rs es2 scx scy [] hv2 hx2 hy2
  rw [hP] at hch2
  have hL := chain_unique _ _ _ hch2 hch1
  refine ⟨fin1.map Component.node_ids, by rw [hr1]; rfl, by rw [hr2, hL]; rfl, ?_, ?_⟩
  · rw [List.map_map]
    exact sum_localEdges hex1 es1
      (fun e he => ⟨(hv1 e he).1, Relation.ReflTransGen.single (Or.inl he)⟩)
  · rw [← hL, List.map_map]
    exact sum_localEdges hex2 es2
      (fun e he => ⟨(hv2 e he).1, Relation.ReflTransGen.single (Or.inl he)⟩)

/-! ## The explicit-stack traversal -/

theorem stackRun_nil (adj : Nat → List Nat) (f : Nat) (acc : List Nat) :
    stackRun adj f [] acc = some acc := by
  cases f <;> rfl

/-- The stack traversal, given enough pops, goes through the nodes on top of its stack as
the recursive traversal does and then continues with the rest of the stack. -/
theorem stackRun_traverses {adj : Nat → List Nat} {us acc r : List Nat}
    (h : Traverses adj us acc r) :
    ∀ st, ∃ k, ∀ f, stackRun adj (f + k) (us ++ st) acc = stackRun adj f st r := by
  induction h with
  | nil acc => intro st; exact ⟨0, fun f => rfl⟩
  | @skip u us acc r hu _ ih =>
    intro st
    obtain ⟨k, hk⟩ := ih st
    refine ⟨k + 1, fun f => ?_⟩
    rw [← Nat.add_assoc, List.cons_append]
    simp only [stackRun, hu, if_true]
    exact hk f
  | @step u us acc acc1 r hu _ _ ih1 ih2 =>
    intro st
    obtain ⟨k1, hk1⟩ := ih1 (us ++ st)
    obtain ⟨k2, hk2⟩ := ih2 st
    refine ⟨k2 + k1 + 1, fun f => ?_⟩
    rw [← Nat.add_assoc, List.cons_append]
    simp only [stackRun, hu, if_false]
    rw [← Nat.add_assoc, hk1 (f + k2), hk2 f]

/-- The stack traversal from a single root agrees with the recursive traversal for every
sufficient number of pops. -/
theorem stackRun_root {adj : Nat → List Nat} {v : Nat} {r : List Nat}
    (h : Traverses adj [v] [] r) : ∃ k, ∀ f, k ≤ f → stackRun adj f [v] [] = some r := by
  obtain ⟨k, hk⟩ := stackRun_traverses h []
  refine ⟨k, fun f hf => ?_⟩
  have := hk (f - k)
  rw [Nat.sub_add_cancel hf, List.append_nil, stackRun_nil] at this
  exact this

/-- The loop of `dfs` goes through the neighbours as the recursive traversal relation
does, when the neighbours tried lie in no earlier component. -/
theorem dfsLoop_traverses {vs0 : List Node} {m : Nat} {fin : List Component}
    {rec : Nat → DfsState → Option DfsState} {adj : Nat → List Nat} {fuel : Nat}
    (hrec : ∀ v s, Inv vs0 m s.vs s.remaining s.cmap (fin ++ [s.component]) →
      v < vs0.length → (deref s.vs v).visited = false → s.remaining.length ≤ fuel →
      DfsPost vs0 m fin [v] s (rec v s))
    (hrel : ∀ v s, Inv vs0 m s.vs s.remaining s.cmap (fin ++ [s.component]) →
      v < vs0.length → (deref s.vs v).visited = false → s.remaining.length ≤ fuel →
      ∀ s1, rec v s = some s1 →
        Traverses adj (adj v) (s.component.node_ids ++ [v]) s1.component.node_ids) :
    ∀ (us : List Nat) (s : DfsState),
      Inv vs0 m s.vs s.remaining s.cmap (fin ++ [s.component]) →
      (∀ u ∈ us, u < vs0.length ∧ u ∉ allIds fin) → s.remaining.length ≤ fuel →
      ∀ s1, dfsLoop rec us s = some s1 →
        Traverses adj us s.component.node_ids s1.component.node_ids := by
  intro us
  induction us with
  | nil =>
    intro s _ _ _ s1 h1
    simp only [dfsLoop, Option.some.injEq] at h1
    subst h1
    exact Traverses.nil _
  | cons u us ih =>
    intro s h hus hfuel s1 h1
    have hus1 : ∀ w ∈ us, w < vs0.length ∧ w ∉ allIds fin :=
      fun w hw => hus w (List.mem_cons_of_mem _ hw)
    obtain ⟨hu, hufin⟩ := hus u (List.mem_cons_self _ _)
    have htest : (deref s.vs u).visited = true ↔ u ∈ s.component.node_ids := by
      rw [← h.mem_ids, allIds_append_singleton, List.mem_append]
      constructor
      · rintro (h2 | h2)
        · exact absurd h2 hufin
        · exact h2
      · exact Or.inr
    by_cases hvu : (deref s.vs u).visited = true
    · simp only [dfsLoop, hvu, if_true] at h1
      exact Traverses.skip (htest.1 hvu) (ih s h hus1 hfuel s1 h1)
    · have hvu1 : (deref s.vs u).visited = false := by simpa using hvu
      have hmem : u ∉ s.component.node_ids := fun hm => hvu (htest.2 hm)
      obtain ⟨s2, new, hr2, hinv2, _, hrem2, _⟩ := hrec u s h hu hvu1 hfuel
      have hp2 := hrel u s h hu hvu1 hfuel s2 hr2
      simp only [dfsLoop, hvu1, hr2, Option.bind_some] at h1
      exact Traverses.step hmem hp2
        (ih s2 hinv2 hus1 (le_trans hrem2 hfuel) s1 (by simpa using h1))

/-- The recursive `dfs` from an unvisited node goes through the graph as the recursive
traversal relation does. -/
theorem dfs_traverses {vs0 : List Node} {m : Nat} {fin : List Component} (hst : Static vs0)
    (hfree : ∀ u w, u ∉ allIds fin → w ∈ (deref vs0 u).neighbours → w ∉ allIds fin) :
    ∀ (fuel v : Nat) (s : DfsState),
      Inv vs0 m s.vs s.remaining s.cmap (fin ++ [s.component]) →
      v < vs0.length → (deref s.vs v).visited = false → s.remaining.length ≤ fuel →
      ∀ s1, dfs (m + fin.length) fuel v s = some s1 →
        Traverses (fun u => (deref vs0 u).neighbours) ((deref vs0 v).neighbours)
          (s.component.node_ids ++ [v]) s1.component.node_ids := by
  intro fuel
  induction fuel with
  | zero => intro v s _ _ _ _ s1 h1; simp [dfs] at h1
  | succ fuel ih =>
    intro v s h hv hun hfuel s1 h1
    have hmem : v ∈ s.remaining := (mem_remaining h v).2 ⟨hv, hun⟩
    have hpos : 0 < s.remaining.length := List.length_pos_of_mem hmem
    have hinv1 := inv_visit hst h hv hun
    have hid : (deref s.vs v).id = v := by rw [shape_id h.shape]; exact hst.id_eq v hv
    have hrem1 : (visit (m + fin.length) v s).remaining.length = s.remaining.length - 1 :=
      List.length_erase_of_mem hmem
    have hids1 : (visit (m + fin.length) v s).component.node_ids =
        s.component.node_ids ++ [v] := by simp [visit, hid]
    have hvfin : v ∉ allIds fin := by
      intro hm
      have : v ∈ allIds (fin ++ [s.component]) := by
        rw [allIds_append_singleton]; exact List.mem_append_left _ hm
      rw [h.mem_ids, hun] at this
      exact Bool.noConfusion this
    have hnb : ∀ u ∈ (deref s.vs v).neighbours, u < vs0.length ∧ u ∉ allIds fin := by
      intro u hu
      rw [shape_neighbours h.shape] at hu
      exact ⟨hst.nbr_lt v u hu, hfree v u hvfin hu⟩
    simp only [dfs] at h1
    have := dfsLoop_traverses (fun v s a b c d => (dfs_spec hst fuel v s a b c d).1) ih
      (deref s.vs v).neighbours (visit (m + fin.length) v s) hinv1 hnb (by omega) s1 h1
    rw [hids1, shape_neighbours h.shape] at this
    exact this

/-- A `dfs` call from any root on the state the extraction starts from: it ends, its
component holds the reference preorder from the root, and the stack traversal from the
root yields the same list for every sufficient number of pops. -/
theorem fresh_dfs (rs : List Nat) (es : List (Nat × Nat))
    (hv : ValidEdges (numNodes rs) es) (v : Nat) (hvn : v < numNodes rs) :
    ∃ vs0 s1, buildAdjacency (initNodes rs) es = some vs0 ∧
      dfs 0 (numNodes rs) v ⟨vs0, initRemaining rs, CMap.emptyMap, Component.empty⟩ =
        some s1 ∧
      s1.component.node_ids = preorder (neighboursOf es) (numNodes rs) v ∧
      ∃ k, ∀ f, k ≤ f → stackRun (neighboursOf es) f [v] [] = some s1.component.node_ids := by
  obtain ⟨vs0, hb, _⟩ := adjacency_nodes hv
  obtain ⟨hlen, hnb, hst, _, hinv0⟩ := start_facts hv hb []
  have hadj : (fun u => (deref vs0 u).neighbours) = neighboursOf es := funext hnb
  have hinv : Inv vs0 0 vs0 (initRemaining rs) CMap.emptyMap ([] ++ [Component.empty]) :=
    inv_new_component hinv0
  have hun : (deref vs0 v).visited = false := by
    cases hvis : (deref vs0 v).visited with
    | false => rfl
    | true =>
      have := (hinv.mem_ids v).2 hvis
      simp [allIds, Component.empty] at this
  have hvl : v < vs0.length := by rw [hlen]; exact hvn
  have hfuel : (initRemaining rs).length ≤ numNodes rs := by simp [initRemaining]
  have hfree : ∀ u w, u ∉ allIds ([] : List Component) →
      w ∈ (deref vs0 u).neighbours → w ∉ allIds ([] : List Component) := by
    intro u w _ _ hw; simp [allIds] at hw
  obtain ⟨⟨s1, _, hd, _⟩, _⟩ :=
    @dfs_spec vs0 0 [] hst (numNodes rs) v
      ⟨vs0, initRemaining rs, CMap.emptyMap, Component.empty⟩ hinv hvl hun hfuel
  have hd1 : dfs 0 (numNodes rs) v
      ⟨vs0, initRemaining rs, CMap.emptyMap, Component.empty⟩ = some s1 := hd
  have hpre := @dfs_preorder vs0 0 [] hst hfree (numNodes rs) v
    ⟨vs0, initRemaining rs, CMap.emptyMap, Component.empty⟩ hinv hvl hun hfuel s1 hd
  have htr := @dfs_traverses vs0 0 [] hst hfree (numNodes rs) v
    ⟨vs0, initRemaining rs, CMap.emptyMap, Component.empty⟩ hinv hvl hun hfuel s1 hd
  simp only [Component.empty, List.nil_append] at hpre htr
  rw [hadj] at hpre
  rw [hnb, hadj] at htr
  refine ⟨vs0, s1, hb, hd1, hpre, ?_⟩
  exact stackRun_root (Traverses.step (by simp) htr (Traverses.nil _))

/-- C21 (adjacency building).  For every edge list with endpoints below `N` the adjacency
loop succeeds, and afterwards the neighbour list of every node `u` below `N` is
`neighboursOf es u`: for every edge in edge-list order, its second endpoint if `u` is its
first and its first endpoint if `u` is its second, duplicates kept.  The lengths of the
neighbour lists add up to twice the number of edges. -/
theorem adjacency_building (rs : List Nat) (es : List (Nat × Nat))
    (hv : ValidEdges (numNodes rs) es) :
    ∃ vs0, buildAdjacency (initNodes rs) es = some vs0 ∧ vs0.length = numNodes rs ∧
      (∀ u, u < numNodes rs → (deref vs0 u).neighbours = neighboursOf es u) ∧
      ((List.range (numNodes rs)).map (fun u => (deref vs0 u).neighbours.length)).sum =
        2 * es.length := by
  obtain ⟨vs0, hb, hlen, hin, _⟩ := adjacency_nodes hv
  refine ⟨vs0, hb, hlen, fun u hu => by rw [hin u hu], ?_⟩
  rw [← sum_neighboursOf (numNodes rs) es hv]
  congr 1
  apply List.map_congr_left
  intro u hu
  rw [hin u (List.mem_range.1 hu)]

theorem adjacency_building_witness :
    ValidEdges (numNodes threeRects) loopyTriangle ∧
    neighboursOf loopyTriangle 0 = [1, 2, 0, 0, 1] ∧
    ∃ vs0, buildAdjacency (initNodes threeRects) loopyTriangle = some vs0 ∧
      vs0.length = numNodes threeRects ∧
      (∀ u, u < numNodes threeRects →
        (deref vs0 u).neighbours = neighboursOf loopyTriangle u) ∧
      ((List.range (numNodes threeRects)).map
        (fun u => (deref vs0 u).neighbours.length)).sum = 2 * loopyTriangle.length :=
  ⟨by unfold ValidEdges; decide, by decide,
   adjacency_building threeRects loopyTriangle (by unfold ValidEdges; decide)⟩

/-- C23 (the edge assertion cannot fail).  For every `N` and every edge list with endpoints
below `N`, after the extraction both endpoints of every input edge have an entry in the
index map with the same non-null component pointer, and the edge-conversion loop runs to
its end: its assertion never fails and it never goes through a null pointer. -/
theorem edge_assertion_holds (rs : List Nat) (es : List (Nat × Nat))
    (cs0 : List Component) (hv : ValidEdges (numNodes rs) es) :
    ∃ vs0 s st, buildAdjacency (initNodes rs) es = some vs0 ∧
      extractLoop (numNodes rs) (numNodes rs + 1)
        ⟨vs0, initRemaining rs, CMap.emptyMap, cs0⟩ = some s ∧
      remapLoop id pushEdge es (s.cmap, s.components) = .ok st ∧
      ∀ e ∈ es, ∃ p l r, s.cmap e.1 = some (some p, l) ∧ s.cmap e.2 = some (some p, r) := by
  obtain ⟨vs0, s, fin, hb, hs, hex⟩ := extraction_spec rs es cs0 hv
  obtain ⟨cmap1, he, _⟩ := edges_pass hex hv
  refine ⟨vs0, s, _, hb, hs, he, ?_⟩
  intro e hem
  obtain ⟨c, hc, hac⟩ := mem_allIds.1 ((hex.mem e.1).2 (hv e hem).1)
  have hbc := hex.mem_of_connected hc hac (Relation.ReflTransGen.single (Or.inl hem))
  obtain ⟨j, hj⟩ := List.mem_iff_getElem?.1 hc
  obtain ⟨ka, hka⟩ := List.mem_iff_getElem?.1 hac
  obtain ⟨kb, hkb⟩ := List.mem_iff_getElem?.1 hbc
  exact ⟨_, ka, kb, hex.hit j c ka e.1 hj hka, hex.hit j c kb e.2 hj hkb⟩

theorem edge_assertion_holds_witness :
    ValidEdges (numNodes threeRects) loopyTriangle ∧
    ∃ vs0 s st, buildAdjacency (initNodes threeRects) loopyTriangle = some vs0 ∧
      extractLoop (numNodes threeRects) (numNodes threeRects + 1)
        ⟨vs0, initRemaining threeRects, CMap.emptyMap, []⟩ = some s ∧
      remapLoop id pushEdge loopyTriangle (s.cmap, s.components) = .ok st ∧
      ∀ e ∈ loopyTriangle, ∃ p l r,
        s.cmap e.1 = some (some p, l) ∧ s.cmap e.2 = some (some p, r) :=
  ⟨by unfold ValidEdges; decide,
   edge_assertion_holds threeRects loopyTriangle [] (by unfold ValidEdges; decide)⟩

/-- C24 (termination).  For every edge list with endpoints below `N`, cycles, self-loops
and repeated edges included, the extraction ends within the bounds the call gives it:
recursion depth `N` for each `dfs` and `N` iterations of the loop followed by its exit
test.  Every `dfs` call appends one id, and `N` ids are appended in all; every iteration
creates one component, and at most `N` are created.  No call runs out of these bounds,
whatever the constraints. -/
theorem termination (rs : List Nat) (es : List (Nat × Nat)) (cs0 : List Component)
    (hv : ValidEdges (numNodes rs) es) :
    ∃ vs0 s fin, buildAdjacency (initNodes rs) es = some vs0 ∧
      extractLoop (numNodes rs) (numNodes rs + 1)
        ⟨vs0, initRemaining rs, CMap.emptyMap, cs0⟩ = some s ∧
      s.components = cs0 ++ fin ∧ (allIds fin).length = numNodes rs ∧
      fin.length ≤ numNodes rs ∧
      ∀ scx scy, connectedComponents rs es scx scy cs0 ≠ .outOfFuel := by
  obtain ⟨vs0, s, fin, hb, hs, hex⟩ := extraction_spec rs es cs0 hv
  refine ⟨vs0, s, fin, hb, hs, hex.comps, hex.length_allIds, ?_,
    fun scx scy => connectedComponents_fuel rs es scx scy cs0⟩
  rw [← hex.length_allIds]
  exact length_le_allIds fin hex.ne

theorem termination_witness :
    ValidEdges (numNodes threeRects) loopyTriangle ∧
    ∃ vs0 s fin, buildAdjacency (initNodes threeRects) loopyTriangle = some vs0 ∧
      extractLoop (numNodes threeRects) (numNodes threeRects + 1)
        ⟨vs0, initRemaining threeRects, CMap.emptyMap, []⟩ = some s ∧
      s.components = [] ++ fin ∧ (allIds fin).length = numNodes threeRects ∧
      fin.length ≤ numNodes threeRects ∧
      ∀ scx scy, connectedComponents threeRects loopyTriangle scx scy [] ≠ .outOfFuel :=
  ⟨by unfold ValidEdges; decide,
   termination threeRects loopyTriangle [] (by unfold ValidEdges; decide)⟩

/-- C26 (frame of the constraint pass).  From any index map and output vector, the X loop
leaves the vector with the same number of components in the same order, each with its
`node_ids`, `rects`, `edges` and `scy` unchanged and its `scx` only extended at the end;
this holds for the vector it ends with and for the vector at a fault.  The same holds for
the Y loop with `scx` and `scy` exchanged. -/
theorem constraint_pass_frame (xs : List SimpleConstraint) (st : CMap × List Component) :
    (match remapLoop SimpleConstraint.ends pushScx xs st with
      | .ok st1 => List.Forall₂ GrowsScx st.2 st1.2
      | .error f => List.Forall₂ GrowsScx st.2 f.2) ∧
    (match remapLoop SimpleConstraint.ends pushScy xs st with
      | .ok st1 => List.Forall₂ GrowsScy st.2 st1.2
      | .error f => List.Forall₂ GrowsScy st.2 f.2) := by
  have hx := remapLoop_frame growsScx_refl growsScx_trans SimpleConstraint.ends pushScx
    growsScx_push xs st
  have hy := remapLoop_frame growsScy_refl growsScy_trans SimpleConstraint.ends pushScy
    growsScy_push xs st
  constructor
  · cases h : remapLoop SimpleConstraint.ends pushScx xs st with
    | ok st1 => exact hx.1 st1 h
    | error f => exact hx.2 f h
  · cases h : remapLoop SimpleConstraint.ends pushScy xs st with
    | ok st1 => exact hy.1 st1 h
    | error f => exact hy.2 f h

/-- C27 (local indices are in bounds).  For every call with an empty output vector that
returns, every local edge `(a, b)` of a returned component `C` has `a` and `b` below the
length of `C.node_ids`, and every local constraint in `C.scx` and `C.scy` has `left` and
`right` below it. -/
theorem local_indices_in_bounds (rs : List Nat) (es : List (Nat × Nat))
    (scx scy : List SimpleConstraint) (cs : List Component)
    (h : connectedComponents rs es scx scy [] = .returned cs) :
    ∀ C ∈ cs,
      (∀ e ∈ C.edges, e.1 < C.node_ids.length ∧ e.2 < C.node_ids.length) ∧
      (∀ x ∈ C.scx ++ C.scy, x.left < C.node_ids.length ∧ x.right < C.node_ids.length) := by
  by_cases hv : ValidEdges (numNodes rs) es
  · obtain ⟨_, s, fin, _, _, hex, hrun⟩ := connectedComponents_run rs es scx scy [] hv
    rcases hrun with ⟨_, _, _, hr⟩ | ⟨_, _, _, _, hr⟩ | ⟨_, _, hr⟩
    · rw [hr] at h; exact Outcome.noConfusion h
    · rw [hr] at h; exact Outcome.noConfusion h
    · rw [hr] at h
      injection h with h
      subst h
      intro C hC
      rw [List.nil_append] at hC
      obtain ⟨c, hc, rfl⟩ := mem_map_finish.1 hC
      exact inBounds_finish hex scx scy hc
  · have hb : buildAdjacency (initNodes rs) es = none :=
      buildAdjacency_none es (initNodes rs) (by rw [length_initNodes]; exact hv)
    simp only [connectedComponents, hb] at h
    exact Outcome.noConfusion h

theorem local_indices_in_bounds_witness :
    connectedComponents sixRects twoTriangles [⟨0, 1, 10⟩] [] [] =
      .returned
        [⟨[0, 1, 2], [10, 11, 12], [(0, 1), (1, 2), (2, 0)], [⟨0, 1, 10⟩], []⟩,
         ⟨[3, 4, 5], [13, 14, 15], [(0, 1), (1, 2), (2, 0)], [], []⟩] ∧
    ∀ C ∈ [(⟨[0, 1, 2], [10, 11, 12], [(0, 1), (1, 2), (2, 0)], [⟨0, 1, 10⟩], []⟩ : Component),
         ⟨[3, 4, 5], [13, 14, 15], [(0, 1), (1, 2), (2, 0)], [], []⟩],
      (∀ e ∈ C.edges, e.1 < C.node_ids.length ∧ e.2 < C.node_ids.length) ∧
      (∀ x ∈ C.scx ++ C.scy, x.left < C.node_ids.length ∧ x.right < C.node_ids.length) :=
  ⟨by decide,
   local_indices_in_bounds sixRects twoTriangles [⟨0, 1, 10⟩] [] _ (by decide)⟩

/-- C28 (both ids out of range).  On in-range edges, after X constraints `pre` that meet
the precondition, a constraint `x` whose two ids are not below `N` is not caught: neither
id has an entry in the index map left by the extraction, both lookups read the default
pair (null pointer, local index 0), the assertion passes and the call stops at the push
through the null pointer.  A constraint `z` with exactly one id not below `N`, in the
place of `x`, makes the assertion fail. -/
theorem both_ids_out_of_range (rs : List Nat) (es : List (Nat × Nat))
    (pre post scy : List SimpleConstraint) (x z : SimpleConstraint)
    (hv : ValidEdges (numNodes rs) es)
    (hpre : ∀ y ∈ pre, GoodConstraint (numNodes rs) es y)
    (hx : numNodes rs ≤ x.left ∧ numNodes rs ≤ x.right)
    (hz : (z.left < numNodes rs ∧ numNodes rs ≤ z.right) ∨
      (numNodes rs ≤ z.left ∧ z.right < numNodes rs)) :
    ∃ vs0 s, buildAdjacency (initNodes rs) es = some vs0 ∧
      extractLoop (numNodes rs) (numNodes rs + 1)
        ⟨vs0, initRemaining rs, CMap.emptyMap, []⟩ = some s ∧
      s.cmap x.left = none ∧ s.cmap x.right = none ∧
      (s.cmap.index x.left).1 = (none, 0) ∧
      ((s.cmap.index x.left).2.index x.right).1 = (none, 0) ∧
      (∃ cs, connectedComponents rs es (pre ++ x :: post) scy [] =
        .failed Fault.nullDeref cs) ∧
      (∃ cs, connectedComponents rs es (pre ++ z :: post) scy [] =
        .failed Fault.assertion cs) := by
  obtain ⟨vs0, s, fin, hb, hs, hex⟩ := extraction_spec rs es [] hv
  have h1 := hex.miss x.left hx.1
  have h2 := hex.miss x.right hx.2
  refine ⟨vs0, s, hb, hs, h1, h2, ?_, ?_, ?_, ?_⟩
  · rw [index_fst]; exact value_of_none h1
  · rw [index_fst, index_snd_value]; exact value_of_none h2
  · obtain ⟨_, _, fin1, _, _, _, hr⟩ := run_stops_x rs es (pre ++ x :: post) scy [] hv
      ⟨x, post, rfl, hpre, Or.inr ⟨rfl, hx.1, hx.2⟩⟩
    exact ⟨_, hr⟩
  · have hbad : ¬ GoodConstraint (numNodes rs) es z := by
      intro hg
      have h3 := hg.1
      have h4 := hg.2.1
      omega
    obtain ⟨_, _, fin1, _, _, _, hr⟩ := run_stops_x rs es (pre ++ z :: post) scy [] hv
      ⟨z, post, rfl, hpre, Or.inl ⟨rfl, by omega, hbad⟩⟩
    exact ⟨_, hr⟩

theorem both_ids_out_of_range_witness :
    ValidEdges (numNodes sixRects) twoTriangles ∧
    (numNodes sixRects ≤ 6 ∧ numNodes sixRects ≤ 7) ∧
    connectedComponents sixRects twoTriangles [⟨0, 1, 10⟩, ⟨6, 7, 1⟩] [] [] =
      .failed Fault.nullDeref
        [⟨[0, 1, 2], [10, 11, 12], [(0, 1), (1, 2), (2, 0)], [⟨0, 1, 10⟩], []⟩,
         ⟨[3, 4, 5], [13, 14, 15], [(0, 1), (1, 2), (2, 0)], [], []⟩] ∧
    ∃ vs0 s, buildAdjacency (initNodes sixRects) twoTriangles = some vs0 ∧
      extractLoop (numNodes sixRects) (numNodes sixRects + 1)
        ⟨vs0, initRemaining sixRects, CMap.emptyMap, []⟩ = some s ∧
      s.cmap 6 = none ∧ s.cmap 7 = none ∧
      (s.cmap.index 6).1 = (none, 0) ∧
      ((s.cmap.index 6).2.index 7).1 = (none, 0) ∧
      (∃ cs, connectedComponents sixRects twoTriangles
        ([⟨0, 1, 10⟩] ++ ⟨6, 7, 1⟩ :: []) [] [] = .failed Fault.nullDeref cs) ∧
      (∃ cs, connectedComponents sixRects twoTriangles
        ([⟨0, 1, 10⟩] ++ ⟨2, 6, 3⟩ :: []) [] [] = .failed Fault.assertion cs) :=
  ⟨twoTriangles_valid, by decide, by decide,
   both_ids_out_of_range sixRects twoTriangles [⟨0, 1, 10⟩] [] [] ⟨6, 7, 1⟩ ⟨2, 6, 3⟩
     twoTriangles_valid twoTriangles_good (by decide) (Or.inl (by decide))⟩

/-- C30 (the output vector is appended to, never cleared).  On a valid input, whatever
entries `cs0` the output vector holds at the call, the call returns the vector made of
`cs0`, unchanged, followed by exactly the components the call returns on an empty vector,
in the same order: edges and constraints are attached to the new components only. -/
theorem output_appended (rs : List Nat) (es : List (Nat × Nat))
    (scx scy : List SimpleConstraint) (hv : ValidEdges (numNodes rs) es)
    (hx : ∀ x ∈ scx, GoodConstraint (numNodes rs) es x)
    (hy : ∀ y ∈ scy, GoodConstraint (numNodes rs) es y) :
    ∃ cs, connectedComponents rs es scx scy [] = .returned cs ∧
      ∀ cs0, connectedComponents rs es scx scy cs0 = .returned (cs0 ++ cs) := by
  obtain ⟨_, fin, _, hch, hr⟩ := returned_closed_form rs es scx scy [] hv hx hy
  refine ⟨(fin.map Component.node_ids).map (componentOf rs es scx scy),
    by rw [hr]; rfl, ?_⟩
  intro cs0
  obtain ⟨_, fin0, _, hch0, hr0⟩ := returned_closed_form rs es scx scy cs0 hv hx hy
  rw [hr0, chain_unique _ _ _ hch0 hch]

theorem output_appended_witness :
    ValidEdges (numNodes sixRects) twoTriangles ∧
    connectedComponents sixRects twoTriangles [⟨0, 1, 10⟩] []
        [⟨[7], [70], [], [], []⟩] =
      .returned
        [⟨[7], [70], [], [], []⟩,
         ⟨[0, 1, 2], [10, 11, 12], [(0, 1), (1, 2), (2, 0)], [⟨0, 1, 10⟩], []⟩,
         ⟨[3, 4, 5], [13, 14, 15], [(0, 1), (1, 2), (2, 0)], [], []⟩] ∧
    ∃ cs, connectedComponents sixRects twoTriangles [⟨0, 1, 10⟩] [] [] = .returned cs ∧
      ∀ cs0, connectedComponents sixRects twoTriangles [⟨0, 1, 10⟩] [] cs0 =
        .returned (cs0 ++ cs) :=
  ⟨twoTriangles_valid, by decide,
   output_appended sixRects twoTriangles [⟨0, 1, 10⟩] [] twoTriangles_valid
     twoTriangles_good (nil_good _ _)⟩

/-- C29 (reversing an edge).  On a valid input with an edge `(u, v)`, `u ≠ v`, replacing
that edge by `(v, u)` at the same position gives the same neighbour lists and the same node
array, and the two calls return components with the same id lists `L`, hence the same
`node_ids`, `rects`, `scx` and `scy`; the local edge lists differ only in the entry of that
edge, whose pair of local indices is swapped. -/
theorem reversed_edge (rs : List Nat) (pre post : List (Nat × Nat)) (u v : Nat)
    (scx scy : List SimpleConstraint) (huv : u ≠ v)
    (hv : ValidEdges (numNodes rs) (pre ++ (u, v) :: post))
    (hx : ∀ x ∈ scx, GoodConstraint (numNodes rs) (pre ++ (u, v) :: post) x)
    (hy : ∀ y ∈ scy, GoodConstraint (numNodes rs) (pre ++ (u, v) :: post) y) :
    (∀ w, neighboursOf (pre ++ (v, u) :: post) w = neighboursOf (pre ++ (u, v) :: post) w) ∧
    buildAdjacency (initNodes rs) (pre ++ (v, u) :: post) =
      buildAdjacency (initNodes rs) (pre ++ (u, v) :: post) ∧
    ∃ L : List (List Nat),
      connectedComponents rs (pre ++ (u, v) :: post) scx scy [] =
        .returned (L.map (componentOf rs (pre ++ (u, v) :: post) scx scy)) ∧
      connectedComponents rs (pre ++ (v, u) :: post) scx scy [] =
        .returned (L.map (componentOf rs (pre ++ (v, u) :: post) scx scy)) ∧
      ∀ ids : List Nat,
        localEdges ids (pre ++ (u, v) :: post) =
          localEdges ids pre ++
            (if u ∈ ids ∧ v ∈ ids then [(ids.indexOf u, ids.indexOf v)] else []) ++
            localEdges ids post ∧
        localEdges ids (pre ++ (v, u) :: post) =
          localEdges ids pre ++
            (if u ∈ ids ∧ v ∈ ids then [(ids.indexOf v, ids.indexOf u)] else []) ++
            localEdges ids post := by
  have hnb : ∀ w, neighboursOf (pre ++ (v, u) :: post) w =
      neighboursOf (pre ++ (u, v) :: post) w := by
    intro w
    rw [neighboursOf_append, neighboursOf_append, neighboursOf_cons, neighboursOf_cons,
      incident_swap huv]
  have hv2 : ValidEdges (numNodes rs) (pre ++ (v, u) :: post) := by
    intro e he
    rcases List.mem_append.1 he with h | h
    · exact hv e (List.mem_append_left _ h)
    · rcases List.mem_cons.1 h with rfl | h
      · have := hv (u, v) (by simp)
        exact ⟨this.2, this.1⟩
      · exact hv e (List.mem_append_right _ (List.mem_cons_of_mem _ h))
  have hadj : ∀ a b, EdgeAdj (pre ++ (u, v) :: post) a b →
      EdgeAdj (pre ++ (v, u) :: post) a b := by
    intro a b h
    rw [edgeAdj_iff_mem] at h ⊢
    rw [hnb]; exact h
  have hP : preorder (neighboursOf (pre ++ (v, u) :: post)) (numNodes rs) =
      preorder (neighboursOf (pre ++ (u, v) :: post)) (numNodes rs) := by
    rw [funext hnb]
  obtain ⟨L, h1, h2, _, _⟩ := same_id_lists rs _ _ scx scy hv hv2 hx hy hP hadj
  refine ⟨hnb, buildAdjacency_congr hv hv2 hnb, L, h1, h2, ?_⟩
  intro ids
  constructor
  · rw [localEdges_append, localEdges_cons, List.append_assoc]
  · rw [localEdges_append, localEdges_cons, List.append_assoc]
    by_cases h : u ∈ ids ∧ v ∈ ids
    · simp [h, h.1, h.2]
    · have h3 : ¬ (v ∈ ids ∧ u ∈ ids) := fun hc => h ⟨hc.2, hc.1⟩
      simp only [h, h3, if_false]

theorem reversed_edge_witness :
    ValidEdges (numNodes sixRects) ([(0, 1)] ++ (1, 2) :: [(2, 0), (3, 4), (4, 5), (5, 3)]) ∧
    connectedComponents sixRects ([(0, 1)] ++ (2, 1) :: [(2, 0), (3, 4), (4, 5), (5, 3)])
        [⟨0, 1, 10⟩] [] [] =
      .returned
        [⟨[0, 1, 2], [10, 11, 12], [(0, 1), (2, 1), (2, 0)], [⟨0, 1, 10⟩], []⟩,
         ⟨[3, 4, 5], [13, 14, 15], [(0, 1), (1, 2), (2, 0)], [], []⟩] ∧
    ((∀ w, neighboursOf ([(0, 1)] ++ (2, 1) :: [(2, 0), (3, 4), (4, 5), (5, 3)]) w =
        neighboursOf ([(0, 1)] ++ (1, 2) :: [(2, 0), (3, 4), (4, 5), (5, 3)]) w) ∧
    buildAdjacency (initNodes sixRects)
        ([(0, 1)] ++ (2, 1) :: [(2, 0), (3, 4), (4, 5), (5, 3)]) =
      buildAdjacency (initNodes sixRects)
        ([(0, 1)] ++ (1, 2) :: [(2, 0), (3, 4), (4, 5), (5, 3)]) ∧
    ∃ L : List (List Nat),
      connectedComponents sixRects ([(0, 1)] ++ (1, 2) :: [(2, 0), (3, 4), (4, 5), (5, 3)])
          [⟨0, 1, 10⟩] [] [] =
        .returned (L.map (componentOf sixRects
          ([(0, 1)] ++ (1, 2) :: [(2, 0), (3, 4), (4, 5), (5, 3)]) [⟨0, 1, 10⟩] [])) ∧
      connectedComponents sixRects ([(0, 1)] ++ (2, 1) :: [(2, 0), (3, 4), (4, 5), (5, 3)])
          [⟨0, 1, 10⟩] [] [] =
        .returned (L.map (componentOf sixRects
          ([(0, 1)] ++ (2, 1) :: [(2, 0), (3, 4), (4, 5), (5, 3)]) [⟨0, 1, 10⟩] [])) ∧
      ∀ ids : List Nat,
        localEdges ids ([(0, 1)] ++ (1, 2) :: [(2, 0), (3, 4), (4, 5), (5, 3)]) =
          localEdges ids [(0, 1)] ++
            (if 1 ∈ ids ∧ 2 ∈ ids then [(ids.indexOf 1, ids.indexOf 2)] else []) ++
            localEdges ids [(2, 0), (3, 4), (4, 5), (5, 3)] ∧
        localEdges ids ([(0, 1)] ++ (2, 1) :: [(2, 0), (3, 4), (4, 5), (5, 3)]) =
          localEdges ids [(0, 1)] ++
            (if 1 ∈ ids ∧ 2 ∈ ids then [(ids.indexOf 2, ids.indexOf 1)] else []) ++
            localEdges ids [(2, 0), (3, 4), (4, 5), (5, 3)]) :=
  ⟨twoTriangles_valid, by decide,
   reversed_edge sixRects [(0, 1)] [(2, 0), (3, 4), (4, 5), (5, 3)] 1 2 [⟨0, 1, 10⟩] []
     (by decide) twoTriangles_valid twoTriangles_good (nil_good _ _)⟩

/-- C22 (duplicate edges are harmless).  On a valid input with edge list `pre ++ post`,
inserting between `pre` and `post` a second copy of an edge `e` of `pre` leaves the id
lists `L` of the returned components unchanged, hence their number, order, `node_ids`,
`rects`, `scx` and `scy`.  The local edge lists change only by the one entry of the
duplicate, in the component that holds its endpoints: the duplicate is not removed, and
the total number of local edges grows by one. -/
theorem duplicate_edge (rs : List Nat) (pre post : List (Nat × Nat)) (e : Nat × Nat)
    (scx scy : List SimpleConstraint) (he : e ∈ pre)
    (hv : ValidEdges (numNodes rs) (pre ++ post))
    (hx : ∀ x ∈ scx, GoodConstraint (numNodes rs) (pre ++ post) x)
    (hy : ∀ y ∈ scy, GoodConstraint (numNodes rs) (pre ++ post) y) :
    ∃ L : List (List Nat),
      connectedComponents rs (pre ++ post) scx scy [] =
        .returned (L.map (componentOf rs (pre ++ post) scx scy)) ∧
      connectedComponents rs (pre ++ e :: post) scx scy [] =
        .returned (L.map (componentOf rs (pre ++ e :: post) scx scy)) ∧
      (∀ ids : List Nat,
        localEdges ids (pre ++ post) = localEdges ids pre ++ localEdges ids post ∧
        localEdges ids (pre ++ e :: post) =
          localEdges ids pre ++
            (if e.1 ∈ ids ∧ e.2 ∈ ids then [(ids.indexOf e.1, ids.indexOf e.2)] else []) ++
            localEdges ids post) ∧
      (L.map (fun ids => (localEdges ids (pre ++ e :: post)).length)).sum =
        (L.map (fun ids => (localEdges ids (pre ++ post)).length)).sum + 1 := by
  have hv2 : ValidEdges (numNodes rs) (pre ++ e :: post) := by
    intro x hxm
    rcases List.mem_append.1 hxm with h | h
    · exact hv x (List.mem_append_left _ h)
    · rcases List.mem_cons.1 h with rfl | h
      · exact hv x (List.mem_append_left _ he)
      · exact hv x (List.mem_append_right _ h)
  have hsub : ∀ x ∈ pre ++ post, x ∈ pre ++ e :: post := by
    intro x hxm
    rcases List.mem_append.1 hxm with h | h
    · exact List.mem_append_left _ h
    · exact List.mem_append_right _ (List.mem_cons_of_mem _ h)
  have hadj : ∀ a b, EdgeAdj (pre ++ post) a b → EdgeAdj (pre ++ e :: post) a b :=
    fun a b h => h.elim (fun h1 => Or.inl (hsub _ h1)) (fun h1 => Or.inr (hsub _ h1))
  have hP : preorder (neighboursOf (pre ++ e :: post)) (numNodes rs) =
      preorder (neighboursOf (pre ++ post)) (numNodes rs) := by
    funext root
    simp only [preorder]
    rw [preorderVisit_dup (neighboursOf (pre ++ post)) (neighboursOf (pre ++ e :: post))
      (neighboursOf pre) (fun u => incident u e) (neighboursOf post)
      (fun u => neighboursOf_append pre post u)
      (fun u => by rw [neighboursOf_append, neighboursOf_cons, List.append_assoc])
      (fun u w hw => List.mem_flatMap.2 ⟨e, he, hw⟩)]
  obtain ⟨L, h1, h2, hs1, hs2⟩ := same_id_lists rs _ _ scx scy hv hv2 hx hy hP hadj
  refine ⟨L, h1, h2, ?_, ?_⟩
  · intro ids
    exact ⟨localEdges_append ids pre post,
      by rw [localEdges_append, localEdges_cons, List.append_assoc]⟩
  · rw [hs1, hs2]; simp only [List.length_append, List.length_cons]; omega

theorem duplicate_edge_witness :
    (0, 1) ∈ [((0 : Nat), (1 : Nat)), (1, 2)] ∧
    ValidEdges (numNodes sixRects) ([(0, 1), (1, 2)] ++ [(2, 0), (3, 4), (4, 5), (5, 3)]) ∧
    connectedComponents sixRects ([(0, 1), (1, 2)] ++ (0, 1) ::
        [(2, 0), (3, 4), (4, 5), (5, 3)]) [⟨0, 1, 10⟩] [] [] =
      .returned
        [⟨[0, 1, 2], [10, 11, 12], [(0, 1), (1, 2), (0, 1), (2, 0)], [⟨0, 1, 10⟩], []⟩,
         ⟨[3, 4, 5], [13, 14, 15], [(0, 1), (1, 2), (2, 0)], [], []⟩] ∧
    ∃ L : List (List Nat),
      connectedComponents sixRects ([(0, 1), (1, 2)] ++ [(2, 0), (3, 4), (4, 5), (5, 3)])
          [⟨0, 1, 10⟩] [] [] =
        .returned (L.map (componentOf sixRects
          ([(0, 1), (1, 2)] ++ [(2, 0), (3, 4), (4, 5), (5, 3)]) [⟨0, 1, 10⟩] [])) ∧
      connectedComponents sixRects ([(0, 1), (1, 2)] ++ (0, 1) ::
          [(2, 0), (3, 4), (4, 5), (5, 3)]) [⟨0, 1, 10⟩] [] [] =
        .returned (L.map (componentOf sixRects
          ([(0, 1), (1, 2)] ++ (0, 1) :: [(2, 0), (3, 4), (4, 5), (5, 3)])
          [⟨0, 1, 10⟩] [])) ∧
      (∀ ids : List Nat,
        localEdges ids ([(0, 1), (1, 2)] ++ [(2, 0), (3, 4), (4, 5), (5, 3)]) =
          localEdges ids [(0, 1), (1, 2)] ++
            localEdges ids [(2, 0), (3, 4), (4, 5), (5, 3)] ∧
        localEdges ids ([(0, 1), (1, 2)] ++ (0, 1) :: [(2, 0), (3, 4), (4, 5), (5, 3)]) =
          localEdges ids [(0, 1), (1, 2)] ++
            (if ((0 : Nat), (1 : Nat)).1 ∈ ids ∧ ((0 : Nat), (1 : Nat)).2 ∈ ids then
              [(ids.indexOf ((0 : Nat), (1 : Nat)).1, ids.indexOf ((0 : Nat), (1 : Nat)).2)]
              else []) ++
            localEdges ids [(2, 0), (3, 4), (4, 5), (5, 3)]) ∧
      (L.map (fun ids => (localEdges ids ([(0, 1), (1, 2)] ++ (0, 1) ::
          [(2, 0), (3, 4), (4, 5), (5, 3)])).length)).sum =
        (L.map (fun ids => (localEdges ids ([(0, 1), (1, 2)] ++
          [(2, 0), (3, 4), (4, 5), (5, 3)])).length)).sum + 1 :=
  ⟨by decide, twoTriangles_valid, by decide,
   duplicate_edge sixRects [(0, 1), (1, 2)] [(2, 0), (3, 4), (4, 5), (5, 3)] (0, 1)
     [⟨0, 1, 10⟩] [] (by decide) twoTriangles_valid twoTriangles_good (nil_good _ _)⟩

/-- C25 (recursive and explicit-stack traversal agree).  For every edge list with
endpoints below `N` and every root below `N`, the recursive `dfs` from that root on the
state the extraction starts from ends, and the explicit-stack traversal from the same
root, given any sufficient number of pops, yields exactly the `node_ids` that `dfs`
produced, in the same order.  On a valid input this holds for the `node_ids` of every
returned component and its root. -/
theorem explicit_stack_agrees (rs : List Nat) (es : List (Nat × Nat))
    (scx scy : List SimpleConstraint) (hv : ValidEdges (numNodes rs) es)
    (hx : ∀ x ∈ scx, GoodConstraint (numNodes rs) es x)
    (hy : ∀ y ∈ scy, GoodConstraint (numNodes rs) es y) :
    (∀ v, v < numNodes rs →
      ∃ vs0 s1, buildAdjacency (initNodes rs) es = some vs0 ∧
        dfs 0 (numNodes rs) v ⟨vs0, initRemaining rs, CMap.emptyMap, Component.empty⟩ =
          some s1 ∧
        ∃ k, ∀ f, k ≤ f →
          stackRun (neighboursOf es) f [v] [] = some s1.component.node_ids) ∧
    ∃ cs, connectedComponents rs es scx scy [] = .returned cs ∧
      ∀ C ∈ cs, ∃ r tl, C.node_ids = r :: tl ∧
        ∃ k, ∀ f, k ≤ f → stackRun (neighboursOf es) f [r] [] = some C.node_ids := by
  constructor
  · intro v hvn
    obtain ⟨vs0, s1, hb, hd, _, hk⟩ := fresh_dfs rs es hv v hvn
    exact ⟨vs0, s1, hb, hd, hk⟩
  · obtain ⟨vs0, s, fin, hb, hs, hex, hr⟩ :=
      connectedComponents_returned rs es scx scy [] hv hx hy
    have hord := extraction_ordered rs es [] hv vs0 s fin hb hs hex.comps
    refine ⟨fin.map (finish es scx scy), by simpa using hr, ?_⟩
    intro C hC
    obtain ⟨c, hc, rfl⟩ := mem_map_finish.1 hC
    obtain ⟨j, hj⟩ := List.mem_iff_getElem?.1 hc
    obtain ⟨r, tl, hrt, _⟩ := hord.roots j c hj
    have hrn : r < numNodes rs :=
      (hex.mem r).1 (mem_allIds.2 ⟨c, hc, by rw [hrt]; exact List.mem_cons_self _ _⟩)
    obtain ⟨_, s1, _, _, hpre, hk⟩ := fresh_dfs rs es hv r hrn
    refine ⟨r, tl, hrt, ?_⟩
    rw [finish_node_ids, hord.pre c hc r tl hrt, ← hpre]
    exact hk

theorem explicit_stack_agrees_witness :
    ValidEdges (numNodes fourRects) smallTree ∧
    stackRun (neighboursOf smallTree) 7 [0] [] = some [0, 2, 3, 1] ∧
    ((∀ v, v < numNodes fourRects →
      ∃ vs0 s1, buildAdjacency (initNodes fourRects) smallTree = some vs0 ∧
        dfs 0 (numNodes fourRects) v
          ⟨vs0, initRemaining fourRects, CMap.emptyMap, Component.empty⟩ = some s1 ∧
        ∃ k, ∀ f, k ≤ f →
          stackRun (neighboursOf smallTree) f [v] [] = some s1.component.node_ids) ∧
    ∃ cs, connectedComponents fourRects smallTree [] [] [] = .returned cs ∧
      ∀ C ∈ cs, ∃ r tl, C.node_ids = r :: tl ∧
        ∃ k, ∀ f, k ≤ f → stackRun (neighboursOf smallTree) f [r] [] = some C.node_ids) :=
  ⟨by unfold ValidEdges; decide, by decide,
   explicit_stack_agrees fourRects smallTree [] [] (by unfold ValidEdges; decide)
     (nil_good _ _) (nil_good _ _)⟩

/-! ## Self-loops and rectangle handles -/

/-- The reference loop over nodes that are all in the output already changes nothing. -/
theorem preorderLoop_visited (rec : Nat → List Nat → List Nat) :
    ∀ (d acc : List Nat), (∀ w ∈ d, w ∈ acc) → preorderLoop rec d acc = acc := by
  intro d
  induction d with
  | nil => intro acc _; rfl
  | cons w d ih =>
    intro acc h
    have hw : w ∈ acc := h w (List.mem_cons_self _ _)
    simp only [preorderLoop, hw, if_true]
    exact ih acc (fun x hx => h x (List.mem_cons_of_mem _ hx))

/-- Entries of a neighbour list that name the node itself do not change the reference
traversal: the node is in the output before its list is scanned. -/
theorem preorderVisit_selfloop (adj1 adj2 : Nat → List Nat) (l1 d l3 : Nat → List Nat)
    (h1 : ∀ u, adj1 u = l1 u ++ l3 u) (h2 : ∀ u, adj2 u = l1 u ++ d u ++ l3 u)
    (hd : ∀ u, ∀ w ∈ d u, w = u) :
    ∀ fuel, preorderVisit adj2 fuel = preorderVisit adj1 fuel := by
  intro fuel
  induction fuel with
  | zero => rfl
  | succ fuel ih =>
    funext v acc
    simp only [preorderVisit]
    rw [ih, h1, h2, preorderLoop_append, preorderLoop_append, preorderLoop_append,
      preorderLoop_visited _ (d v) _ (fun w hw => by
        rw [hd v w hw]
        exact preorderLoop_mono (preorderVisit_mono adj1 fuel) _ _ v (by simp))]

/-- A call that returns was given in-range edges and constraints that meet the
precondition. -/
theorem returned_valid {rs : List Nat} {es : List (Nat × Nat)}
    {scx scy : List SimpleConstraint} {cs0 cs : List Component}
    (h : connectedComponents rs es scx scy cs0 = .returned cs) :
    ValidEdges (numNodes rs) es ∧ (∀ x ∈ scx, GoodConstraint (numNodes rs) es x) ∧
      (∀ y ∈ scy, GoodConstraint (numNodes rs) es y) := by
  by_cases hv : ValidEdges (numNodes rs) es
  · obtain ⟨_, s, fin, _, _, hex, hrun⟩ := connectedComponents_run rs es scx scy cs0 hv
    rcases hrun with ⟨_, _, _, hr⟩ | ⟨_, _, _, _, hr⟩ | ⟨hx, hy, _⟩
    · rw [hr] at h; exact Outcome.noConfusion h
    · rw [hr] at h; exact Outcome.noConfusion h
    · exact ⟨hv, hx, hy⟩
  · have hb : buildAdjacency (initNodes rs) es = none :=
      buildAdjacency_none es (initNodes rs) (by rw [length_initNodes]; exact hv)
    simp only [connectedComponents, hb] at h
    exact Outcome.noConfusion h

/-- C31 (every returned component is non-empty).  On a valid input every component the
extraction loop creates has at least one id, and so has every returned component, whose
`node_ids` are those of the extraction; the number of returned components is at most `N`,
and it is 0 exactly when `N = 0`. -/
theorem components_nonempty (rs : List Nat) (es : List (Nat × Nat))
    (scx scy : List SimpleConstraint) (hv : ValidEdges (numNodes rs) es)
    (hx : ∀ x ∈ scx, GoodConstraint (numNodes rs) es x)
    (hy : ∀ y ∈ scy, GoodConstraint (numNodes rs) es y) :
    ∃ vs0 s cs, buildAdjacency (initNodes rs) es = some vs0 ∧
      extractLoop (numNodes rs) (numNodes rs + 1)
        ⟨vs0, initRemaining rs, CMap.emptyMap, []⟩ = some s ∧
      (∀ c ∈ s.components, 1 ≤ c.node_ids.length) ∧
      connectedComponents rs es scx scy [] = .returned cs ∧
      cs.map Component.node_ids = s.components.map Component.node_ids ∧
      (∀ C ∈ cs, 1 ≤ C.node_ids.length) ∧
      cs.length ≤ numNodes rs ∧ (cs.length = 0 ↔ numNodes rs = 0) := by
  obtain ⟨vs0, s, fin, hb, hs, hex, hr⟩ :=
    connectedComponents_returned rs es scx scy [] hv hx hy
  have hcomps : s.components = fin := by rw [hex.comps, List.nil_append]
  have hpos : ∀ c ∈ fin, 1 ≤ c.node_ids.length := fun c hc =>
    List.length_pos.2 (hex.ne c hc)
  have hle : fin.length ≤ numNodes rs := by
    rw [← hex.length_allIds]
    exact length_le_allIds fin hex.ne
  refine ⟨vs0, s, fin.map (finish es scx scy), hb, hs, ?_, by rw [hr, List.nil_append],
    ?_, ?_, ?_, ?_⟩
  · rw [hcomps]; exact hpos
  · rw [hcomps, map_finish_node_ids]
  · intro C hC
    obtain ⟨c, hc, rfl⟩ := mem_map_finish.1 hC
    rw [finish_node_ids]
    exact hpos c hc
  · rw [List.length_map]; exact hle
  · rw [List.length_map]
    constructor
    · intro h0
      have hnil : fin = [] := List.length_eq_zero.1 h0
      rw [← hex.length_allIds, hnil]
      rfl
    · intro h0
      omega

theorem components_nonempty_witness :
    ValidEdges (numNodes sixRects) twoTriangles ∧
    connectedComponents [] [] [] [] [] = .returned [] ∧
    ∃ vs0 s cs, buildAdjacency (initNodes sixRects) twoTriangles = some vs0 ∧
      extractLoop (numNodes sixRects) (numNodes sixRects + 1)
        ⟨vs0, initRemaining sixRects, CMap.emptyMap, []⟩ = some s ∧
      (∀ c ∈ s.components, 1 ≤ c.node_ids.length) ∧
      connectedComponents sixRects twoTriangles [⟨0, 1, 10⟩] [] [] = .returned cs ∧
      cs.map Component.node_ids = s.components.map Component.node_ids ∧
      (∀ C ∈ cs, 1 ≤ C.node_ids.length) ∧
      cs.length ≤ numNodes sixRects ∧ (cs.length = 0 ↔ numNodes sixRects = 0) :=
  ⟨twoTriangles_valid, by decide,
   components_nonempty sixRects twoTriangles [⟨0, 1, 10⟩] [] twoTriangles_valid
     twoTriangles_good (nil_good _ _)⟩

/-- C32 (self-loop edges are tolerated).  On a valid input with edge list `pre ++ post`,
inserting an edge `(u, u)` on a node `u` below `N` between `pre` and `post` leaves the id
lists `L` of the returned components unchanged, hence their number, order, `node_ids`,
`rects`, `scx` and `scy`.  The local edge lists change only by the entry `(k, k)`, `k` the
position of `u`, in the component that holds `u`; there is such a component, and the total
number of local edges grows by one. -/
theorem self_loop_tolerated (rs : List Nat) (pre post : List (Nat × Nat)) (u : Nat)
    (scx scy : List SimpleConstraint) (hu : u < numNodes rs)
    (hv : ValidEdges (numNodes rs) (pre ++ post))
    (hx : ∀ x ∈ scx, GoodConstraint (numNodes rs) (pre ++ post) x)
    (hy : ∀ y ∈ scy, GoodConstraint (numNodes rs) (pre ++ post) y) :
    ∃ L : List (List Nat),
      connectedComponents rs (pre ++ post) scx scy [] =
        .returned (L.map (componentOf rs (pre ++ post) scx scy)) ∧
      connectedComponents rs (pre ++ (u, u) :: post) scx scy [] =
        .returned (L.map (componentOf rs (pre ++ (u, u) :: post) scx scy)) ∧
      (∀ ids : List Nat,
        localEdges ids (pre ++ post) = localEdges ids pre ++ localEdges ids post ∧
        localEdges ids (pre ++ (u, u) :: post) =
          localEdges ids pre ++
            (if u ∈ ids then [(ids.indexOf u, ids.indexOf u)] else []) ++
            localEdges ids post) ∧
      (∃ ids ∈ L, u ∈ ids) ∧
      (L.map (fun ids => (localEdges ids (pre ++ (u, u) :: post)).length)).sum =
        (L.map (fun ids => (localEdges ids (pre ++ post)).length)).sum + 1 := by
  have hv2 : ValidEdges (numNodes rs) (pre ++ (u, u) :: post) := by
    intro x hxm
    rcases List.mem_append.1 hxm with h | h
    · exact hv x (List.mem_append_left _ h)
    · rcases List.mem_cons.1 h with rfl | h
      · exact ⟨hu, hu⟩
      · exact hv x (List.mem_append_right _ h)
  have hsub : ∀ x ∈ pre ++ post, x ∈ pre ++ (u, u) :: post := by
    intro x hxm
    rcases List.mem_append.1 hxm with h | h
    · exact List.mem_append_left _ h
    · exact List.mem_append_right _ (List.mem_cons_of_mem _ h)
  have hadj : ∀ a b, EdgeAdj (pre ++ post) a b → EdgeAdj (pre ++ (u, u) :: post) a b :=
    fun a b h => h.elim (fun h1 => Or.inl (hsub _ h1)) (fun h1 => Or.inr (hsub _ h1))
  have hself : ∀ w, ∀ x ∈ incident w (u, u), x = w := by
    intro w x hxm
    unfold incident at hxm
    by_cases h : u = w
    · subst h
      simpa using hxm
    · simp [h] at hxm
  have hP : preorder (neighboursOf (pre ++ (u, u) :: post)) (numNodes rs) =
      preorder (neighboursOf (pre ++ post)) (numNodes rs) := by
    funext root
    simp only [preorder]
    rw [preorderVisit_selfloop (neighboursOf (pre ++ post))
      (neighboursOf (pre ++ (u, u) :: post))
      (neighboursOf pre) (fun w => incident w (u, u)) (neighboursOf post)
      (fun w => neighboursOf_append pre post w)
      (fun w => by rw [neighboursOf_append, neighboursOf_cons, List.append_assoc])
      hself]
  obtain ⟨L, h1, h2, hs1, hs2⟩ := same_id_lists rs _ _ scx scy hv hv2 hx hy hP hadj
  obtain ⟨_, fin, hex, _, hr⟩ := returned_closed_form rs (pre ++ post) scx scy [] hv hx hy
  have hL : L = fin.map Component.node_ids := by
    rw [h1, List.nil_append] at hr
    injection hr with hr
    have h3 := congrArg (List.map Component.node_ids) hr
    simpa [List.map_map, Function.comp_def, componentOf] using h3
  refine ⟨L, h1, h2, ?_, ?_, ?_⟩
  · intro ids
    refine ⟨localEdges_append ids pre post, ?_⟩
    rw [localEdges_append, localEdges_cons, List.append_assoc]
    by_cases hm : u ∈ ids <;> simp [hm]
  · obtain ⟨c, hc, huc⟩ := mem_allIds.1 ((hex.mem u).2 hu)
    exact ⟨c.node_ids, by rw [hL]; exact List.mem_map_of_mem _ hc, huc⟩
  · rw [hs1, hs2]; simp only [List.length_append, List.length_cons]; omega

theorem self_loop_tolerated_witness :
    numNodes sixRects > 1 ∧
    ValidEdges (numNodes sixRects) ([(0, 1), (1, 2)] ++ [(2, 0), (3, 4), (4, 5), (5, 3)]) ∧
    connectedComponents sixRects ([(0, 1), (1, 2)] ++ (1, 1) ::
        [(2, 0), (3, 4), (4, 5), (5, 3)]) [⟨0, 1, 10⟩] [] [] =
      .returned
        [⟨[0, 1, 2], [10, 11, 12], [(0, 1), (1, 2), (1, 1), (2, 0)], [⟨0, 1, 10⟩], []⟩,
         ⟨[3, 4, 5], [13, 14, 15], [(0, 1), (1, 2), (2, 0)], [], []⟩] ∧
    ∃ L : List (List Nat),
      connectedComponents sixRects ([(0, 1), (1, 2)] ++ [(2, 0), (3, 4), (4, 5), (5, 3)])
          [⟨0, 1, 10⟩] [] [] =
        .returned (L.map (componentOf sixRects
          ([(0, 1), (1, 2)] ++ [(2, 0), (3, 4), (4, 5), (5, 3)]) [⟨0, 1, 10⟩] [])) ∧
      connectedComponents sixRects ([(0, 1), (1, 2)] ++ (1, 1) ::
          [(2, 0), (3, 4), (4, 5), (5, 3)]) [⟨0, 1, 10⟩] [] [] =
        .returned (L.map (componentOf sixRects
          ([(0, 1), (1, 2)] ++ (1, 1) :: [(2, 0), (3, 4), (4, 5), (5, 3)])
          [⟨0, 1, 10⟩] [])) ∧
      (∀ ids : List Nat,
        localEdges ids ([(0, 1), (1, 2)] ++ [(2, 0), (3, 4), (4, 5), (5, 3)]) =
          localEdges ids [(0, 1), (1, 2)] ++
            localEdges ids [(2, 0), (3, 4), (4, 5), (5, 3)] ∧
        localEdges ids ([(0, 1), (1, 2)] ++ (1, 1) :: [(2, 0), (3, 4), (4, 5), (5, 3)]) =
          localEdges ids [(0, 1), (1, 2)] ++
            (if 1 ∈ ids then [(ids.indexOf 1, ids.indexOf 1)] else []) ++
            localEdges ids [(2, 0), (3, 4), (4, 5), (5, 3)]) ∧
      (∃ ids ∈ L, 1 ∈ ids) ∧
      (L.map (fun ids => (localEdges ids ([(0, 1), (1, 2)] ++ (1, 1) ::
          [(2, 0), (3, 4), (4, 5), (5, 3)])).length)).sum =
        (L.map (fun ids => (localEdges ids ([(0, 1), (1, 2)] ++
          [(2, 0), (3, 4), (4, 5), (5, 3)])).length)).sum + 1 :=
  ⟨by decide, twoTriangles_valid, by decide,
   self_loop_tolerated sixRects [(0, 1), (1, 2)] [(2, 0), (3, 4), (4, 5), (5, 3)] 1
     [⟨0, 1, 10⟩] [] (by decide) twoTriangles_valid twoTriangles_good (nil_good _ _)⟩

/-- C33 (independence from rectangle contents).  If a call with rectangle handles `rs1`
returns components `cs1`, the call with the same edges and constraints and any handles
`rs2` of the same count `N` returns components `cs2`, matching `cs1` one by one in order:
the same `node_ids`, local edges, `scx` and `scy`.  Only `rects` depends on the handles:
in each call the entry at position `k` is the handle the call was given at the global id
`node_ids[k]`. -/
theorem rectangle_independence (rs1 rs2 : List Nat) (es : List (Nat × Nat))
    (scx scy : List SimpleConstraint) (cs1 : List Component)
    (hN : numNodes rs2 = numNodes rs1)
    (h : connectedComponents rs1 es scx scy [] = .returned cs1) :
    ∃ cs2, connectedComponents rs2 es scx scy [] = .returned cs2 ∧
      List.Forall₂ (fun C D => D.node_ids = C.node_ids ∧ D.edges = C.edges ∧
        D.scx = C.scx ∧ D.scy = C.scy ∧
        C.rects.map some = C.node_ids.map (fun u => rs1[u]?) ∧
        D.rects.map some = D.node_ids.map (fun u => rs2[u]?)) cs1 cs2 := by
  obtain ⟨hv, hx, hy⟩ := returned_valid h
  obtain ⟨_, fin1, hex1, hch1, hr1⟩ := returned_closed_form rs1 es scx scy [] hv hx hy
  have hv2 : ValidEdges (numNodes rs2) es := by rw [hN]; exact hv
  have hx2 : ∀ x ∈ scx, GoodConstraint (numNodes rs2) es x := by rw [hN]; exact hx
  have hy2 : ∀ y ∈ scy, GoodConstraint (numNodes rs2) es y := by rw [hN]; exact hy
  obtain ⟨_, fin2, hex2, hch2, hr2⟩ := returned_closed_form rs2 es scx scy [] hv2 hx2 hy2
  rw [hN] at hch2
  have hL := chain_unique _ _ _ hch2 hch1
  rw [hr1] at h
  injection h with h
  subst h
  refine ⟨_, hr2, ?_⟩
  rw [hL, List.nil_append, List.nil_append, List.forall₂_map_left_iff,
    List.forall₂_map_right_iff, List.forall₂_same]
  intro ids hids
  obtain ⟨c, hc, rfl⟩ := List.mem_map.1 hids
  have hlt : ∀ w ∈ c.node_ids, w < numNodes rs1 := fun w hw =>
    (hex1.mem w).1 (mem_allIds.2 ⟨c, hc, hw⟩)
  refine ⟨rfl, rfl, rfl, rfl, ?_, ?_⟩
  · simp only [componentOf, List.map_map]
    apply List.map_congr_left
    intro w hw
    exact (rect_of_lt (hlt w hw)).symm
  · simp only [componentOf, List.map_map]
    apply List.map_congr_left
    intro w hw
    exact (rect_of_lt (by rw [hN]; exact hlt w hw)).symm

theorem rectangle_independence_witness :
    numNodes otherRects = numNodes sixRects ∧
    connectedComponents sixRects twoTriangles [⟨0, 1, 10⟩] [] [] =
      .returned
        [⟨[0, 1, 2], [10, 11, 12], [(0, 1), (1, 2), (2, 0)], [⟨0, 1, 10⟩], []⟩,
         ⟨[3, 4, 5], [13, 14, 15], [(0, 1), (1, 2), (2, 0)], [], []⟩] ∧
    connectedComponents otherRects twoTriangles [⟨0, 1, 10⟩] [] [] =
      .returned
        [⟨[0, 1, 2], [20, 21, 22], [(0, 1), (1, 2), (2, 0)], [⟨0, 1, 10⟩], []⟩,
         ⟨[3, 4, 5], [23, 24, 25], [(0, 1), (1, 2), (2, 0)], [], []⟩] ∧
    ∃ cs2, connectedComponents otherRects twoTriangles [⟨0, 1, 10⟩] [] [] = .returned cs2 ∧
      List.Forall₂ (fun (C D : Component) => D.node_ids = C.node_ids ∧ D.edges = C.edges ∧
        D.scx = C.scx ∧ D.scy = C.scy ∧
        C.rects.map some = C.node_ids.map (fun u => sixRects[u]?) ∧
        D.rects.map some = D.node_ids.map (fun u => otherRects[u]?))
        [⟨[0, 1, 2], [10, 11, 12], [(0, 1), (1, 2), (2, 0)], [⟨0, 1, 10⟩], []⟩,
         ⟨[3, 4, 5], [13, 14, 15], [(0, 1), (1, 2), (2, 0)], [], []⟩] cs2 :=
  ⟨by decide, by decide, by decide,
   rectangle_independence sixRects otherRects twoTriangles [⟨0, 1, 10⟩] []
     [⟨[0, 1, 2], [10, 11, 12], [(0, 1), (1, 2), (2, 0)], [⟨0, 1, 10⟩], []⟩,
      ⟨[3, 4, 5], [13, 14, 15], [(0, 1), (1, 2), (2, 0)], [], []⟩] (by decide) (by decide)⟩

/-! ## Every outcome in closed form -/

/-- The components of the extraction with their lists filled in, by id list. -/
theorem map_finish_closed {rs : List Nat} {es : List (Nat × Nat)} {cs0 : List Component}
    {s : CCState} {fin : List Component} (hex : Extracted rs es cs0 s fin)
    (xs ys : List SimpleConstraint) :
    fin.map (finish es xs ys) =
      (fin.map Component.node_ids).map (componentOf rs es xs ys) := by
  rw [List.map_map]
  apply List.map_congr_left
  intro c hc
  rw [hex.finish_eq xs ys hc]
  rfl

/-- The call stops in the Y loop when the X constraints meet the precondition and the Y
loop meets one that does not. -/
theorem run_stops_y (rs : List Nat) (es : List (Nat × Nat))
    (scx scy : List SimpleConstraint) (cs0 : List Component)
    (hv : ValidEdges (numNodes rs) es)
    (hx : ∀ x ∈ scx, GoodConstraint (numNodes rs) es x)
    {py : List SimpleConstraint} {f : Fault}
    (hst : Stops (numNodes rs) es scy py f) :
    ∃ vs0 s fin, buildAdjacency (initNodes rs) es = some vs0 ∧
      extractLoop (numNodes rs) (numNodes rs + 1)
        ⟨vs0, initRemaining rs, CMap.emptyMap, cs0⟩ = some s ∧
      Extracted rs es cs0 s fin ∧
      connectedComponents rs es scx scy cs0 =
        .failed f (cs0 ++ fin.map (finish es scx py)) := by
  obtain ⟨vs0, s, fin, hb, hs, hex⟩ := extraction_spec rs es cs0 hv
  obtain ⟨cmap1, he, hd1⟩ := edges_pass hex hv
  obtain ⟨cmap2, h2, hd2⟩ := scx_pass hex hd1 hx
  refine ⟨vs0, s, fin, hb, hs, hex, ?_⟩
  simp only [connectedComponents, hb, hs, he, h2, scy_stops hex hd2 scx hst]

/-- How a call on in-range edges ends is fixed by `N`, the edges and the constraints alone:
whether it returns or at which fault it stops, the id lists of the new components, and
the constraints attached by then.  The rectangle handles and the earlier content of the
output vector only fill `rects` and the front of the vector. -/
theorem run_outcome (n : Nat) (es : List (Nat × Nat)) (scx scy : List SimpleConstraint)
    (hv : ValidEdges n es) :
    ∃ xs ys : List SimpleConstraint,
      (∀ (rs : List Nat) (cs0 : List Component), numNodes rs = n →
        ∃ L, Chain (preorder (neighboursOf es) n) n [] L ∧
          connectedComponents rs es scx scy cs0 =
            .returned (cs0 ++ L.map (componentOf rs es xs ys))) ∨
      ∃ f, ∀ (rs : List Nat) (cs0 : List Component), numNodes rs = n →
        ∃ L, Chain (preorder (neighboursOf es) n) n [] L ∧
          connectedComponents rs es scx scy cs0 =
            .failed f (cs0 ++ L.map (componentOf rs es xs ys)) := by
  rcases good_or_stops n es scx with hx | ⟨px, f, hst⟩
  · rcases good_or_stops n es scy with hy | ⟨py, f, hst⟩
    · refine ⟨scx, scy, Or.inl ?_⟩
      intro rs cs0 hn
      subst hn
      obtain ⟨_, fin, _, hch, hr⟩ := returned_closed_form rs es scx scy cs0 hv hx hy
      exact ⟨_, hch, hr⟩
    · refine ⟨scx, py, Or.inr ⟨f, ?_⟩⟩
      intro rs cs0 hn
      subst hn
      obtain ⟨vs0, s, fin, hb, hs, hex, hr⟩ := run_stops_y rs es scx scy cs0 hv hx hst
      have hord := extraction_ordered rs es cs0 hv vs0 s fin hb hs hex.comps
      exact ⟨_, chain_of_extracted hex hord, by rw [hr, map_finish_closed hex]⟩
  · refine ⟨px, [], Or.inr ⟨f, ?_⟩⟩
    intro rs cs0 hn
    subst hn
    obtain ⟨vs0, s, fin, hb, hs, hex, hr⟩ := run_stops_x rs es scx scy cs0 hv hst
    have hord := extraction_ordered rs es cs0 hv vs0 s fin hb hs hex.comps
    exact ⟨_, chain_of_extracted hex hord, by rw [hr, map_finish_closed hex]⟩

/-- C18 (determinism).  Two calls with the same `N`, the same edge list and the same X and
Y constraint lists end the same way, whatever the rectangle handles and whatever the
output vector holds at each call: both return or both stop at the same fault, and the
components the two calls add to their vectors match one by one in order, so there are
equally many, with identical `node_ids`, local edges, `scx` and `scy`. -/
theorem determinism (rs1 rs2 : List Nat) (es : List (Nat × Nat))
    (scx scy : List SimpleConstraint) (cs01 cs02 : List Component)
    (hN : numNodes rs2 = numNodes rs1) :
    ∃ new1 new2 : List Component,
      List.Forall₂ (fun C D => D.node_ids = C.node_ids ∧ D.edges = C.edges ∧
        D.scx = C.scx ∧ D.scy = C.scy) new1 new2 ∧
      ((connectedComponents rs1 es scx scy cs01 = .returned (cs01 ++ new1) ∧
        connectedComponents rs2 es scx scy cs02 = .returned (cs02 ++ new2)) ∨
       ∃ f, connectedComponents rs1 es scx scy cs01 = .failed f (cs01 ++ new1) ∧
        connectedComponents rs2 es scx scy cs02 = .failed f (cs02 ++ new2)) := by
  by_cases hv : ValidEdges (numNodes rs1) es
  · obtain ⟨xs, ys, h⟩ := run_outcome (numNodes rs1) es scx scy hv
    have hsame : ∀ L : List (List Nat),
        List.Forall₂ (fun C D => D.node_ids = C.node_ids ∧ D.edges = C.edges ∧
          D.scx = C.scx ∧ D.scy = C.scy)
          (L.map (componentOf rs1 es xs ys)) (L.map (componentOf rs2 es xs ys)) := by
      intro L
      rw [List.forall₂_map_left_iff, List.forall₂_map_right_iff, List.forall₂_same]
      intro ids _
      exact ⟨rfl, rfl, rfl, rfl⟩
    rcases h with h | ⟨f, h⟩
    · obtain ⟨L1, hc1, hr1⟩ := h rs1 cs01 rfl
      obtain ⟨L2, hc2, hr2⟩ := h rs2 cs02 hN
      have hL := chain_unique _ _ _ hc2 hc1
      subst hL
      exact ⟨_, _, hsame L2, Or.inl ⟨hr1, hr2⟩⟩
    · obtain ⟨L1, hc1, hr1⟩ := h rs1 cs01 rfl
      obtain ⟨L2, hc2, hr2⟩ := h rs2 cs02 hN
      have hL := chain_unique _ _ _ hc2 hc1
      subst hL
      exact ⟨_, _, hsame L2, Or.inr ⟨f, hr1, hr2⟩⟩
  · have hb1 : buildAdjacency (initNodes rs1) es = none :=
      buildAdjacency_none es (initNodes rs1) (by rw [length_initNodes]; exact hv)
    have hb2 : buildAdjacency (initNodes rs2) es = none :=
      buildAdjacency_none es (initNodes rs2) (by rw [length_initNodes, hN]; exact hv)
    refine ⟨[], [], List.Forall₂.nil, Or.inr ⟨Fault.outOfRange, ?_, ?_⟩⟩
    · simp only [connectedComponents, hb1, List.append_nil]
    · simp only [connectedComponents, hb2, List.append_nil]

theorem determinism_witness :
    numNodes otherRects = numNodes sixRects ∧
    connectedComponents sixRects twoTriangles [⟨0, 1, 10⟩] [] [] =
      .returned
        [⟨[0, 1, 2], [10, 11, 12], [(0, 1), (1, 2), (2, 0)], [⟨0, 1, 10⟩], []⟩,
         ⟨[3, 4, 5], [13, 14, 15], [(0, 1), (1, 2), (2, 0)], [], []⟩] ∧
    connectedComponents otherRects twoTriangles [⟨0, 1, 10⟩] [] [⟨[7], [70], [], [], []⟩] =
      .returned
        [⟨[7], [70], [], [], []⟩,
         ⟨[0, 1, 2], [20, 21, 22], [(0, 1), (1, 2), (2, 0)], [⟨0, 1, 10⟩], []⟩,
         ⟨[3, 4, 5], [23, 24, 25], [(0, 1), (1, 2), (2, 0)], [], []⟩] ∧
    ∃ new1 new2 : List Component,
      List.Forall₂ (fun C D => D.node_ids = C.node_ids ∧ D.edges = C.edges ∧
        D.scx = C.scx ∧ D.scy = C.scy) new1 new2 ∧
      ((connectedComponents sixRects twoTriangles [⟨0, 1, 10⟩] [] [] =
          .returned ([] ++ new1) ∧
        connectedComponents otherRects twoTriangles [⟨0, 1, 10⟩] []
          [⟨[7], [70], [], [], []⟩] = .returned ([⟨[7], [70], [], [], []⟩] ++ new2)) ∨
       ∃ f, connectedComponents sixRects twoTriangles [⟨0, 1, 10⟩] [] [] =
          .failed f ([] ++ new1) ∧
        connectedComponents otherRects twoTriangles [⟨0, 1, 10⟩] []
          [⟨[7], [70], [], [], []⟩] = .failed f ([⟨[7], [70], [], [], []⟩] ++ new2)) :=
  ⟨by decide, by decide, by decide,
   determinism sixRects otherRects twoTriangles [⟨0, 1, 10⟩] [] []
     [⟨[7], [70], [], [], []⟩] (by decide)⟩

end cola
